import Mathlib

/-!
# Pearson correlation engine: embedding and properties

Source files embedded here:
* `src/pearson_thread/analysis.cpp`: `pearson_worker`, `correlation_coefficients`, `pearson`;
* `src/pearson/pearson_thread/analysis.hpp`: `ThreadData`;
* `src/pearson/pearson_op1/analysis.cpp`: the two-pass `pearson` (namespace `Op1`);
* `src/pearson/pearson_op2/analysis.cpp`: the fused `pearson` (namespace `Op2`);
* `src/pearson/pearson_op{1,2,3}/analysis.cpp`: the sequential `correlation_coefficients`
  (namespace `Sequential`); the `pearson` of `pearson_op3` is the text of the threaded one.

Conventions of the embedding.

* The arithmetic of `double` is a parameter of the kernel and of the engine: a type `α` with
  `0`, `1`, `+`, `-`, `*`, `/`, unary minus, the conversion of an unsigned integer, the
  comparison `<=`, `min` and `max` (for `std::min` and `std::max`), together with a square-root
  function `sqrt : α → α`.  It is instantiated in two ways.  `Double` is IEEE-754 binary64 with
  rounding to nearest, ties to even, infinities, NaN and signed zeros: what the compiled code
  computes.  A linearly ordered field, in particular `ℝ` with `Real.sqrt`, is the same code in
  exact arithmetic; statements made "in exact arithmetic" are about this instance.
* `int` is `Int`.  The conversion of `datasets.size()` to `int` and the product `N * (N - 1)`
  of the threaded engine are reduced with `toInt32` (two's-complement wrap); `/` and `%` on
  `int` are `Int.tdiv` and `Int.tmod` (truncation towards zero).  The increment of an `int`
  loop counter of the sequential engine has no defined result at `INT_MAX` (`intSucc`).
* `size_t` is 64 bits wide: a value converted to `size_t` is reduced with `toSize`.
* Reads and writes outside a container, a division of an `int` by zero, an allocation with a
  negative length and a signed overflow of a loop counter have no defined result: the
  embedding returns `none`.
* A `Vector` is the list of its elements; a pointer into the result buffer is the index of the
  slot it points to.
* Workers are run one after the other in creation order on the shared result buffer.
-/

set_option autoImplicit false

namespace Analysis

/-- Modelled from the spec: `Vector` (vector.hpp is not among the sources) is a fixed-dimension
container of doubles with random access; here it is the list of its elements, `get_size` is the
length and `get_data()[i]` is the `i`-th element. -/
abbrev Vector (α : Type) := List α

/-- The five running sums of the kernel: `sum_x`, `sum_y`, `sum_x2`, `sum_y2`, `sum_xy`. -/
structure Sums (α : Type) where
  sum_x : α
  sum_y : α
  sum_x2 : α
  sum_y2 : α
  sum_xy : α

section Kernel

variable {α : Type} [Zero α] [One α] [Add α] [Sub α] [Mul α] [Div α] [Neg α] [NatCast α]
  [LE α] [DecidableRel (fun a b : α => a ≤ b)] [Min α] [Max α]

/-- One group of updates
`sum_x += x; sum_y += y; sum_x2 += x * x; sum_y2 += y * y; sum_xy += x * y`. -/
def Sums.accumulate (s : Sums α) (x y : α) : Sums α :=
  { sum_x := s.sum_x + x
    sum_y := s.sum_y + y
    sum_x2 := s.sum_x2 + x * x
    sum_y2 := s.sum_y2 + y * y
    sum_xy := s.sum_xy + x * y }

/-- All five sums start at `0.0`. -/
def Sums.zero : Sums α :=
  { sum_x := 0, sum_y := 0, sum_x2 := 0, sum_y2 := 0, sum_xy := 0 }

/-- The unrolled loop `for (; i < loop_end; i += 4)` of `pearson` (analysis.cpp lines 93-109):
four groups of updates per iteration, reading elements `i`, `i+1`, `i+2`, `i+3`.
Returns the final `i` and the sums. -/
def unrolledLoop (x_data y_data : Vector α) (loop_end : Nat) (i : Nat) (s : Sums α) :
    Option (Nat × Sums α) :=
  if i < loop_end then do
    let x1 ← x_data[i]?
    let y1 ← y_data[i]?
    let s := s.accumulate x1 y1
    let x2 ← x_data[i + 1]?
    let y2 ← y_data[i + 1]?
    let s := s.accumulate x2 y2
    let x3 ← x_data[i + 2]?
    let y3 ← y_data[i + 2]?
    let s := s.accumulate x3 y3
    let x4 ← x_data[i + 3]?
    let y4 ← y_data[i + 3]?
    let s := s.accumulate x4 y4
    unrolledLoop x_data y_data loop_end (i + 4) s
  else
    some (i, s)
termination_by loop_end - i

/-- The remainder loop `for (; i < n; i++)` of `pearson` (analysis.cpp lines 112-120). -/
def remainderLoop (x_data y_data : Vector α) (n : Nat) (i : Nat) (s : Sums α) :
    Option (Sums α) :=
  if i < n then do
    let x ← x_data[i]?
    let y ← y_data[i]?
    remainderLoop x_data y_data n (i + 1) (s.accumulate x y)
  else
    some s
termination_by n - i

/-- The tail of `pearson` after the loops (analysis.cpp lines 122-136): numerator, the two
terms, the degeneracy test, the quotient and the clamp `std::max(std::min(r, 1.0), -1.0)`. -/
def finish (sqrt : α → α) (n : Nat) (s : Sums α) : α :=
  let N_double : α := (n : α)
  let numerator := N_double * s.sum_xy - s.sum_x * s.sum_y
  let term_x := N_double * s.sum_x2 - s.sum_x * s.sum_x
  let term_y := N_double * s.sum_y2 - s.sum_y * s.sum_y
  if term_x ≤ 0 ∨ term_y ≤ 0 then
    0
  else
    let denominator := sqrt (term_x * term_y)
    let r := numerator / denominator
    max (min r 1) (-1)

/-- The accumulation part of `pearson` (analysis.cpp lines 83-120): the sums start at zero,
`loop_end = n - (n % 4)`, the unrolled loop runs from `i = 0`, the remainder loop takes over
at the `i` the unrolled loop stopped at. -/
def accumulateSums (vec1 vec2 : Vector α) (n : Nat) : Option (Sums α) := do
  let loop_end := n - n % 4
  let (i, s) ← unrolledLoop vec1 vec2 loop_end 0 Sums.zero
  remainderLoop vec1 vec2 n i s

/-- The function `Analysis::pearson` of the threaded engine (analysis.cpp lines 75-137). -/
def pearson (sqrt : α → α) (vec1 vec2 : Vector α) : Option α :=
  let n := vec1.length
  if n = 0 then some 0
  else do
    let s ← accumulateSums vec1 vec2 n
    some (finish sqrt n s)

/-- Sums accumulated over the first `i` element pairs, in element order. -/
def sumsUpTo (x y : List α) (i : Nat) : Sums α :=
  ((x.zip y).take i).foldl (fun s p => s.accumulate p.1 p.2) Sums.zero

end Kernel

/-! ## Machine integers and container accesses -/

/-- The value of a 32-bit two's-complement `int` holding the mathematical integer `x`:
the representative of `x` modulo `2^32` in `[-2^31, 2^31)`. -/
def toInt32 (x : Int) : Int := (x + 2147483648) % 4294967296 - 2147483648

/-- Read `v[i]` for an `int` index: defined only inside the container. -/
def readAt {β : Type} (v : List β) (i : Int) : Option β :=
  if i < 0 then none else v[i.toNat]?

/-- Write `p[i] = c` for an `int` index: defined only inside the container. -/
def writeAt {β : Type} (v : List β) (i : Int) (c : β) : Option (List β) :=
  if 0 ≤ i ∧ i < (v.length : Int) then some (v.set i.toNat c) else none

/-- The record `ThreadData` of analysis.hpp.  `results_out` is the index in the result buffer of
the slot the pointer `&final_results[current_start_index]` points to. -/
structure ThreadData (α : Type) where
  datasets : List (Vector α)
  output_start_index : Int
  output_end_index : Int
  results_out : Int

section Engine

variable {α : Type} [Zero α] [One α] [Add α] [Sub α] [Mul α] [Div α] [Neg α] [NatCast α]
  [LE α] [DecidableRel (fun a b : α => a ≤ b)] [Min α] [Max α]

/-- The `while (k_temp >= (N - 1 - i)) { k_temp -= (N - 1 - i); i++; }` walk of
`pearson_worker` (analysis.cpp lines 22-25), returning the final `(i, k_temp)`.  The first
argument bounds the number of evaluations of the loop condition. -/
def decodeWalk (N : Int) : Nat → Int → Int → Option (Int × Int)
  | 0, _, _ => none
  | fuel + 1, i, k_temp =>
    if k_temp ≥ N - 1 - i then decodeWalk N fuel (i + 1) (k_temp - (N - 1 - i))
    else some (i, k_temp)

/-- Lines 20-27 of `pearson_worker`: decode the linear index `k` into the pair `(i, j)`.
The walk gets `N` evaluations of its condition: one that has reached row `N - 1` with a
non-negative `k_temp` never leaves the loop (see `decodeWalk_past_last_row`). -/
def decode (N : Int) (k : Int) : Option (Int × Int) :=
  (decodeWalk N N.toNat 0 k).map fun r => (r.1, r.1 + 1 + r.2)

/-- The body of the `for` loop of `pearson_worker` (analysis.cpp lines 20-31) at index `k`,
acting on the result buffer. -/
def workerBody (sqrt : α → α) (data : ThreadData α) (k : Int) (final_results : List α) :
    Option (List α) := do
  let N := toInt32 data.datasets.length
  let (i, j) ← decode N k
  let vi ← readAt data.datasets i
  let vj ← readAt data.datasets j
  let corr ← pearson sqrt vi vj
  writeAt final_results (data.results_out + (k - data.output_start_index)) corr

/-- The loop `for (int k = start; k < end; k++)` of `pearson_worker`; the first argument is the
number of iterations left. -/
def workerLoop (sqrt : α → α) (data : ThreadData α) :
    Nat → Int → List α → Option (List α)
  | 0, _, final_results => some final_results
  | n + 1, k, final_results => do
    let final_results ← workerBody sqrt data k final_results
    workerLoop sqrt data n (k + 1) final_results

/-- The function `Analysis::pearson_worker` (analysis.cpp lines 14-35) as a step on the result
buffer. -/
def pearson_worker (sqrt : α → α) (data : ThreadData α) (final_results : List α) :
    Option (List α) :=
  workerLoop sqrt data (data.output_end_index - data.output_start_index).toNat
    data.output_start_index final_results

/-- The scheduling loop `for (int t = 0; t < actual_threads; t++)` of
`correlation_coefficients` (analysis.cpp lines 55-67): the `thread_data` records it fills, in
order.  The first argument is the number of iterations left. -/
def scheduleLoop (datasets : List (Vector α)) (chunk_size remainder : Int) :
    Nat → Int → Int → List (ThreadData α)
  | 0, _, _ => []
  | n + 1, t, current_start_index =>
    let my_chunk := chunk_size + (if t < remainder then 1 else 0)
    { datasets := datasets
      output_start_index := current_start_index
      output_end_index := current_start_index + my_chunk
      results_out := current_start_index } ::
      scheduleLoop datasets chunk_size remainder n (t + 1) (current_start_index + my_chunk)

/-- The `thread_data` array of `correlation_coefficients` for given `total_tasks` and
`actual_threads` (analysis.cpp lines 47-67): `chunk_size = total_tasks / actual_threads`,
`remainder = total_tasks % actual_threads`, and the scheduling loop from `t = 0` and
`current_start_index = 0`. -/
def threadData (datasets : List (Vector α)) (total_tasks actual_threads : Int) :
    List (ThreadData α) :=
  let chunk_size := total_tasks.tdiv actual_threads
  let remainder := total_tasks.tmod actual_threads
  scheduleLoop datasets chunk_size remainder actual_threads.toNat 0 0

/-- Run the created workers on the shared buffer, in creation order, up to the joins. -/
def runWorkers (sqrt : α → α) : List (ThreadData α) → List α → Option (List α)
  | [], final_results => some final_results
  | data :: rest, final_results => do
    let final_results ← pearson_worker sqrt data final_results
    runWorkers sqrt rest final_results

/-- What a call of `correlation_coefficients` did: the `thread_data` records handed to
`pthread_create`, in order, and the returned buffer. -/
structure Outcome (α : Type) where
  spawned : List (ThreadData α)
  results : List α

/-- The function `Analysis::correlation_coefficients` (analysis.cpp lines 37-73), with the
workers it created. -/
def correlation_coefficients_run (sqrt : α → α) (datasets : List (Vector α))
    (num_threads : Int) : Option (Outcome α) :=
  let N := toInt32 datasets.length
  if N ≤ 1 then some { spawned := [], results := [] }
  else
    let total_tasks := (toInt32 (N * (N - 1))).tdiv 2
    if total_tasks < 0 then none
    else
      let final_results : List α := List.replicate total_tasks.toNat 0
      let actual_threads := min num_threads total_tasks
      if actual_threads ≤ 0 then none
      else
        let thread_data := threadData datasets total_tasks actual_threads
        (runWorkers sqrt thread_data final_results).map fun r =>
          { spawned := thread_data, results := r }

/-- The function `Analysis::correlation_coefficients` (analysis.cpp lines 37-73): the returned
buffer. -/
def correlation_coefficients (sqrt : α → α) (datasets : List (Vector α))
    (num_threads : Int) : Option (List α) :=
  (correlation_coefficients_run sqrt datasets num_threads).map Outcome.results

/-- The coefficient the worker computes for the linear index `k` (lines 20-29 of
`pearson_worker`, up to the call of `pearson`). -/
def pairCoefficient (sqrt : α → α) (datasets : List (Vector α)) (k : Int) : Option α := do
  let N := toInt32 datasets.length
  let (i, j) ← decode N k
  let vi ← readAt datasets i
  let vj ← readAt datasets j
  pearson sqrt vi vj

/-- A worker record whose view starts at slot `0` of the buffer and whose range starts at
index `0`: it writes the coefficient of `k` to slot `k`. -/
def wholeRange (datasets : List (Vector α)) (total : Int) : ThreadData α :=
  { datasets := datasets, output_start_index := 0, output_end_index := total, results_out := 0 }

end Engine

/-! ## The canonical pair order of the specification -/

/-- Canonical pair order of the specification: all pairs `(i, j)` with `i < j < N`, ordered by
`i` ascending, then `j` ascending: `(0,1),(0,2),…,(0,N-1),(1,2),…,(N-2,N-1)`. -/
def canonicalPairs (N : Nat) : List (Nat × Nat) :=
  (List.range N).flatMap fun i => (List.range' (i + 1) (N - (i + 1))).map fun j => (i, j)

/-- Twice the number of canonical pairs whose first index is below `i`:
`2 * (i*(N-1) - i*(i-1)/2) = i * (2*N - 1 - i)`. -/
def rowStart2 (N i : Int) : Int := i * (2 * N - 1 - i)

/-- Canonical rank of the pair `(i, j)` as the specification gives it:
`i*(N-1) - i*(i-1)/2 + (j - i - 1)`. -/
def canonicalRank (N : Int) (i j : Int) : Int :=
  i * (N - 1) - i * (i - 1) / 2 + (j - i - 1)

/-! ## The pair count and the thread count of the threaded engine -/

/-- The computation `int total_tasks = N * (N - 1) / 2` of `correlation_coefficients`
(analysis.cpp line 42) for the `int` value `N`: the product is taken in 32 bits, the division
truncates. -/
def total_tasks (N : Int) : Int := (toInt32 (N * (N - 1))).tdiv 2

/-- The computation `int actual_threads = std::min(num_threads, total_tasks)` of
`correlation_coefficients` (analysis.cpp line 46). -/
def actual_threads (num_threads total_tasks : Int) : Int := min num_threads total_tasks

/-- The value `pearson` returns on vectors of equal length: `0.0` for empty vectors, otherwise
the formula on the sums over all element pairs. -/
def pearsonValue {α : Type} [Zero α] [One α] [Add α] [Sub α] [Mul α] [Div α] [Neg α]
    [NatCast α] [LE α] [DecidableRel (fun a b : α => a ≤ b)] [Min α] [Max α]
    (sqrt : α → α) (x y : Vector α) : α :=
  if x.length = 0 then 0 else finish sqrt x.length (sumsUpTo x y x.length)

/-! ## The fused kernel of `pearson_op2` -/

namespace Op2

variable {α : Type} [Zero α] [One α] [Add α] [Sub α] [Mul α] [Div α] [Neg α] [NatCast α]
  [LE α] [DecidableRel (fun a b : α => a ≤ b)] [Min α] [Max α]

/-- The loop `for (unsigned i = 0; i < n; i++)` of `pearson` in pearson_op2 (analysis.cpp lines
43-52): one group of updates per element. -/
def fusedLoop (x_data y_data : Vector α) (n : Nat) (i : Nat) (s : Sums α) : Option (Sums α) :=
  if i < n then do
    let x ← x_data[i]?
    let y ← y_data[i]?
    fusedLoop x_data y_data n (i + 1) (s.accumulate x y)
  else
    some s
termination_by n - i

/-- The function `Analysis::pearson` of pearson_op2 (analysis.cpp lines 28-70).  Its lines 54-69
are the text of lines 122-136 of the threaded kernel, embedded as `finish`. -/
def pearson (sqrt : α → α) (vec1 vec2 : Vector α) : Option α :=
  let n := vec1.length
  if n = 0 then some 0
  else do
    let s ← fusedLoop vec1 vec2 n 0 Sums.zero
    some (finish sqrt n s)

end Op2

/-! ## The two-pass kernel of `pearson_op1` -/

/-- Modelled from the spec: `Vector::mean` (vector.hpp and vector.cpp are not among the
sources) is the mean operation of the container, the sum of the elements divided by the
size. -/
def mean {α : Type} [LinearOrderedField α] (v : Vector α) : α := v.sum / (v.length : α)

namespace Op1

variable {α : Type} [LinearOrderedField α]

/-- The three running sums of the two-pass kernel: `numerator`, `x_variance_sum`,
`y_variance_sum`. -/
structure Centered (α : Type) where
  numerator : α
  x_variance_sum : α
  y_variance_sum : α

/-- The loop `for (unsigned i = 0; i < size; i++)` of `pearson` in pearson_op1 (analysis.cpp
lines 40-48). -/
def centeredLoop (vec1 vec2 : Vector α) (x_mean y_mean : α) (size : Nat) (i : Nat)
    (c : Centered α) : Option (Centered α) :=
  if i < size then do
    let xi ← vec1[i]?
    let yi ← vec2[i]?
    let x_diff := xi - x_mean
    let y_diff := yi - y_mean
    centeredLoop vec1 vec2 x_mean y_mean size (i + 1)
      { numerator := c.numerator + x_diff * y_diff
        x_variance_sum := c.x_variance_sum + x_diff * x_diff
        y_variance_sum := c.y_variance_sum + y_diff * y_diff }
  else
    some c
termination_by size - i

/-- The function `Analysis::pearson` of pearson_op1 (analysis.cpp lines 28-59). -/
def pearson (sqrt : α → α) (vec1 vec2 : Vector α) : Option α :=
  let x_mean := mean vec1
  let y_mean := mean vec2
  let size := vec1.length
  if size = 0 then some 0
  else do
    let c ← centeredLoop vec1 vec2 x_mean y_mean size 0
      { numerator := 0, x_variance_sum := 0, y_variance_sum := 0 }
    let denominator := sqrt (c.x_variance_sum * c.y_variance_sum)
    if denominator = 0 then some 0
    else
      let r := c.numerator / denominator
      some (max (min r 1) (-1))

end Op1

/-! ## The sequential `correlation_coefficients` of `pearson_op1`, `pearson_op2`, `pearson_op3` -/

/-- The value of a 64-bit unsigned `size_t` holding the mathematical integer `x`: the
representative of `x` modulo `2^64` in `[0, 2^64)`. -/
def toSize (x : Int) : Int := x % 18446744073709551616

namespace Sequential

variable {α : Type}

/-- What a call of the sequential `correlation_coefficients` did: the returned `result`, the
number of executions of the body of the outer loop and the number of calls of `pearson`. -/
structure Trace (α : Type) where
  result : List α
  outer_iterations : Nat
  pearson_calls : Nat

/-- Number of values of an `int`: a loop whose only changing variable is an `int` counter and
that has not left after this many evaluations of its condition never leaves. -/
def intStates : Nat := 4294967296

/-- The value of `x + 1` for an `int` `x`, as in `sample1 + 1`, `sample1++` and `sample2++`:
signed overflow has no defined result, so there is none for `x = INT_MAX`. -/
def intSucc (x : Int) : Option Int := if x + 1 ≤ 2147483647 then some (x + 1) else none

/-- The inner loop `for (auto sample2 { sample1 + 1 }; sample2 < datasets.size(); sample2++)`
(analysis.cpp lines 19-22), from a given value of `sample2`.  The counter is an `int`, the
comparison is made in `size_t`.  The first argument bounds the number of evaluations of the
loop condition. -/
def innerLoop (pearson : Vector α → Vector α → Option α) (datasets : List (Vector α)) :
    Nat → Int → Int → Trace α → Option (Trace α)
  | 0, _, _, _ => none
  | fuel + 1, sample1, sample2, st =>
    if toSize sample2 < (datasets.length : Int) then do
      let v1 ← datasets[(toSize sample1).toNat]?
      let v2 ← datasets[(toSize sample2).toNat]?
      let corr ← pearson v1 v2
      let next ← intSucc sample2
      innerLoop pearson datasets fuel sample1 next
        { st with result := st.result ++ [corr], pearson_calls := st.pearson_calls + 1 }
    else
      some st

/-- The outer loop `for (auto sample1 { 0 }; sample1 < datasets.size() - 1; sample1++)`
(analysis.cpp lines 18-23).  The counter is an `int`; the bound `datasets.size() - 1` and the
comparison are made in `size_t`.  The body computes `sample1 + 1`, runs the inner loop from
there, and increments `sample1`.  The first argument bounds the number of evaluations of the
loop condition. -/
def outerLoop (pearson : Vector α → Vector α → Option α) (datasets : List (Vector α)) :
    Nat → Int → Trace α → Option (Trace α)
  | 0, _, _ => none
  | fuel + 1, sample1, st =>
    if toSize sample1 < toSize ((datasets.length : Int) - 1) then do
      let sample2 ← intSucc sample1
      let st ← innerLoop pearson datasets intStates sample1 sample2 st
      let next ← intSucc sample1
      outerLoop pearson datasets fuel next
        { st with outer_iterations := st.outer_iterations + 1 }
    else
      some st

/-- The function `Analysis::correlation_coefficients` of pearson_op1, pearson_op2 and
pearson_op3 (analysis.cpp lines 14-26, the same text in the three files), with its trace.  The
kernel `pearson` of the variant is an argument. -/
def run (pearson : Vector α → Vector α → Option α) (datasets : List (Vector α)) :
    Option (Trace α) :=
  outerLoop pearson datasets intStates 0 { result := [], outer_iterations := 0, pearson_calls := 0 }

/-- The function `Analysis::correlation_coefficients` of pearson_op1, pearson_op2 and
pearson_op3 (analysis.cpp lines 14-26): the returned `result`. -/
def correlation_coefficients (pearson : Vector α → Vector α → Option α)
    (datasets : List (Vector α)) : Option (List α) :=
  (run pearson datasets).map Trace.result

end Sequential

end Analysis
namespace Analysis

/-! ## IEEE-754 binary64 -/

/-- A value of the type `double` in IEEE-754 binary64: a NaN, an infinity with its sign, or a
finite number `± mant * 2^exp` with its sign bit.  The operations below return finite numbers
in canonical form: `mant < 2^53`, `-1074 ≤ exp ≤ 971`, and `2^52 ≤ mant` unless `exp = -1074`
(subnormal numbers and the two zeros). -/
inductive Double where
  | nan
  | inf (negative : Bool)
  | finite (negative : Bool) (mant : Nat) (exp : Int)
deriving DecidableEq

namespace Double

/-- The first `j`, counting up from the given one, with `m < 2^(2^j)`; the first argument
bounds the number of tests, and `m` tests are always enough. -/
def bitLengthCap (m : Nat) : Nat → Nat → Nat
  | 0, j => j
  | fuel + 1, j => if m < 2 ^ 2 ^ j then j else bitLengthCap m fuel (j + 1)

/-- Binary search for the largest `L` with `2^L ≤ m`: `acc` holds the binary digits of `L`
above position `i`. -/
def bitLengthSearch (m : Nat) : Nat → Nat → Nat
  | 0, acc => acc
  | i + 1, acc => bitLengthSearch m i (if 2 ^ (acc + 2 ^ i) ≤ m then acc + 2 ^ i else acc)

/-- Number of binary digits of `m`: `0` for `m = 0`, otherwise `L + 1` for the largest `L`
with `2^L ≤ m`. -/
def bitLength (m : Nat) : Nat :=
  if m = 0 then 0 else bitLengthSearch m (bitLengthCap m m 0) 0 + 1

/-- Rounding to nearest, ties to even, of the exact number `± m * 2^e` to binary64: the result
has at most 53 significant bits and exponent at least `-1074` (gradual underflow); a result
above the largest finite number `(2^53 - 1) * 2^971` is an infinity. -/
def round (negative : Bool) (m : Nat) (e : Int) : Double :=
  if m = 0 then finite negative 0 (-1074)
  else
    let E : Int := max (e + (bitLength m : Int) - 53) (-1074)
    let q : Nat :=
      if E ≤ e then m * 2 ^ (e - E).toNat
      else
        let sh := (E - e).toNat
        let q := m / 2 ^ sh
        let r := m % 2 ^ sh
        let half := 2 ^ (sh - 1)
        if half < r ∨ (r = half ∧ q % 2 = 1) then q + 1 else q
    if q = 9007199254740992 then
      if 971 < E + 1 then inf negative else finite negative 4503599627370496 (E + 1)
    else
      if 971 < E then inf negative else finite negative q E

/-- The conversion `static_cast<double>(n)` of an unsigned integer, and the value of a decimal
literal without fraction. -/
def ofNat (n : Nat) : Double := round false n 0

/-- Unary minus: the sign bit is flipped. -/
def neg : Double → Double
  | nan => nan
  | inf s => inf (!s)
  | finite s m e => finite (!s) m e

/-- The integer `± m` of a sign bit and a magnitude. -/
def signed (negative : Bool) (m : Nat) : Int := if negative then -(m : Int) else (m : Int)

/-- Addition.  Two finite numbers are added exactly and the sum is rounded; an exact zero sum
is `+0` unless both operands are negative (zeros). -/
def add : Double → Double → Double
  | nan, _ => nan
  | _, nan => nan
  | inf s, inf t => if s = t then inf s else nan
  | inf s, finite _ _ _ => inf s
  | finite _ _ _, inf t => inf t
  | finite s m e, finite t k f =>
    let e0 := min e f
    let sum : Int := signed s (m * 2 ^ (e - e0).toNat) + signed t (k * 2 ^ (f - e0).toNat)
    if sum = 0 then finite (s && t) 0 (-1074)
    else round (decide (sum < 0)) sum.natAbs e0

/-- Subtraction: `a - b` is `a + (-b)`. -/
def sub (a b : Double) : Double := add a (neg b)

/-- Multiplication.  The sign is the exclusive or of the signs; `inf * 0` is a NaN. -/
def mul : Double → Double → Double
  | nan, _ => nan
  | _, nan => nan
  | inf s, inf t => inf (xor s t)
  | inf s, finite t k _ => if k = 0 then nan else inf (xor s t)
  | finite s m _, inf t => if m = 0 then nan else inf (xor s t)
  | finite s m e, finite t k f => round (xor s t) (m * k) (e + f)

/-- Division.  The quotient of two finite non-zero numbers is computed to more than 55 bits
with one more bit that tells whether the division left a remainder, then rounded. -/
def div : Double → Double → Double
  | nan, _ => nan
  | _, nan => nan
  | inf _, inf _ => nan
  | inf s, finite t _ _ => inf (xor s t)
  | finite s _ _, inf t => finite (xor s t) 0 (-1074)
  | finite s m e, finite t k f =>
    if k = 0 then
      if m = 0 then nan else inf (xor s t)
    else
      let num := m * 2 ^ 108
      round (xor s t) (2 * (num / k) + (if num % k = 0 then 0 else 1)) (e - f - 109)

/-- Integer square root, digit by digit: `r` holds the digits above position `i`. -/
def isqrtAux (n : Nat) : Nat → Nat → Nat
  | 0, r => if (r + 1) * (r + 1) ≤ n then r + 1 else r
  | i + 1, r =>
    isqrtAux n i (if (r + 2 ^ (i + 1)) * (r + 2 ^ (i + 1)) ≤ n then r + 2 ^ (i + 1) else r)

/-- The largest `r` with `r * r ≤ n`. -/
def isqrt (n : Nat) : Nat := isqrtAux n (bitLength n) 0

/-- The function `std::sqrt`, correctly rounded.  The square root of a positive finite number
is computed to more than 55 bits with one more bit that tells whether the root is inexact. -/
def sqrt : Double → Double
  | nan => nan
  | inf s => if s then nan else inf false
  | finite s m e =>
    if m = 0 then finite s 0 (-1074)
    else if s then nan
    else
      let t : Nat := if e % 2 = 0 then 112 else 113
      let n := m * 2 ^ t
      let r := isqrt n
      round false (2 * r + (if r * r = n then 0 else 1)) ((e - t) / 2 - 1)

/-- The comparison `a < b`: false when an operand is a NaN; the two zeros are equal. -/
def lt : Double → Double → Bool
  | nan, _ => false
  | _, nan => false
  | inf s, inf t => s && !t
  | inf s, finite _ _ _ => s
  | finite _ _ _, inf t => !t
  | finite s m e, finite t k f =>
    decide (signed s (m * 2 ^ (e - min e f).toNat) < signed t (k * 2 ^ (f - min e f).toNat))

/-- The comparison `a <= b`: false when an operand is a NaN; the two zeros are equal. -/
def le : Double → Double → Bool
  | nan, _ => false
  | _, nan => false
  | inf s, inf t => s || !t
  | inf s, finite _ _ _ => s
  | finite _ _ _, inf t => !t
  | finite s m e, finite t k f =>
    decide (signed s (m * 2 ^ (e - min e f).toNat) ≤ signed t (k * 2 ^ (f - min e f).toNat))

end Double

/-! ### The arithmetic of `double` on `Double`

The definitions of the kernel and of the engine take the arithmetic of `double` from these
instances: `+`, `-`, `*`, `/`, unary minus, the literals `0.0` and `1.0`, the conversion
`static_cast<double>` of an unsigned integer, the comparison `<=`, and `std::min`, `std::max`.
Every operation is rounded to binary64 on its own (no fused multiply-add, no wider
intermediate format). -/

instance Double.instZero : Zero Double := ⟨Double.finite false 0 (-1074)⟩

instance Double.instOne : One Double := ⟨Double.finite false 4503599627370496 (-52)⟩

instance Double.instAdd : Add Double := ⟨Double.add⟩

instance Double.instSub : Sub Double := ⟨Double.sub⟩

instance Double.instMul : Mul Double := ⟨Double.mul⟩

instance Double.instDiv : Div Double := ⟨Double.div⟩

instance Double.instNeg : Neg Double := ⟨Double.neg⟩

instance Double.instNatCast : NatCast Double := ⟨Double.ofNat⟩

instance Double.instLE : LE Double := ⟨fun a b => Double.le a b = true⟩

instance Double.instLT : LT Double := ⟨fun a b => Double.lt a b = true⟩

instance Double.instDecidableLE : DecidableRel (fun a b : Double => a ≤ b) :=
  fun a b => inferInstanceAs (Decidable (Double.le a b = true))

instance Double.instDecidableLT : DecidableRel (fun a b : Double => a < b) :=
  fun a b => inferInstanceAs (Decidable (Double.lt a b = true))

/-- The function `std::min(a, b)`: `(b < a) ? b : a`. -/
instance Double.instMin : Min Double := ⟨fun a b => if Double.lt b a then b else a⟩

/-- The function `std::max(a, b)`: `(a < b) ? b : a`. -/
instance Double.instMax : Max Double := ⟨fun a b => if Double.lt a b then b else a⟩

section KernelLemmas

variable {α : Type} [Zero α] [Add α] [Mul α]

theorem sumsUpTo_zero (x y : List α) : sumsUpTo x y 0 = Sums.zero := by
  simp [sumsUpTo]

theorem sumsUpTo_succ (x y : List α) (i : Nat) (a b : α)
    (hx : x[i]? = some a) (hy : y[i]? = some b) :
    sumsUpTo x y (i + 1) = (sumsUpTo x y i).accumulate a b := by
  have hz : (x.zip y)[i]? = some (a, b) := by
    rw [List.getElem?_zip_eq_some]; exact ⟨hx, hy⟩
  unfold sumsUpTo
  rw [List.take_succ, hz]
  simp [List.foldl_append]

theorem remainderLoop_eq (x y : List α) (n : Nat) (hx : x.length = n) (hy : y.length = n) :
    ∀ (m i : Nat), n - i = m → i ≤ n →
      remainderLoop x y n i (sumsUpTo x y i) = some (sumsUpTo x y n) := by
  intro m
  induction m with
  | zero =>
    intro i hm hi
    have : i = n := by omega
    subst this
    rw [remainderLoop]; simp
  | succ m ih =>
    intro i hm hi
    have hlt : i < n := by omega
    rw [remainderLoop]
    have h1 : x[i]? = some x[i] := List.getElem?_eq_getElem (by omega)
    have h2 : y[i]? = some y[i] := List.getElem?_eq_getElem (by omega)
    simp only [hlt, if_true, h1, h2, Option.bind_eq_bind, Option.some_bind]
    rw [← sumsUpTo_succ x y i _ _ h1 h2]
    exact ih (i + 1) (by omega) (by omega)

theorem unrolledLoop_eq (x y : List α) (n loop_end : Nat) (hx : x.length = n)
    (hy : y.length = n) (hle : loop_end ≤ n) :
    ∀ (m i : Nat), loop_end = i + 4 * m →
      unrolledLoop x y loop_end i (sumsUpTo x y i) = some (loop_end, sumsUpTo x y loop_end) := by
  intro m
  induction m with
  | zero =>
    intro i hm
    have : i = loop_end := by omega
    subst this
    rw [unrolledLoop]; simp
  | succ m ih =>
    intro i hm
    have hlt : i < loop_end := by omega
    rw [unrolledLoop]
    have h1 : x[i]? = some x[i] := List.getElem?_eq_getElem (by omega)
    have h2 : y[i]? = some y[i] := List.getElem?_eq_getElem (by omega)
    have h3 : x[i + 1]? = some x[i + 1] := List.getElem?_eq_getElem (by omega)
    have h4 : y[i + 1]? = some y[i + 1] := List.getElem?_eq_getElem (by omega)
    have h5 : x[i + 2]? = some x[i + 2] := List.getElem?_eq_getElem (by omega)
    have h6 : y[i + 2]? = some y[i + 2] := List.getElem?_eq_getElem (by omega)
    have h7 : x[i + 3]? = some x[i + 3] := List.getElem?_eq_getElem (by omega)
    have h8 : y[i + 3]? = some y[i + 3] := List.getElem?_eq_getElem (by omega)
    simp only [hlt, if_true, h1, h2, h3, h4, h5, h6, h7, h8, Option.bind_eq_bind,
      Option.some_bind]
    rw [← sumsUpTo_succ x y i _ _ h1 h2, ← sumsUpTo_succ x y (i + 1) _ _ h3 h4,
      ← sumsUpTo_succ x y (i + 2) _ _ h5 h6, ← sumsUpTo_succ x y (i + 3) _ _ h7 h8]
    exact ih (i + 4) (by omega)

/-- For vectors of equal length the two loops return the sums over all element pairs. -/
theorem accumulateSums_eq (x y : List α) (h : x.length = y.length) :
    accumulateSums x y x.length = some (sumsUpTo x y x.length) := by
  unfold accumulateSums
  have hdiv : x.length - x.length % 4 = 0 + 4 * (x.length / 4) := by omega
  have hU := unrolledLoop_eq x y x.length (x.length - x.length % 4) rfl h.symm (by omega)
    (x.length / 4) 0 hdiv
  rw [sumsUpTo_zero] at hU
  simp only [hU, Option.bind_eq_bind, Option.some_bind]
  exact remainderLoop_eq x y x.length rfl h.symm _ _ rfl (by omega)

end KernelLemmas

/-! ## The pair decode -/

theorem rowStart2_succ (N i : Int) : rowStart2 N (i + 1) = rowStart2 N i + 2 * (N - 1 - i) := by
  unfold rowStart2; ring

theorem two_mul_canonicalRank (N i j : Int) :
    2 * canonicalRank N i j = rowStart2 N i + 2 * (j - i - 1) := by
  unfold canonicalRank rowStart2
  have hev : Even (i * (i - 1)) := by
    have h := Int.even_mul_succ_self (i - 1)
    rw [sub_add_cancel, mul_comm] at h
    exact h
  have h2 : 2 * (i * (i - 1) / 2) = i * (i - 1) := Int.two_mul_ediv_two_of_even hev
  linear_combination (-1 : Int) * h2

/-- Row starts grow with the row: a later row starts after the whole of an earlier one. -/
theorem rowStart2_mono (N i i2 : Int) (hlt : i < i2) (hN : i2 ≤ N - 1) :
    rowStart2 N i + 2 * (N - 1 - i) ≤ rowStart2 N i2 := by
  unfold rowStart2
  nlinarith [mul_nonneg (show (0 : Int) ≤ i2 - i - 1 by omega)
    (show (0 : Int) ≤ 2 * N - 2 - i - i2 by omega)]

/-- The walk, started in row `i` with an offset `k_temp` that lies inside the rows `i … N-2`,
stops in the row that contains it. -/
theorem decodeWalk_spec (N : Int) :
    ∀ (fuel : Nat) (i k_temp : Int), 0 ≤ N - 1 - i → N - 1 - i ≤ fuel → 0 ≤ k_temp →
      2 * k_temp < (N - 1 - i) * (N - i) →
      ∃ i2 k2, decodeWalk N fuel i k_temp = some (i2, k2) ∧ i ≤ i2 ∧ i2 ≤ N - 2 ∧
        0 ≤ k2 ∧ k2 < N - 1 - i2 ∧ 2 * k_temp + rowStart2 N i = 2 * k2 + rowStart2 N i2 := by
  intro fuel
  induction fuel with
  | zero =>
    intro i k_temp hm hf hk hlt
    have hz : N - 1 - i = 0 := by omega
    rw [hz] at hlt
    omega
  | succ fuel ih =>
    intro i k_temp hm hf hk hlt
    unfold decodeWalk
    by_cases hc : k_temp ≥ N - 1 - i
    · rw [if_pos hc]
      have hm1 : 1 ≤ N - 1 - i := by
        rcases eq_or_lt_of_le hm with h | h
        · rw [← h] at hlt
          omega
        · omega
      have hlt2 : 2 * (k_temp - (N - 1 - i)) < (N - 1 - (i + 1)) * (N - (i + 1)) := by
        nlinarith
      obtain ⟨i2, k2, hw, h1, h2, h3, h4, h5⟩ :=
        ih (i + 1) (k_temp - (N - 1 - i)) (by omega) (by push_cast at hf ⊢; omega) (by omega) hlt2
      refine ⟨i2, k2, hw, by omega, h2, h3, h4, ?_⟩
      rw [rowStart2_succ] at h5
      omega
    · rw [if_neg hc]
      exact ⟨i, k_temp, rfl, le_refl _, by omega, hk, by omega, rfl⟩

/-- Once the walk is in row `N - 1` or beyond with a non-negative offset, its condition holds
for ever: no amount of fuel lets it leave the loop. -/
theorem decodeWalk_past_last_row (N : Int) :
    ∀ (fuel : Nat) (i k_temp : Int), N - 1 ≤ i → 0 ≤ k_temp →
      decodeWalk N fuel i k_temp = none := by
  intro fuel
  induction fuel with
  | zero => intro i k_temp _ _; rfl
  | succ fuel ih =>
    intro i k_temp hi hk
    unfold decodeWalk
    rw [if_pos (by omega)]
    exact ih (i + 1) (k_temp - (N - 1 - i)) (by omega) (by omega)

/-- Decoding a valid linear index: the pair is in range and its canonical rank is the index. -/
theorem decode_spec (N k : Int) (hN : 2 ≤ N) (hk : 0 ≤ k) (hlt : k < N * (N - 1) / 2) :
    ∃ i j, decode N k = some (i, j) ∧ 0 ≤ i ∧ i < j ∧ j < N ∧
      canonicalRank N i j = k := by
  have hev : Even (N * (N - 1)) := by
    have h := Int.even_mul_succ_self (N - 1)
    rw [sub_add_cancel, mul_comm] at h
    exact h
  have h2 : 2 * (N * (N - 1) / 2) = N * (N - 1) := Int.two_mul_ediv_two_of_even hev
  have hlt2 : 2 * k < (N - 1 - 0) * (N - 0) := by
    have : (N - 1 - 0) * (N - 0) = N * (N - 1) := by ring
    omega
  obtain ⟨i2, k2, hw, h1, h3, h4, h5, h6⟩ :=
    decodeWalk_spec N N.toNat 0 k (by omega) (by omega) hk hlt2
  refine ⟨i2, i2 + 1 + k2, ?_, h1, by omega, by omega, ?_⟩
  · unfold decode; rw [hw]; rfl
  · have hr := two_mul_canonicalRank N i2 (i2 + 1 + k2)
    have hz : rowStart2 N 0 = 0 := by unfold rowStart2; ring
    rw [hz] at h6
    omega

/-- The canonical rank is strictly increasing in the lexicographic order of valid pairs. -/
theorem canonicalRank_lt_of_lex (N i j i2 j2 : Int) (hj : j < N)
    (hij2 : i2 < j2) (hj2 : j2 < N) (hlex : i < i2 ∨ (i = i2 ∧ j < j2)) :
    canonicalRank N i j < canonicalRank N i2 j2 := by
  have h1 := two_mul_canonicalRank N i j
  have h2 := two_mul_canonicalRank N i2 j2
  rcases hlex with h | ⟨h, h3⟩
  · have hm := rowStart2_mono N i i2 h (by omega)
    omega
  · subst h
    omega

/-- The canonical rank of a valid pair is a valid linear index. -/
theorem canonicalRank_range (N i j : Int) (hi : 0 ≤ i) (hij : i < j) (hj : j < N) :
    0 ≤ canonicalRank N i j ∧ canonicalRank N i j < N * (N - 1) / 2 := by
  have h1 := two_mul_canonicalRank N i j
  have hev : Even (N * (N - 1)) := by
    have h := Int.even_mul_succ_self (N - 1)
    rw [sub_add_cancel, mul_comm] at h
    exact h
  have h2 : 2 * (N * (N - 1) / 2) = N * (N - 1) := Int.two_mul_ediv_two_of_even hev
  have h0 : 0 ≤ rowStart2 N i := by
    unfold rowStart2
    exact mul_nonneg hi (by omega)
  have hlast : rowStart2 N i + 2 * (N - 1 - i) ≤ N * (N - 1) := by
    unfold rowStart2
    nlinarith [mul_nonneg (show (0 : Int) ≤ N - 1 - i - 1 by omega)
      (show (0 : Int) ≤ N - 1 - i by omega)]
  constructor <;> omega

/-- Decoding the canonical rank of a valid pair gives the pair back. -/
theorem decode_canonicalRank (N i j : Int) (hN : 2 ≤ N) (hi : 0 ≤ i) (hij : i < j)
    (hj : j < N) : decode N (canonicalRank N i j) = some (i, j) := by
  obtain ⟨hr0, hr1⟩ := canonicalRank_range N i j hi hij hj
  obtain ⟨i2, j2, hd, h0, h1, h2, h3⟩ := decode_spec N _ hN hr0 hr1
  rw [hd]
  rcases lt_trichotomy i i2 with h | h | h
  · have := canonicalRank_lt_of_lex N i j i2 j2 hj h1 h2 (Or.inl h)
    omega
  · subst h
    rcases lt_trichotomy j j2 with h | h | h
    · have := canonicalRank_lt_of_lex N i j i j2 hj h1 h2 (Or.inr ⟨rfl, h⟩)
      omega
    · subst h; rfl
    · have := canonicalRank_lt_of_lex N i j2 i j h2 hij hj (Or.inr ⟨rfl, h⟩)
      omega
  · have := canonicalRank_lt_of_lex N i2 j2 i j h2 hij hj (Or.inl h)
    omega

/-! ## Workers and the scheduling loop -/

section EngineLemmas

variable {α : Type} [Zero α] [One α] [Add α] [Sub α] [Mul α] [Div α] [Neg α] [NatCast α]
  [LE α] [DecidableRel (fun a b : α => a ≤ b)] [Min α] [Max α]

theorem workerBody_eq (sqrt : α → α) (data : ThreadData α) (k : Int) (buf : List α) :
    workerBody sqrt data k buf =
      (pairCoefficient sqrt data.datasets k).bind fun c =>
        writeAt buf (data.results_out + (k - data.output_start_index)) c := by
  simp only [workerBody, pairCoefficient, Option.bind_eq_bind, Option.bind_assoc]

/-- A worker whose view starts at its own start index writes the coefficient of `k` to
slot `k`, like the worker of the whole range. -/
theorem workerBody_wholeRange (sqrt : α → α) (data : ThreadData α) (total k : Int)
    (buf : List α) (h : data.results_out = data.output_start_index) :
    workerBody sqrt data k buf = workerBody sqrt (wholeRange data.datasets total) k buf := by
  rw [workerBody_eq, workerBody_eq, h]
  simp [wholeRange]

theorem workerLoop_wholeRange (sqrt : α → α) (data : ThreadData α) (total : Int)
    (h : data.results_out = data.output_start_index) :
    ∀ (n : Nat) (k : Int) (buf : List α),
      workerLoop sqrt data n k buf = workerLoop sqrt (wholeRange data.datasets total) n k buf := by
  intro n
  induction n with
  | zero => intro k buf; rfl
  | succ n ih =>
    intro k buf
    simp only [workerLoop]
    rw [workerBody_wholeRange sqrt data total k buf h]
    generalize workerBody sqrt (wholeRange data.datasets total) k buf = w
    cases w with
    | none => simp
    | some b => simp only [Option.bind_eq_bind, Option.some_bind]; exact ih (k + 1) b

/-- Two consecutive runs of the loop are one run over the union of the two ranges. -/
theorem workerLoop_add (sqrt : α → α) (data : ThreadData α) (n2 : Nat) :
    ∀ (n1 : Nat) (k : Int) (buf : List α),
      workerLoop sqrt data (n1 + n2) k buf =
        (workerLoop sqrt data n1 k buf).bind (workerLoop sqrt data n2 (k + n1)) := by
  intro n1
  induction n1 with
  | zero => intro k buf; simp [workerLoop]
  | succ n1 ih =>
    intro k buf
    have hn : n1 + 1 + n2 = (n1 + n2) + 1 := by omega
    rw [hn]
    simp only [workerLoop]
    generalize workerBody sqrt data k buf = w
    cases w with
    | none => simp
    | some b =>
      simp only [Option.bind_eq_bind, Option.some_bind]
      rw [ih (k + 1) b]
      have hk : k + 1 + (n1 : Int) = k + ((n1 + 1 : Nat) : Int) := by push_cast; ring
      rw [hk]

/-- The scheduling loop fills one record per iteration. -/
theorem scheduleLoop_length {β : Type} (datasets : List (Vector β)) (c r : Int) :
    ∀ (n : Nat) (t cur : Int), (scheduleLoop datasets c r n t cur).length = n := by
  intro n
  induction n with
  | zero => intro t cur; rfl
  | succ n ih => intro t cur; simp [scheduleLoop, ih]

/-- Running the workers of the scheduling loop one after the other is one run of the loop of
the whole-range worker over the union of their chunks. -/
theorem runWorkers_scheduleLoop (sqrt : α → α) (datasets : List (Vector α)) (total c r : Int)
    (hc : 0 ≤ c) :
    ∀ (n : Nat) (t cur : Int) (buf : List α),
      runWorkers sqrt (scheduleLoop datasets c r n t cur) buf =
        workerLoop sqrt (wholeRange datasets total)
          ((n : Int) * c + (min (t + n) r - min t r)).toNat cur buf := by
  intro n
  induction n with
  | zero =>
    intro t cur buf
    simp [scheduleLoop, runWorkers, workerLoop]
  | succ n ih =>
    intro t cur buf
    have hn0 : (0 : Int) ≤ (n : Int) * c := mul_nonneg (by omega) hc
    have hsplit : (((n + 1 : Nat) : Int) * c + (min (t + ((n + 1 : Nat) : Int)) r - min t r)).toNat
        = (c + (if t < r then 1 else 0)).toNat +
          ((n : Int) * c + (min (t + 1 + n) r - min (t + 1) r)).toNat := by
      have h1 : ((n + 1 : Nat) : Int) * c = (n : Int) * c + c := by push_cast; ring
      rw [h1]
      generalize (n : Int) * c = nc at hn0 ⊢
      push_cast
      split <;> omega
    rw [hsplit, workerLoop_add]
    unfold scheduleLoop runWorkers pearson_worker
    simp only [add_sub_cancel_left]
    rw [workerLoop_wholeRange sqrt _ total rfl]
    simp only []
    generalize workerLoop sqrt (wholeRange datasets total)
      (c + if t < r then 1 else 0).toNat cur buf = w
    cases w with
    | none => simp
    | some b =>
      simp only [Option.bind_eq_bind, Option.some_bind]
      rw [ih (t + 1) _ b]
      have hcast : cur + (((c + if t < r then 1 else 0).toNat : Nat) : Int)
          = cur + (c + if t < r then 1 else 0) := by
        split <;> omega
      rw [hcast]

end EngineLemmas

section ScheduleLemmas

variable {α : Type} [Zero α] [One α] [Add α] [Sub α] [Mul α] [Div α] [Neg α] [NatCast α]
  [LE α] [DecidableRel (fun a b : α => a ≤ b)] [Min α] [Max α]

/-- Closed form of the records of the scheduling loop: the `m`-th record made by a loop that
starts at worker `t` with start index `cur`. -/
theorem scheduleLoop_getElem? {β : Type} (datasets : List (Vector β)) (c r : Int) :
    ∀ (n : Nat) (t cur : Int) (m : Nat), m < n →
      ∃ d, (scheduleLoop datasets c r n t cur)[m]? = some d ∧ d.datasets = datasets ∧
        d.output_start_index = cur + (m : Int) * c + (min (t + m) r - min t r) ∧
        d.output_end_index = d.output_start_index + (c + if t + m < r then 1 else 0) ∧
        d.results_out = d.output_start_index := by
  intro n
  induction n with
  | zero => intro t cur m hm; omega
  | succ n ih =>
    intro t cur m hm
    cases m with
    | zero =>
      refine ⟨{ datasets := datasets, output_start_index := cur,
                output_end_index := cur + (c + if t < r then 1 else 0), results_out := cur },
        by simp only [scheduleLoop, List.getElem?_cons_zero], rfl, ?_, ?_, rfl⟩
      · simp
      · simp
    | succ m =>
      obtain ⟨d, hd, h1, h2, h3, h4⟩ :=
        ih (t + 1) (cur + (c + if t < r then 1 else 0)) m (by omega)
      refine ⟨d, by simp only [scheduleLoop, List.getElem?_cons_succ]; exact hd, h1, ?_, ?_, h4⟩
      · rw [h2]
        have hm1 : ((m + 1 : Nat) : Int) * c = (m : Int) * c + c := by push_cast; ring
        rw [hm1]
        push_cast
        have e1 : t + 1 + (m : Int) = t + ((m : Int) + 1) := by ring
        rw [e1]
        split <;> omega
      · rw [h3]
        push_cast
        have e1 : t + 1 + (m : Int) = t + ((m : Int) + 1) := by ring
        rw [e1]

/-- Quotient and remainder of the scheduler: `total = threads * chunk_size + remainder` with
`0 ≤ remainder < threads` and `0 ≤ chunk_size`. -/
theorem tdiv_tmod_facts (total threads : Int) (h0 : 0 ≤ total) (h1 : 1 ≤ threads) :
    threads * total.tdiv threads + total.tmod threads = total ∧ 0 ≤ total.tmod threads ∧
      total.tmod threads < threads ∧ 0 ≤ total.tdiv threads := by
  rw [Int.tdiv_eq_ediv h0 (by omega), Int.tmod_eq_emod h0 (by omega)]
  exact ⟨Int.ediv_add_emod total threads, Int.emod_nonneg _ (by omega),
    Int.emod_lt_of_pos _ (by omega), Int.ediv_nonneg h0 (by omega)⟩

/-- With at least one thread, the workers of `correlation_coefficients` together do what the
single worker of the whole range does. -/
theorem correlation_coefficients_eq (sqrt : α → α) (datasets : List (Vector α))
    (num_threads : Int) (hT : 1 ≤ num_threads) :
    correlation_coefficients sqrt datasets num_threads =
      if toInt32 datasets.length ≤ 1 then some []
      else if (toInt32 (toInt32 datasets.length * (toInt32 datasets.length - 1))).tdiv 2 ≤ 0
      then none
      else
        workerLoop sqrt
          (wholeRange datasets
            ((toInt32 (toInt32 datasets.length * (toInt32 datasets.length - 1))).tdiv 2))
          ((toInt32 (toInt32 datasets.length * (toInt32 datasets.length - 1))).tdiv 2).toNat 0
          (List.replicate
            ((toInt32 (toInt32 datasets.length * (toInt32 datasets.length - 1))).tdiv 2).toNat
            0) := by
  simp only [correlation_coefficients, correlation_coefficients_run, threadData]
  generalize toInt32 datasets.length = N
  generalize (toInt32 (N * (N - 1))).tdiv 2 = total
  by_cases hN : N ≤ 1
  · simp [hN]
  · simp only [hN, if_false]
    by_cases hneg : total < 0
    · have hle : total ≤ 0 := by omega
      simp [hneg, hle]
    · simp only [hneg, if_false]
      by_cases hz : total ≤ 0
      · have hmin : min num_threads total ≤ 0 := by omega
        simp [hz, hmin]
      · have hmin : ¬ min num_threads total ≤ 0 := by omega
        simp only [hz, hmin, if_false, Option.map_map]
        obtain ⟨hsum, hr0, hr1, hc0⟩ :=
          tdiv_tmod_facts total (min num_threads total) (by omega) (by omega)
        rw [runWorkers_scheduleLoop sqrt datasets total _ _ hc0]
        have hcount : (((min num_threads total).toNat : Int) * total.tdiv (min num_threads total)
            + (min (0 + ((min num_threads total).toNat : Int))
                (total.tmod (min num_threads total)) -
              min 0 (total.tmod (min num_threads total)))).toNat = total.toNat := by
          have hcast : ((min num_threads total).toNat : Int) = min num_threads total := by omega
          rw [hcast]
          generalize total.tdiv (min num_threads total) = c at hsum hc0 ⊢
          generalize total.tmod (min num_threads total) = r at hsum hr0 hr1 ⊢
          generalize min num_threads total * c = p at hsum ⊢
          congr 1
          omega
        rw [hcount]
        generalize workerLoop sqrt (wholeRange datasets total) total.toNat 0
          (List.replicate total.toNat 0) = w
        cases w <;> simp

end ScheduleLemmas

/-! ## The kernel on vectors of equal length -/

section PearsonLemmas

variable {α : Type} [Zero α] [One α] [Add α] [Sub α] [Mul α] [Div α] [Neg α] [NatCast α]
  [LE α] [DecidableRel (fun a b : α => a ≤ b)] [Min α] [Max α]

/-- On vectors of equal length no read leaves a vector and `pearson` returns a value: `0` for
empty vectors, otherwise the formula applied to the sums over all element pairs. -/
theorem pearson_eq (sqrt : α → α) (x y : List α) (h : x.length = y.length) :
    pearson sqrt x y =
      some (if x.length = 0 then 0 else finish sqrt x.length (sumsUpTo x y x.length)) := by
  unfold pearson
  by_cases hn : x.length = 0
  · simp [hn]
  · simp only [hn, if_false, accumulateSums_eq x y h, Option.bind_eq_bind, Option.some_bind]

end PearsonLemmas

section RangeLemmas

variable {α : Type} [LinearOrderedField α]

/-- The clamp keeps the result of the formula in `[-1, 1]`. -/
theorem finish_range (sqrt : α → α) (n : Nat) (s : Sums α) :
    -1 ≤ finish sqrt n s ∧ finish sqrt n s ≤ 1 := by
  unfold finish
  simp only []
  split
  · constructor <;> norm_num
  · exact ⟨le_max_right _ _, max_le (min_le_right _ _) (by norm_num)⟩

theorem pearson_range (sqrt : α → α) (x y : List α) (r : α) (h : pearson sqrt x y = some r) :
    -1 ≤ r ∧ r ≤ 1 := by
  unfold pearson at h
  by_cases hn : x.length = 0
  · simp only [hn, if_true, Option.some.injEq] at h
    subst h
    constructor <;> norm_num
  · simp only [hn, if_false, Option.bind_eq_bind] at h
    cases hs : accumulateSums x y x.length with
    | none => rw [hs] at h; simp at h
    | some s =>
      rw [hs] at h
      simp only [Option.some_bind, Option.some.injEq] at h
      subst h
      exact finish_range sqrt _ s

end RangeLemmas

/-! ## Writes of the workers -/

section WriteLemmas

variable {α : Type} [Zero α] [One α] [Add α] [Sub α] [Mul α] [Div α] [Neg α] [NatCast α]
  [LE α] [DecidableRel (fun a b : α => a ≤ b)] [Min α] [Max α]

theorem writeAt_length {β : Type} (v v2 : List β) (i : Int) (c : β)
    (h : writeAt v i c = some v2) : v2.length = v.length := by
  unfold writeAt at h
  split at h
  · simp only [Option.some.injEq] at h; subst h; simp
  · simp at h

theorem writeAt_mem {β : Type} (v v2 : List β) (i : Int) (c e : β)
    (h : writeAt v i c = some v2) (he : e ∈ v2) : e ∈ v ∨ e = c := by
  unfold writeAt at h
  split at h
  · simp only [Option.some.injEq] at h; subst h
    exact List.mem_or_eq_of_mem_set he
  · simp at h

/-- A property of buffer elements that every computed coefficient has is kept by the loop of
a worker. -/
theorem workerLoop_forall (sqrt : α → α) (data : ThreadData α) (P : α → Prop)
    (hP : ∀ k c, pairCoefficient sqrt data.datasets k = some c → P c) :
    ∀ (n : Nat) (k : Int) (buf buf2 : List α), workerLoop sqrt data n k buf = some buf2 →
      (∀ e ∈ buf, P e) → ∀ e ∈ buf2, P e := by
  intro n
  induction n with
  | zero =>
    intro k buf buf2 h hb
    simp only [workerLoop, Option.some.injEq] at h
    subst h; exact hb
  | succ n ih =>
    intro k buf buf2 h hb
    simp only [workerLoop, Option.bind_eq_bind] at h
    cases hw : workerBody sqrt data k buf with
    | none => rw [hw] at h; simp at h
    | some b =>
      rw [hw] at h
      simp only [Option.some_bind] at h
      refine ih (k + 1) b buf2 h ?_
      rw [workerBody_eq] at hw
      cases hc : pairCoefficient sqrt data.datasets k with
      | none => rw [hc] at hw; simp at hw
      | some c =>
        rw [hc] at hw
        simp only [Option.some_bind] at hw
        intro e he
        rcases writeAt_mem _ _ _ _ e hw he with h1 | h1
        · exact hb e h1
        · rw [h1]; exact hP k c hc

theorem runWorkers_forall (sqrt : α → α) (P : α → Prop) :
    ∀ (ws : List (ThreadData α)) (buf buf2 : List α),
      (∀ d ∈ ws, ∀ k c, pairCoefficient sqrt d.datasets k = some c → P c) →
      runWorkers sqrt ws buf = some buf2 → (∀ e ∈ buf, P e) → ∀ e ∈ buf2, P e := by
  intro ws
  induction ws with
  | nil =>
    intro buf buf2 _ h hb
    simp only [runWorkers, Option.some.injEq] at h
    subst h; exact hb
  | cons d rest ih =>
    intro buf buf2 hP h hb
    simp only [runWorkers, Option.bind_eq_bind] at h
    cases hw : pearson_worker sqrt d buf with
    | none => rw [hw] at h; simp at h
    | some b =>
      rw [hw] at h
      simp only [Option.some_bind] at h
      refine ih b buf2 (fun d2 hd2 => hP d2 (List.mem_cons_of_mem _ hd2)) h ?_
      exact workerLoop_forall sqrt d P (hP d (List.mem_cons_self _ _)) _ _ buf b hw hb

theorem workerLoop_length (sqrt : α → α) (data : ThreadData α) :
    ∀ (n : Nat) (k : Int) (buf buf2 : List α), workerLoop sqrt data n k buf = some buf2 →
      buf2.length = buf.length := by
  intro n
  induction n with
  | zero =>
    intro k buf buf2 h
    simp only [workerLoop, Option.some.injEq] at h
    subst h; rfl
  | succ n ih =>
    intro k buf buf2 h
    simp only [workerLoop, Option.bind_eq_bind] at h
    cases hw : workerBody sqrt data k buf with
    | none => rw [hw] at h; simp at h
    | some b =>
      rw [hw] at h
      simp only [Option.some_bind] at h
      rw [ih (k + 1) b buf2 h]
      rw [workerBody_eq] at hw
      cases hc : pairCoefficient sqrt data.datasets k with
      | none => rw [hc] at hw; simp at hw
      | some c =>
        rw [hc] at hw
        simp only [Option.some_bind] at hw
        exact writeAt_length _ _ _ _ hw

/-- The workers never change the length of the buffer. -/
theorem runWorkers_length (sqrt : α → α) :
    ∀ (ws : List (ThreadData α)) (buf buf2 : List α),
      runWorkers sqrt ws buf = some buf2 → buf2.length = buf.length := by
  intro ws
  induction ws with
  | nil =>
    intro buf buf2 h
    simp only [runWorkers, Option.some.injEq] at h
    subst h; rfl
  | cons d rest ih =>
    intro buf buf2 h
    simp only [runWorkers, Option.bind_eq_bind] at h
    cases hw : pearson_worker sqrt d buf with
    | none => rw [hw] at h; simp at h
    | some b =>
      rw [hw] at h
      simp only [Option.some_bind] at h
      rw [ih b buf2 h]
      exact workerLoop_length sqrt d _ _ buf b hw

/-- A returned buffer has as many slots as the computed `total_tasks` says. -/
theorem correlation_coefficients_length (sqrt : α → α) (datasets : List (Vector α))
    (num_threads : Int) (res : List α)
    (h : correlation_coefficients sqrt datasets num_threads = some res)
    (hN : ¬ toInt32 datasets.length ≤ 1) :
    res.length =
      ((toInt32 (toInt32 datasets.length * (toInt32 datasets.length - 1))).tdiv 2).toNat := by
  simp only [correlation_coefficients, correlation_coefficients_run, if_neg hN] at h
  split at h
  · simp at h
  · split at h
    · simp at h
    · simp only [Option.map_map, Option.map_eq_some', Function.comp_apply] at h
      obtain ⟨r, hr, hres⟩ := h
      subst hres
      rw [runWorkers_length sqrt _ _ _ hr, List.length_replicate]

end WriteLemmas

section CoefficientRange

variable {α : Type} [LinearOrderedField α]

/-- Every coefficient a worker computes is a result of `pearson`, hence in `[-1, 1]`. -/
theorem pairCoefficient_range (sqrt : α → α) (datasets : List (Vector α)) (k : Int) (c : α)
    (h : pairCoefficient sqrt datasets k = some c) : -1 ≤ c ∧ c ≤ 1 := by
  simp only [pairCoefficient, Option.bind_eq_bind] at h
  cases hd : decode (toInt32 datasets.length) k with
  | none => rw [hd] at h; simp at h
  | some p =>
    rw [hd] at h
    simp only [Option.some_bind] at h
    cases h1 : readAt datasets p.1 with
    | none => rw [h1] at h; simp at h
    | some vi =>
      rw [h1] at h
      simp only [Option.some_bind] at h
      cases h2 : readAt datasets p.2 with
      | none => rw [h2] at h; simp at h
      | some vj =>
        rw [h2] at h
        simp only [Option.some_bind] at h
        exact pearson_range sqrt vi vj c h

end CoefficientRange

/-! ## The buffer after the whole range has been processed -/

section FillLemmas

variable {α : Type} [Zero α] [One α] [Add α] [Sub α] [Mul α] [Div α] [Neg α] [NatCast α]
  [LE α] [DecidableRel (fun a b : α => a ≤ b)] [Min α] [Max α]

theorem writeAt_getElem? {β : Type} (v : List β) (k : Int) (c : β) (h0 : 0 ≤ k)
    (h1 : k < (v.length : Int)) :
    ∃ v2, writeAt v k c = some v2 ∧ v2.length = v.length ∧
      ∀ m : Nat, v2[m]? = if (m : Int) = k then some c else v[m]? := by
  refine ⟨v.set k.toNat c, by simp [writeAt, h0, h1], by simp, ?_⟩
  intro m
  rw [List.getElem?_set]
  by_cases hm : (m : Int) = k
  · have h2 : k.toNat = m := by omega
    have h3 : k.toNat < v.length := by omega
    simp [hm, h2, h3]
    omega
  · have h2 : ¬ k.toNat = m := by omega
    simp [hm, h2]

/-- When every index of `[k, k + n)` has a coefficient and a slot, the loop of the
whole-range worker writes exactly these slots, each with the coefficient of its index. -/
theorem workerLoop_wholeRange_spec (sqrt : α → α) (datasets : List (Vector α)) (total : Int) :
    ∀ (n : Nat) (k : Int) (buf : List α), 0 ≤ k → k + n ≤ (buf.length : Int) →
      (∀ m : Int, k ≤ m → m < k + n → ∃ c, pairCoefficient sqrt datasets m = some c) →
      ∃ buf2, workerLoop sqrt (wholeRange datasets total) n k buf = some buf2 ∧
        buf2.length = buf.length ∧
        ∀ m : Nat, buf2[m]? =
          if k ≤ (m : Int) ∧ (m : Int) < k + n then pairCoefficient sqrt datasets m
          else buf[m]? := by
  intro n
  induction n with
  | zero =>
    intro k buf _ _ _
    refine ⟨buf, rfl, rfl, ?_⟩
    intro m
    have : ¬ (k ≤ (m : Int) ∧ (m : Int) < k + ((0 : Nat) : Int)) := by omega
    rw [if_neg this]
  | succ n ih =>
    intro k buf h0 hlen hcoef
    obtain ⟨c, hc⟩ := hcoef k (le_refl _) (by omega)
    obtain ⟨b, hw, hbl, hbget⟩ := writeAt_getElem? buf k c h0 (by omega)
    have hbody : workerBody sqrt (wholeRange datasets total) k buf = some b := by
      rw [workerBody_eq]
      simp only [wholeRange, hc, Option.some_bind, zero_add, sub_zero]
      exact hw
    obtain ⟨buf2, hl, hl2, hget⟩ := ih (k + 1) b (by omega)
      (by rw [hbl]; push_cast at hlen; omega)
      (fun m hm1 hm2 => hcoef m (by omega) (by push_cast; omega))
    refine ⟨buf2, ?_, by omega, ?_⟩
    · simp only [workerLoop, hbody, Option.bind_eq_bind, Option.some_bind]
      exact hl
    · intro m
      rw [hget m, hbget m]
      by_cases hmk : (m : Int) = k
      · have h1 : ¬ (k + 1 ≤ (m : Int) ∧ (m : Int) < k + 1 + n) := by omega
        have h2 : k ≤ (m : Int) ∧ (m : Int) < k + ((n + 1 : Nat) : Int) := by
          push_cast; omega
        rw [if_neg h1, if_pos h2, if_pos hmk, hmk]
        exact hc.symm
      · by_cases hin : k + 1 ≤ (m : Int) ∧ (m : Int) < k + 1 + n
        · have h2 : k ≤ (m : Int) ∧ (m : Int) < k + ((n + 1 : Nat) : Int) := by
            push_cast; omega
          rw [if_pos hin, if_pos h2]
        · have h2 : ¬ (k ≤ (m : Int) ∧ (m : Int) < k + ((n + 1 : Nat) : Int)) := by
            push_cast; omega
          rw [if_neg hin, if_neg h2, if_neg hmk]

theorem readAt_eq {β : Type} (v : List β) (i : Nat) (h : i < v.length) :
    readAt v (i : Int) = some v[i] := by
  unfold readAt
  have : ¬ ((i : Int) < 0) := by omega
  simp [this, List.getElem?_eq_getElem h]

/-- When a valid index `k` decodes to `(i, j)`, its coefficient is `pearson` of datasets `i`
and `j`.-/
theorem pairCoefficient_eq (sqrt : α → α) (datasets : List (Vector α)) (k : Int) (i j : Nat)
    (hd : decode (toInt32 datasets.length) k = some ((i : Int), (j : Int)))
    (hi : i < datasets.length) (hj : j < datasets.length) :
    pairCoefficient sqrt datasets k = pearson sqrt datasets[i] datasets[j] := by
  simp only [pairCoefficient, hd, Option.bind_eq_bind, Option.some_bind, readAt_eq _ i hi,
    readAt_eq _ j hj]

/-- A collection of at most `46341` vectors has an `int` size and an `int` pair count. -/
theorem toInt32_small (x : Int) (h0 : 0 ≤ x) (h1 : x ≤ 2147483647) : toInt32 x = x := by
  unfold toInt32; omega

theorem total_tasks_small (N : Int) (h0 : 0 ≤ N) (h1 : N ≤ 46341) :
    (toInt32 (N * (N - 1))).tdiv 2 = N * (N - 1) / 2 := by
  have hb : N * (N - 1) ≤ 46341 * 46340 := by nlinarith
  have hb0 : 0 ≤ N * (N - 1) := by
    rcases eq_or_lt_of_le h0 with h | h
    · rw [← h]; simp
    · exact mul_nonneg h0 (by omega)
  rw [toInt32_small _ hb0 (by omega), Int.tdiv_eq_ediv hb0 (by omega)]

end FillLemmas

/-! ## The canonical order as a list -/

/-- Twice the number of canonical pairs in the rows below `m`. -/
theorem canonicalRows_length (N : Nat) :
    ∀ m : Nat, m ≤ N →
      2 * ((((List.range m).flatMap fun i =>
        (List.range' (i + 1) (N - (i + 1))).map fun j => (i, j)).length : Nat) : Int)
        = rowStart2 N m := by
  intro m
  induction m with
  | zero => intro _; simp [rowStart2]
  | succ m ih =>
    intro hm
    have h := ih (by omega)
    rw [List.range_succ, List.flatMap_append, List.length_append, List.flatMap_singleton,
      List.length_map, List.length_range']
    have hs := rowStart2_succ N m
    push_cast at hs h ⊢
    rw [hs]
    omega

/-- The pair at offset `o` of row `i` in the rows below `m`, for any `m` beyond `i`. -/
theorem canonicalRows_getElem? (N i o : Nat) (ho : i + 1 + o < N) :
    ∀ m : Nat, i < m → m ≤ N →
      ((List.range m).flatMap fun i =>
        (List.range' (i + 1) (N - (i + 1))).map fun j => (i, j))[
          (((List.range i).flatMap fun i =>
            (List.range' (i + 1) (N - (i + 1))).map fun j => (i, j)).length + o)]?
        = some (i, i + 1 + o) := by
  intro m
  induction m with
  | zero => intro h; omega
  | succ m ih =>
    intro him hm
    rw [List.range_succ, List.flatMap_append, List.flatMap_singleton]
    rcases Nat.lt_or_ge i m with h | h
    · have hprev := ih h (by omega)
      have hlt := (List.getElem?_eq_some_iff.mp hprev).1
      rw [List.getElem?_append_left hlt]
      exact hprev
    · have him2 : i = m := by omega
      subst him2
      rw [List.getElem?_append_right (by omega)]
      simp only [Nat.add_sub_cancel_left, List.getElem?_map]
      rw [List.getElem?_range' _ _ (by omega)]
      simp

theorem canonicalPairs_length (N : Nat) :
    2 * ((canonicalPairs N).length : Int) = (N : Int) * ((N : Int) - 1) := by
  have h := canonicalRows_length N N (le_refl _)
  unfold canonicalPairs
  rw [h]
  unfold rowStart2
  ring

/-- The canonical list holds the pair `(i, j)` at position `canonicalRank N i j`. -/
theorem canonicalPairs_getElem? (N i j : Nat) (hij : i < j) (hj : j < N) :
    (canonicalPairs N)[(canonicalRank N i j).toNat]? = some (i, j) := by
  have hrow := canonicalRows_getElem? N i (j - i - 1) (by omega) N (by omega) (le_refl _)
  have hlen := canonicalRows_length N i (by omega)
  have hr := two_mul_canonicalRank N i j
  have hidx : (canonicalRank N i j).toNat =
      ((List.range i).flatMap fun i =>
        (List.range' (i + 1) (N - (i + 1))).map fun j => (i, j)).length + (j - i - 1) := by
    omega
  unfold canonicalPairs
  rw [hidx, hrow]
  congr 2
  omega

/-! ## The returned buffer -/

section Functional

variable {α : Type} [Zero α] [One α] [Add α] [Sub α] [Mul α] [Div α] [Neg α] [NatCast α]
  [LE α] [DecidableRel (fun a b : α => a ≤ b)] [Min α] [Max α]

/-- Functional correctness of the threaded engine on a collection of `2 ≤ N ≤ 46341`
equal-length vectors, for any thread count `≥ 1`. -/
theorem correlation_coefficients_spec (sqrt : α → α) (datasets : List (Vector α))
    (num_threads : Int) (hT : 1 ≤ num_threads) (hN : 2 ≤ datasets.length)
    (hmax : datasets.length ≤ 46341) (D : Nat) (hD : ∀ v ∈ datasets, v.length = D) :
    ∃ res, correlation_coefficients sqrt datasets num_threads = some res ∧
      res.length = datasets.length * (datasets.length - 1) / 2 ∧
      ∀ k, k < datasets.length * (datasets.length - 1) / 2 →
        ∃ (i j : Nat) (hi : i < datasets.length) (hj : j < datasets.length),
          (canonicalPairs datasets.length)[k]? = some (i, j) ∧ i < j ∧
          pearson sqrt datasets[i] datasets[j] = res[k]? := by
  have hN32 : toInt32 (datasets.length : Int) = datasets.length :=
    toInt32_small _ (by omega) (by omega)
  have htot := total_tasks_small (datasets.length : Int) (by omega) (by omega)
  have hev : 2 * (((datasets.length : Int) * ((datasets.length : Int) - 1)) / 2)
      = (datasets.length : Int) * ((datasets.length : Int) - 1) := by
    apply Int.two_mul_ediv_two_of_even
    have h := Int.even_mul_succ_self ((datasets.length : Int) - 1)
    rw [sub_add_cancel, mul_comm] at h
    exact h
  have hnat : ((datasets.length * (datasets.length - 1) / 2 : Nat) : Int)
      = (datasets.length : Int) * ((datasets.length : Int) - 1) / 2 := by
    have h1 : ((datasets.length - 1 : Nat) : Int) = (datasets.length : Int) - 1 := by omega
    push_cast
    rw [h1]
  have hpos : 0 < (datasets.length : Int) * ((datasets.length : Int) - 1) / 2 := by
    have : (2 : Int) * 1 ≤ (datasets.length : Int) * ((datasets.length : Int) - 1) := by
      nlinarith
    omega
  rw [correlation_coefficients_eq sqrt datasets num_threads hT, hN32, htot]
  rw [if_neg (by omega), if_neg (by omega)]
  generalize htdef : (datasets.length : Int) * ((datasets.length : Int) - 1) / 2 = total
    at hnat hpos hev
  have hcoef : ∀ m : Int, 0 ≤ m → m < total →
      ∃ (i j : Nat) (hi : i < datasets.length) (hj : j < datasets.length),
        (canonicalPairs datasets.length)[m.toNat]? = some (i, j) ∧ i < j ∧
        pairCoefficient sqrt datasets m = pearson sqrt datasets[i] datasets[j] := by
    intro m hm0 hm1
    obtain ⟨i, j, hd, h0, hij, hj, hrank⟩ :=
      decode_spec (datasets.length : Int) m (by omega) hm0 (by rw [htdef]; exact hm1)
    have hi2 : i.toNat < datasets.length := by omega
    have hj2 : j.toNat < datasets.length := by omega
    refine ⟨i.toNat, j.toNat, hi2, hj2, ?_, by omega, ?_⟩
    · have h := canonicalPairs_getElem? datasets.length i.toNat j.toNat (by omega) hj2
      have e1 : ((i.toNat : Nat) : Int) = i := by omega
      have e2 : ((j.toNat : Nat) : Int) = j := by omega
      rw [e1, e2, hrank] at h
      exact h
    · apply pairCoefficient_eq
      rw [hN32]
      have e1 : ((i.toNat : Nat) : Int) = i := by omega
      have e2 : ((j.toNat : Nat) : Int) = j := by omega
      rw [e1, e2]
      exact hd
  obtain ⟨res, hres, hlen, hget⟩ :=
    workerLoop_wholeRange_spec sqrt datasets total total.toNat 0
      (List.replicate total.toNat 0) (le_refl _) (by simp)
      (by
        intro m hm0 hm1
        obtain ⟨i, j, hi, hj, _, _, hc⟩ := hcoef m hm0 (by omega)
        rw [hc, pearson_eq sqrt _ _ (by
          rw [hD _ (List.getElem_mem hi), hD _ (List.getElem_mem hj)])]
        exact ⟨_, rfl⟩)
  refine ⟨res, hres, ?_, ?_⟩
  · rw [hlen, List.length_replicate]
    omega
  · intro k hk
    obtain ⟨i, j, hi, hj, hcp, hij, hc⟩ := hcoef (k : Int) (by omega) (by omega)
    refine ⟨i, j, hi, hj, by simpa using hcp, hij, ?_⟩
    rw [hget k, if_pos (by omega), hc]

end Functional

/-! ## The chunks of the scheduler -/

section Chunks

variable {α : Type}

/-- Start index of chunk `t` when every chunk has `c` indices and the first `r` one more. -/
theorem chunkStart_step (c r t : Int) :
    (t + 1) * c + min (t + 1) r = t * c + min t r + (c + if t < r then 1 else 0) := by
  have h : (t + 1) * c = t * c + c := by ring
  rw [h]
  split <;> omega

theorem chunkStart_mono (c r a b : Int) (hc : 0 ≤ c) (hab : a ≤ b) :
    a * c + min a r ≤ b * c + min b r := by
  have h : a * c ≤ b * c := mul_le_mul_of_nonneg_right hab hc
  omega

/-- Every index below the start of chunk `n` lies in one of the chunks before it. -/
theorem chunk_cover (c r k : Int) (hk : 0 ≤ k) :
    ∀ n : Nat, k < (n : Int) * c + min (n : Int) r →
      ∃ t : Nat, t < n ∧ (t : Int) * c + min (t : Int) r ≤ k ∧
        k < ((t : Int) + 1) * c + min ((t : Int) + 1) r := by
  intro n
  induction n with
  | zero =>
    intro h
    simp only [Nat.cast_zero, zero_mul, zero_add] at h
    omega
  | succ n ih =>
    intro h
    by_cases hn : k < (n : Int) * c + min (n : Int) r
    · obtain ⟨t, ht, h1, h2⟩ := ih hn
      exact ⟨t, by omega, h1, h2⟩
    · refine ⟨n, by omega, by omega, ?_⟩
      push_cast at h
      exact h

/-- The records of `threadData` in closed form. -/
theorem threadData_getElem? (datasets : List (Vector α)) (total threads : Int)
    (h0 : 0 ≤ total) (h1 : 1 ≤ threads) (t : Nat) (d : ThreadData α)
    (hd : (threadData datasets total threads)[t]? = some d) :
    (t : Int) < threads ∧ d.datasets = datasets ∧
      d.output_start_index = (t : Int) * total.tdiv threads + min (t : Int) (total.tmod threads) ∧
      d.output_end_index = ((t : Int) + 1) * total.tdiv threads
        + min ((t : Int) + 1) (total.tmod threads) ∧
      d.results_out = d.output_start_index := by
  obtain ⟨_, hr0, _, _⟩ := tdiv_tmod_facts total threads h0 h1
  have hlt : t < threads.toNat := by
    have h := (List.getElem?_eq_some_iff.mp hd).1
    simp only [threadData, scheduleLoop_length] at h
    exact h
  obtain ⟨d2, hd2, e1, e2, e3, e4⟩ :=
    scheduleLoop_getElem? datasets (total.tdiv threads) (total.tmod threads) threads.toNat 0 0 t
      hlt
  simp only [threadData] at hd
  rw [hd2] at hd
  simp only [Option.some.injEq] at hd
  subst hd
  have hstep := chunkStart_step (total.tdiv threads) (total.tmod threads) t
  refine ⟨by omega, e1, ?_, ?_, e4⟩
  · rw [e2]; simp only [zero_add]; omega
  · rw [e3, e2, hstep]; simp only [zero_add]; omega

end Chunks

/-! ## Claims on the threaded engine -/

section EngineClaims

variable {α : Type} [Zero α] [One α] [Add α] [Sub α] [Mul α] [Div α] [Neg α] [NatCast α]
  [LE α] [DecidableRel (fun a b : α => a ≤ b)] [Min α] [Max α]

/-- C2: for every `N ≥ 2` the row walk of `pearson_worker` maps the linear indices
`0 ≤ k < N*(N-1)/2` into the pairs `0 ≤ i < j < N`, reaches every such pair, is injective,
decodes `k` to `(i, j)` exactly when `k = i*(N-1) - i*(i-1)/2 + (j-i-1)`, and sends a larger
index to a lexicographically later pair. -/
theorem decode_bijection_canonical (N : Int) (hN : 2 ≤ N) :
    (∀ k, 0 ≤ k → k < N * (N - 1) / 2 →
      ∃ i j, decode N k = some (i, j) ∧ 0 ≤ i ∧ i < j ∧ j < N) ∧
    (∀ i j, 0 ≤ i → i < j → j < N →
      ∃ k, 0 ≤ k ∧ k < N * (N - 1) / 2 ∧ decode N k = some (i, j)) ∧
    (∀ k k2, 0 ≤ k → k < N * (N - 1) / 2 → 0 ≤ k2 → k2 < N * (N - 1) / 2 →
      decode N k = decode N k2 → k = k2) ∧
    (∀ k i j, 0 ≤ k → k < N * (N - 1) / 2 → 0 ≤ i → i < j → j < N →
      (decode N k = some (i, j) ↔ k = canonicalRank N i j)) ∧
    (∀ k k2 i j i2 j2, 0 ≤ k → k < k2 → k2 < N * (N - 1) / 2 →
      decode N k = some (i, j) → decode N k2 = some (i2, j2) →
      i < i2 ∨ (i = i2 ∧ j < j2)) := by
  refine ⟨?_, ?_, ?_, ?_, ?_⟩
  · intro k h0 h1
    obtain ⟨i, j, hd, hi, hij, hj, _⟩ := decode_spec N k hN h0 h1
    exact ⟨i, j, hd, hi, hij, hj⟩
  · intro i j hi hij hj
    obtain ⟨h0, h1⟩ := canonicalRank_range N i j hi hij hj
    exact ⟨_, h0, h1, decode_canonicalRank N i j hN hi hij hj⟩
  · intro k k2 h0 h1 h2 h3 he
    obtain ⟨i, j, hd, _, _, _, hr⟩ := decode_spec N k hN h0 h1
    obtain ⟨i2, j2, hd2, _, _, _, hr2⟩ := decode_spec N k2 hN h2 h3
    rw [hd, hd2] at he
    simp only [Option.some.injEq, Prod.mk.injEq] at he
    rw [← hr, ← hr2, he.1, he.2]
  · intro k i j h0 h1 hi hij hj
    constructor
    · intro hd
      obtain ⟨i2, j2, hd2, _, _, _, hr⟩ := decode_spec N k hN h0 h1
      rw [hd] at hd2
      simp only [Option.some.injEq, Prod.mk.injEq] at hd2
      rw [← hr, hd2.1, hd2.2]
    · intro hk
      rw [hk]
      exact decode_canonicalRank N i j hN hi hij hj
  · intro k k2 i j i2 j2 h0 hlt h1 hd hd2
    obtain ⟨a, b, ha, ha0, hab, hb, hr⟩ := decode_spec N k hN h0 (by omega)
    obtain ⟨a2, b2, ha2, ha20, hab2, hb2, hr2⟩ := decode_spec N k2 hN (by omega) h1
    rw [hd] at ha
    rw [hd2] at ha2
    simp only [Option.some.injEq, Prod.mk.injEq] at ha ha2
    obtain ⟨rfl, rfl⟩ := ha
    obtain ⟨rfl, rfl⟩ := ha2
    by_contra hcon
    have hge : i2 < i ∨ (i2 = i ∧ j2 ≤ j) := by omega
    rcases hge with h | ⟨h, h3⟩
    · have := canonicalRank_lt_of_lex N i2 j2 i j hb2 hab hb (Or.inl h)
      omega
    · subst h
      rcases eq_or_lt_of_le h3 with h4 | h4
      · subst h4; omega
      · have := canonicalRank_lt_of_lex N i2 j2 i2 j hb2 hab hb (Or.inr ⟨rfl, h4⟩)
        omega

/-- Witness of C2 at `N = 4`: index `3` decodes to the pair `(1, 2)`, whose canonical rank
is `3`. -/
theorem decode_bijection_canonical_witness :
    (2 : Int) ≤ 4 ∧ decode 4 3 = some (1, 2) ∧ canonicalRank 4 1 2 = 3 :=
  ⟨by decide,
   ((decode_bijection_canonical 4 (by decide)).2.2.2.1 3 1 2 (by decide) (by decide) (by decide)
      (by decide) (by decide)).mpr (by decide),
   by decide⟩

/-- C3: chunk-partition law.  For `total ≥ 0` and `effective_threads ≥ 1` (in particular for
`effective_threads` in `[1, total]`) the records the scheduling loop fills are
`effective_threads` chunks `[start, end)`; chunk `t` has `base + 1` indices for
`t < remainder` and `base` otherwise; the chunks are a running sum from `0` to `total`; they
cover `[0, total)`, lie inside it, are pairwise disjoint, and any two sizes differ by at most
`1`. -/
theorem chunk_partition_law {β : Type} (datasets : List (Vector β))
    (total effective_threads : Int)
    (h0 : 0 ≤ total) (h1 : 1 ≤ effective_threads) :
    ((threadData datasets total effective_threads).length : Int) = effective_threads ∧
    (∀ (t : Nat) (d : ThreadData β),
      (threadData datasets total effective_threads)[t]? = some d →
      d.output_end_index - d.output_start_index =
        total.tdiv effective_threads +
          (if (t : Int) < total.tmod effective_threads then 1 else 0)) ∧
    (∀ d : ThreadData β, (threadData datasets total effective_threads)[0]? = some d →
      d.output_start_index = 0) ∧
    (∀ (t : Nat) (d d2 : ThreadData β),
      (threadData datasets total effective_threads)[t]? = some d →
      (threadData datasets total effective_threads)[t + 1]? = some d2 →
      d2.output_start_index = d.output_end_index) ∧
    (∀ (t : Nat) (d : ThreadData β),
      (threadData datasets total effective_threads)[t]? = some d →
      (t : Int) + 1 = effective_threads → d.output_end_index = total) ∧
    (∀ k, 0 ≤ k → k < total →
      ∃ (t : Nat) (d : ThreadData β),
        (threadData datasets total effective_threads)[t]? = some d ∧
        d.output_start_index ≤ k ∧ k < d.output_end_index) ∧
    (∀ (t : Nat) (d : ThreadData β),
      (threadData datasets total effective_threads)[t]? = some d →
      0 ≤ d.output_start_index ∧ d.output_start_index ≤ d.output_end_index ∧
        d.output_end_index ≤ total) ∧
    (∀ (t t2 : Nat) (d d2 : ThreadData β) (k : Int),
      (threadData datasets total effective_threads)[t]? = some d →
      (threadData datasets total effective_threads)[t2]? = some d2 → t ≠ t2 →
      ¬ (d.output_start_index ≤ k ∧ k < d.output_end_index ∧
         d2.output_start_index ≤ k ∧ k < d2.output_end_index)) ∧
    (∀ (t t2 : Nat) (d d2 : ThreadData β),
      (threadData datasets total effective_threads)[t]? = some d →
      (threadData datasets total effective_threads)[t2]? = some d2 →
      (d.output_end_index - d.output_start_index) -
        (d2.output_end_index - d2.output_start_index) ≤ 1) := by
  obtain ⟨hsum, hr0, hr1, hc0⟩ := tdiv_tmod_facts total effective_threads h0 h1
  have hlen : (threadData datasets total effective_threads).length = effective_threads.toNat := by
    simp only [threadData, scheduleLoop_length]
  have hfacts := threadData_getElem? datasets total effective_threads h0 h1
  have hstep := chunkStart_step (total.tdiv effective_threads) (total.tmod effective_threads)
  have hmono := chunkStart_mono (total.tdiv effective_threads) (total.tmod effective_threads)
  have htotal : effective_threads * total.tdiv effective_threads
      + min effective_threads (total.tmod effective_threads) = total := by omega
  refine ⟨by omega, ?_, ?_, ?_, ?_, ?_, ?_, ?_, ?_⟩
  · intro t d hd
    obtain ⟨_, _, e2, e3, _⟩ := hfacts t d hd
    rw [e2, e3, hstep]; omega
  · intro d hd
    obtain ⟨_, _, e2, _, _⟩ := hfacts 0 d hd
    rw [e2]; simp only [Nat.cast_zero, zero_mul, zero_add]; omega
  · intro t d d2 hd hd2
    obtain ⟨_, _, _, e3, _⟩ := hfacts t d hd
    obtain ⟨_, _, e2, _, _⟩ := hfacts (t + 1) d2 hd2
    rw [e2, e3]; push_cast; rfl
  · intro t d hd hlast
    obtain ⟨_, _, _, e3, _⟩ := hfacts t d hd
    rw [e3, hlast, htotal]
  · intro k hk0 hk1
    have hkn : k < ((effective_threads.toNat : Nat) : Int) * total.tdiv effective_threads
        + min ((effective_threads.toNat : Nat) : Int) (total.tmod effective_threads) := by
      have hcast : ((effective_threads.toNat : Nat) : Int) = effective_threads := by omega
      rw [hcast, htotal]; exact hk1
    obtain ⟨t, ht, hlo, hhi⟩ := chunk_cover _ _ k hk0 _ hkn
    have hex : t < (threadData datasets total effective_threads).length := by omega
    refine ⟨t, (threadData datasets total effective_threads)[t], List.getElem?_eq_getElem hex,
      ?_, ?_⟩
    · obtain ⟨_, _, e2, _, _⟩ := hfacts t _ (List.getElem?_eq_getElem hex)
      rw [e2]; exact hlo
    · obtain ⟨_, _, _, e3, _⟩ := hfacts t _ (List.getElem?_eq_getElem hex)
      rw [e3]; exact hhi
  · intro t d hd
    obtain ⟨hlt, _, e2, e3, _⟩ := hfacts t d hd
    have m0 := hmono 0 t hc0 (by omega)
    have m1 := hmono t (t + 1) hc0 (by omega)
    have m2 := hmono (t + 1) effective_threads hc0 (by omega)
    rw [e2, e3]
    simp only [zero_mul, zero_add] at m0
    omega
  · intro t t2 d d2 k hd hd2 hne hk
    obtain ⟨_, _, e2, e3, _⟩ := hfacts t d hd
    obtain ⟨_, _, f2, f3, _⟩ := hfacts t2 d2 hd2
    rw [e2, e3, f2, f3] at hk
    rcases Nat.lt_or_gt_of_ne hne with h | h
    · have m := hmono ((t : Int) + 1) t2 hc0 (by omega)
      omega
    · have m := hmono ((t2 : Int) + 1) t hc0 (by omega)
      omega
  · intro t t2 d d2 hd hd2
    obtain ⟨_, _, e2, e3, _⟩ := hfacts t d hd
    obtain ⟨_, _, f2, f3, _⟩ := hfacts t2 d2 hd2
    rw [e2, e3, f2, f3, hstep, hstep]
    split <;> split <;> omega

/-- Witness of C3 at `total = 10`, `effective_threads = 4`: the chunks are `[0,3)`, `[3,6)`,
`[6,8)`, `[8,10)`. -/
theorem chunk_partition_law_witness :
    (0 : Int) ≤ 10 ∧ (1 : Int) ≤ 4 ∧ (4 : Int) ≤ 10 ∧
    (threadData ([] : List (Vector ℚ)) 10 4).map
      (fun d => (d.output_start_index, d.output_end_index)) = [(0, 3), (3, 6), (6, 8), (8, 10)] ∧
    ((threadData ([] : List (Vector ℚ)) 10 4).length : Int) = 4 :=
  ⟨by decide, by decide, by decide, by decide,
    (chunk_partition_law ([] : List (Vector ℚ)) 10 4 (by decide) (by decide)).1⟩

end EngineClaims

section EngineClaims2

variable {α : Type} [Zero α] [One α] [Add α] [Sub α] [Mul α] [Div α] [Neg α] [NatCast α]
  [LE α] [DecidableRel (fun a b : α => a ≤ b)] [Min α] [Max α]

/-- C1, as stated, fails beyond the `int` range.  On `46342` vectors of equal length the 32-bit
product `N * (N - 1)` wraps, `total_tasks` is negative and no buffer is returned.  On `65537`
vectors the pair count `65537 * 65536 / 2 = 2147516416` does not fit the `int` that holds
`total_tasks`: the 32-bit product is `65536` and a returned buffer has `32768` values. -/
theorem correlation_coefficients_int_range :
    ((List.replicate 46342 ([1, 2] : Vector ℚ)).length = 46342 ∧
      (∀ v ∈ List.replicate 46342 ([1, 2] : Vector ℚ), v.length = 2) ∧
      correlation_coefficients (fun x => x) (List.replicate 46342 ([1, 2] : Vector ℚ)) 1 = none ∧
      ¬ ∃ res, correlation_coefficients (fun x => x) (List.replicate 46342 ([1, 2] : Vector ℚ)) 1
          = some res ∧ res.length = 46342 * (46342 - 1) / 2) ∧
    ((List.replicate 65537 ([1, 2] : Vector ℚ)).length = 65537 ∧
      (∀ v ∈ List.replicate 65537 ([1, 2] : Vector ℚ), v.length = 2) ∧
      ¬ ∃ res, correlation_coefficients (fun x => x) (List.replicate 65537 ([1, 2] : Vector ℚ)) 1
          = some res ∧ res.length = 65537 * (65537 - 1) / 2) := by
  have hnone : correlation_coefficients (fun x => x)
      (List.replicate 46342 ([1, 2] : Vector ℚ)) 1 = none := by
    have h1 : toInt32 ((46342 : Nat) : Int) = 46342 := by decide
    have h2 : (toInt32 (46342 * (46342 - 1))).tdiv 2 = -1073716337 := by decide
    simp only [correlation_coefficients, correlation_coefficients_run, List.length_replicate,
      h1, h2]
    simp
  refine ⟨⟨List.length_replicate _ _, ?_, hnone, ?_⟩, List.length_replicate _ _, ?_, ?_⟩
  · intro v hv
    rw [(List.mem_replicate.mp hv).2]
    rfl
  · rintro ⟨res, h, _⟩
    rw [hnone] at h
    simp at h
  · intro v hv
    rw [(List.mem_replicate.mp hv).2]
    rfl
  · rintro ⟨res, h, hl⟩
    have h1 : toInt32 ((65537 : Nat) : Int) = 65537 := by decide
    have h2 : ((toInt32 (65537 * (65537 - 1))).tdiv 2).toNat = 32768 := by decide
    have hlen := correlation_coefficients_length _ _ _ res h
      (by rw [List.length_replicate, h1]; decide)
    rw [List.length_replicate, h1, h2] at hlen
    omega

/-- C1, amended: for `2 ≤ N ≤ 46341` equal-length vectors and every thread count `≥ 1`, the
threaded `correlation_coefficients` returns exactly `N*(N-1)/2` values, and for every
`k < N*(N-1)/2` slot `k` holds `pearson(datasets[i], datasets[j])`, where `(i, j)` is the `k`-th
pair of the canonical order. -/
theorem correlation_coefficients_canonical (sqrt : α → α) (datasets : List (Vector α))
    (num_threads : Int) (hT : 1 ≤ num_threads) (hN : 2 ≤ datasets.length)
    (hmax : datasets.length ≤ 46341) (D : Nat) (hD : ∀ v ∈ datasets, v.length = D) :
    ∃ res, correlation_coefficients sqrt datasets num_threads = some res ∧
      res.length = datasets.length * (datasets.length - 1) / 2 ∧
      ∀ k, k < datasets.length * (datasets.length - 1) / 2 →
        ∃ (i j : Nat) (hi : i < datasets.length) (hj : j < datasets.length),
          (canonicalPairs datasets.length)[k]? = some (i, j) ∧ i < j ∧
          pearson sqrt datasets[i] datasets[j] = res[k]? :=
  correlation_coefficients_spec sqrt datasets num_threads hT hN hmax D hD

/-- Witness of the amended C1: three vectors of length three, two threads. -/
theorem correlation_coefficients_canonical_witness :
    ∃ res, correlation_coefficients Real.sqrt
        ([[1, 2, 3], [2, 4, 6], [3, 2, 1]] : List (Vector ℝ)) 2 = some res ∧
      res.length = 3 := by
  obtain ⟨res, h, hl, _⟩ := correlation_coefficients_canonical Real.sqrt
    ([[1, 2, 3], [2, 4, 6], [3, 2, 1]] : List (Vector ℝ)) 2 (by decide) (by decide) (by decide) 3
    (by simp)
  exact ⟨res, h, hl⟩

/-- C4: determinism across parallelism.  For any dataset collection and any two thread counts
`T1, T2 ≥ 1` the two calls have the same outcome; two returned buffers have the same length and
the same value in every slot; and on a collection of at most `46341` equal-length vectors both
calls do return a buffer. -/
theorem correlation_coefficients_deterministic (sqrt : α → α) (datasets : List (Vector α))
    (T1 T2 : Int) (h1 : 1 ≤ T1) (h2 : 1 ≤ T2) :
    correlation_coefficients sqrt datasets T1 = correlation_coefficients sqrt datasets T2 ∧
    (∀ res1, correlation_coefficients sqrt datasets T1 = some res1 →
      ∃ res2, correlation_coefficients sqrt datasets T2 = some res2 ∧
        res1.length = res2.length ∧ ∀ k : Nat, res1[k]? = res2[k]?) ∧
    (∀ D : Nat, (∀ v ∈ datasets, v.length = D) → datasets.length ≤ 46341 →
      ∃ res, correlation_coefficients sqrt datasets T1 = some res ∧
        correlation_coefficients sqrt datasets T2 = some res) := by
  have h : correlation_coefficients sqrt datasets T1
      = correlation_coefficients sqrt datasets T2 := by
    rw [correlation_coefficients_eq sqrt datasets T1 h1,
      correlation_coefficients_eq sqrt datasets T2 h2]
  refine ⟨h, ?_, ?_⟩
  · intro res1 hr
    exact ⟨res1, by rw [← h]; exact hr, rfl, fun _ => rfl⟩
  · intro D hD hmax
    rw [← h]
    by_cases hN : datasets.length ≤ 1
    · refine ⟨[], ?_, ?_⟩ <;>
      · rw [correlation_coefficients_eq sqrt datasets T1 h1,
          toInt32_small _ (by omega) (by omega), if_pos (by omega)]
    · obtain ⟨res, hres, _⟩ := correlation_coefficients_spec sqrt datasets T1 h1 (by omega)
        hmax D hD
      exact ⟨res, hres, hres⟩

/-- Witness of C4: one thread and three threads return the same buffer on three vectors. -/
theorem correlation_coefficients_deterministic_witness :
    ∃ res, correlation_coefficients Real.sqrt
        ([[1, 2, 3], [2, 4, 6], [3, 2, 1]] : List (Vector ℝ)) 1 = some res ∧
      correlation_coefficients Real.sqrt
        ([[1, 2, 3], [2, 4, 6], [3, 2, 1]] : List (Vector ℝ)) 3 = some res := by
  obtain ⟨res, h, _⟩ := correlation_coefficients_spec Real.sqrt
    ([[1, 2, 3], [2, 4, 6], [3, 2, 1]] : List (Vector ℝ)) 1 (by decide) (by decide) (by decide) 3
    (by simp)
  refine ⟨res, h, ?_⟩
  rw [← (correlation_coefficients_deterministic Real.sqrt
    ([[1, 2, 3], [2, 4, 6], [3, 2, 1]] : List (Vector ℝ)) 1 3 (by decide) (by decide)).1]
  exact h

/-- C9: a collection of size `0` or `1` gives an empty buffer and no worker, for every thread
count, also one that is zero or negative. -/
theorem correlation_coefficients_small (sqrt : α → α) (datasets : List (Vector α))
    (num_threads : Int) (h : datasets.length ≤ 1) :
    correlation_coefficients_run sqrt datasets num_threads
        = some { spawned := [], results := [] } ∧
    correlation_coefficients sqrt datasets num_threads = some [] := by
  have hN : toInt32 (datasets.length : Int) ≤ 1 := by
    rw [toInt32_small _ (by omega) (by omega)]
    omega
  simp [correlation_coefficients, correlation_coefficients_run, hN]

/-- Witness of C9: one vector and a thread count of zero. -/
theorem correlation_coefficients_small_witness :
    ([[1, 2, 3]] : List (Vector ℝ)).length ≤ 1 ∧
    correlation_coefficients_run Real.sqrt ([[1, 2, 3]] : List (Vector ℝ)) 0
        = some { spawned := [], results := [] } :=
  ⟨by decide,
    (correlation_coefficients_small Real.sqrt ([[1, 2, 3]] : List (Vector ℝ)) 0 (by decide)).1⟩

end EngineClaims2

/-! ## The sums of the kernel as sums over the vectors -/

section SumLemmas

variable {α : Type} [LinearOrderedField α]

theorem foldl_accumulate (l : List (α × α)) :
    ∀ s : Sums α,
      l.foldl (fun s p => s.accumulate p.1 p.2) s =
        { sum_x := s.sum_x + (l.map fun p => p.1).sum
          sum_y := s.sum_y + (l.map fun p => p.2).sum
          sum_x2 := s.sum_x2 + (l.map fun p => p.1 * p.1).sum
          sum_y2 := s.sum_y2 + (l.map fun p => p.2 * p.2).sum
          sum_xy := s.sum_xy + (l.map fun p => p.1 * p.2).sum } := by
  induction l with
  | nil => intro s; simp
  | cons p l ih =>
    intro s
    rw [List.foldl_cons, ih]
    simp only [Sums.accumulate, List.map_cons, List.sum_cons, add_assoc]

/-- The sums the loops return on vectors of equal length. -/
theorem sumsUpTo_full (x y : List α) :
    sumsUpTo x y x.length =
      { sum_x := ((x.zip y).map fun p => p.1).sum
        sum_y := ((x.zip y).map fun p => p.2).sum
        sum_x2 := ((x.zip y).map fun p => p.1 * p.1).sum
        sum_y2 := ((x.zip y).map fun p => p.2 * p.2).sum
        sum_xy := ((x.zip y).map fun p => p.1 * p.2).sum } := by
  unfold sumsUpTo
  rw [List.take_of_length_le (by simp), foldl_accumulate]
  simp [Sums.zero]

/-- The value of `pearson` on non-empty vectors of equal length, in terms of the five sums over
the list of element pairs. -/
theorem pearson_formula (sqrt : α → α) (x y : List α) (h : x.length = y.length)
    (hn : x.length ≠ 0) :
    pearson sqrt x y = some (finish sqrt x.length
      { sum_x := ((x.zip y).map fun p => p.1).sum
        sum_y := ((x.zip y).map fun p => p.2).sum
        sum_x2 := ((x.zip y).map fun p => p.1 * p.1).sum
        sum_y2 := ((x.zip y).map fun p => p.2 * p.2).sum
        sum_xy := ((x.zip y).map fun p => p.1 * p.2).sum }) := by
  rw [pearson_eq sqrt x y h, if_neg hn, sumsUpTo_full]

theorem zip_sum_fst (x y : List α) (h : x.length = y.length) :
    ((x.zip y).map fun p => p.1).sum = x.sum := by
  have : ((x.zip y).map fun p => p.1) = x := List.map_fst_zip x y (by omega)
  rw [this]

theorem zip_sum_snd (x y : List α) (h : x.length = y.length) :
    ((x.zip y).map fun p => p.2).sum = y.sum := by
  have : ((x.zip y).map fun p => p.2) = y := List.map_snd_zip x y (by omega)
  rw [this]

theorem zip_sum_fst_sq (x y : List α) (h : x.length = y.length) :
    ((x.zip y).map fun p => p.1 * p.1).sum = (x.map fun a => a * a).sum := by
  have : ((x.zip y).map fun p => p.1 * p.1) = ((x.zip y).map fun p => p.1).map fun a => a * a := by
    rw [List.map_map]; rfl
  rw [this, show ((x.zip y).map fun p => p.1) = x from List.map_fst_zip x y (by omega)]

theorem zip_sum_snd_sq (x y : List α) (h : x.length = y.length) :
    ((x.zip y).map fun p => p.2 * p.2).sum = (y.map fun a => a * a).sum := by
  have : ((x.zip y).map fun p => p.2 * p.2) = ((x.zip y).map fun p => p.2).map fun a => a * a := by
    rw [List.map_map]; rfl
  rw [this, show ((x.zip y).map fun p => p.2) = y from List.map_snd_zip x y (by omega)]

/-- Products against a scaled copy: `Σ v_i * (s * v_i) = s * Σ v_i * v_i`. -/
theorem zip_scaled_sum (v : List α) (s : α) :
    ((v.zip (v.map fun a => s * a)).map fun p => p.1 * p.2).sum
      = s * (v.map fun a => a * a).sum := by
  induction v with
  | nil => simp
  | cons a v ih =>
    simp only [List.map_cons, List.zip_cons_cons, List.sum_cons, ih]
    ring

theorem scaled_sum (v : List α) (s : α) : (v.map fun a => s * a).sum = s * v.sum := by
  induction v with
  | nil => simp
  | cons a v ih => simp only [List.map_cons, List.sum_cons, ih]; ring

theorem scaled_sq_sum (v : List α) (s : α) :
    ((v.map fun a => s * a).map fun a => a * a).sum = s * s * (v.map fun a => a * a).sum := by
  induction v with
  | nil => simp
  | cons a v ih => simp only [List.map_cons, List.sum_cons, ih]; ring

/-- Sum of the squared deviations `(k * a - S)^2` over a list. -/
theorem deviation_sum (v : List α) (k S : α) :
    (v.map fun a => (k * a - S) * (k * a - S)).sum
      = k * k * (v.map fun a => a * a).sum - 2 * k * S * v.sum + (v.length : α) * (S * S) := by
  induction v with
  | nil => simp
  | cons a v ih =>
    simp only [List.map_cons, List.sum_cons, ih, List.length_cons]
    push_cast
    ring

/-- The term `n * Σ v_i^2 - (Σ v_i)^2` is positive for a vector with two distinct elements. -/
theorem term_pos_of_nonconstant (v : List α) (a b : α) (ha : a ∈ v) (hb : b ∈ v) (hab : a ≠ b) :
    0 < (v.length : α) * (v.map fun a => a * a).sum - v.sum * v.sum := by
  have hlen : 0 < v.length := List.length_pos_of_mem ha
  have hn : (0 : α) < (v.length : α) := by exact_mod_cast hlen
  have hdev := deviation_sum v (v.length : α) v.sum
  have hnonneg : ∀ e ∈ (v.map fun a => ((v.length : α) * a - v.sum) * ((v.length : α) * a - v.sum)),
      0 ≤ e := by
    intro e he
    obtain ⟨c, _, rfl⟩ := List.mem_map.mp he
    exact mul_self_nonneg _
  by_contra hneg
  have hle : (v.length : α) * (v.map fun a => a * a).sum - v.sum * v.sum ≤ 0 := not_lt.mp hneg
  have hsum_le : (v.map fun a =>
      ((v.length : α) * a - v.sum) * ((v.length : α) * a - v.sum)).sum ≤ 0 := by
    rw [hdev]
    have : (v.length : α) * ((v.length : α) * (v.map fun a => a * a).sum - v.sum * v.sum) ≤ 0 :=
      mul_nonpos_of_nonneg_of_nonpos hn.le hle
    nlinarith
  have hzero : ∀ c ∈ v, (v.length : α) * c = v.sum := by
    intro c hc
    have hmem : ((v.length : α) * c - v.sum) * ((v.length : α) * c - v.sum) ∈
        (v.map fun a => ((v.length : α) * a - v.sum) * ((v.length : α) * a - v.sum)) :=
      List.mem_map.mpr ⟨c, hc, rfl⟩
    have h1 := List.single_le_sum hnonneg _ hmem
    have h2 : ((v.length : α) * c - v.sum) * ((v.length : α) * c - v.sum) = 0 :=
      le_antisymm (le_trans h1 hsum_le) (mul_self_nonneg _)
    have h3 := mul_self_eq_zero.mp h2
    linarith
  have h1 := hzero a ha
  have h2 := hzero b hb
  have : (v.length : α) * a = (v.length : α) * b := by rw [h1, h2]
  exact hab (mul_left_cancel₀ hn.ne' this)

end SumLemmas

end Analysis
namespace Analysis

/-! ## The clamp and the comparisons on `Double` -/

section DoubleOrder

set_option maxRecDepth 20000
set_option exponentiation.threshold 8192

/-- Values of the binary64 arithmetic: the literals `0.0` and `1.0`; `0.1 + 0.2` is
`0.30000000000000004`, not `0.3`; ties go to the even neighbour (`2^53 + 1` gives `2^53`,
`2^53 + 3` gives `2^53 + 4`); `1e200 * 1e200` overflows to `inf`; `inf - inf` and `0.0 / 0.0`
are NaN; `1.0 / 0.0` is `inf`; `sqrt(2.0)` is `0x1.6a09e667f3bcdp+0`; the smallest subnormal
halved is `0.0`; a NaN is not `<=` itself and `-0.0 <= 0.0 <= -0.0`. -/
theorem Double.arithmetic_examples :
    Double.ofNat 0 = 0 ∧ Double.ofNat 1 = 1 ∧
    Double.ofNat 1 / Double.ofNat 10 + Double.ofNat 2 / Double.ofNat 10
      = Double.finite false 5404319552844596 (-54) ∧
    Double.ofNat 3 / Double.ofNat 10 = Double.finite false 5404319552844595 (-54) ∧
    Double.ofNat (2 ^ 53 + 1) = Double.ofNat (2 ^ 53) ∧
    Double.ofNat (2 ^ 53 + 3) = Double.ofNat (2 ^ 53 + 4) ∧
    Double.ofNat (10 ^ 200) * Double.ofNat (10 ^ 200) = Double.inf false ∧
    Double.inf false - Double.inf false = Double.nan ∧
    (0 : Double) / 0 = Double.nan ∧
    (1 : Double) / 0 = Double.inf false ∧
    Double.sqrt (Double.ofNat 2) = Double.finite false 6369051672525773 (-52) ∧
    Double.finite false 1 (-1074) / Double.ofNat 2 = 0 ∧
    ¬ (Double.nan ≤ Double.nan) ∧
    (-(0 : Double) ≤ 0 ∧ (0 : Double) ≤ -0) := by
  decide

/-- Two numbers that are not NaN are comparable: when `a < b` is false, `b <= a` is true. -/
theorem Double.le_of_not_lt (a b : Double) (ha : a ≠ Double.nan) (hb : b ≠ Double.nan)
    (h : Double.lt a b = false) : Double.le b a = true := by
  cases a with
  | nan => exact absurd rfl ha
  | inf s =>
    cases b with
    | nan => exact absurd rfl hb
    | inf t => cases s <;> cases t <;> simp_all [Double.lt, Double.le]
    | finite t k f => cases s <;> simp_all [Double.lt, Double.le]
  | finite s m e =>
    cases b with
    | nan => exact absurd rfl hb
    | inf t => cases t <;> simp_all [Double.lt, Double.le]
    | finite t k f =>
      simp only [Double.lt, decide_eq_false_iff_not, not_lt] at h
      simp only [Double.le, decide_eq_true_eq]
      rw [min_comm f e]
      exact h

/-- The clamp `std::max(std::min(r, 1.0), -1.0)` returns a NaN for a NaN and a number of
`[-1.0, 1.0]` for everything else, the infinities included. -/
theorem Double.clamp_range (r : Double) :
    max (min r 1) (-1) = Double.nan ∨
      ((-1 : Double) ≤ max (min r 1) (-1) ∧ max (min r 1) (-1) ≤ 1) := by
  have h11 : Double.lt 1 (-1) = false := by decide
  have hr1 : ((-1 : Double) ≤ 1 ∧ (1 : Double) ≤ 1) := by decide
  have hr2 : ((-1 : Double) ≤ -1 ∧ (-1 : Double) ≤ 1) := by decide
  show (if Double.lt (if Double.lt 1 r then 1 else r) (-1) then (-1 : Double)
      else (if Double.lt 1 r then 1 else r)) = Double.nan ∨
    ((-1 : Double) ≤ (if Double.lt (if Double.lt 1 r then 1 else r) (-1) then (-1 : Double)
      else (if Double.lt 1 r then 1 else r)) ∧
     (if Double.lt (if Double.lt 1 r then 1 else r) (-1) then (-1 : Double)
      else (if Double.lt 1 r then 1 else r)) ≤ 1)
  by_cases h1 : Double.lt 1 r = true
  · rw [if_pos h1, if_neg (by rw [h11]; exact Bool.false_ne_true)]
    exact Or.inr hr1
  · rw [if_neg h1]
    by_cases h2 : Double.lt r (-1) = true
    · rw [if_pos h2]
      exact Or.inr hr2
    · rw [if_neg h2]
      by_cases hn : r = Double.nan
      · exact Or.inl hn
      · refine Or.inr ⟨?_, ?_⟩
        · exact Double.le_of_not_lt r (-1) hn (by decide) (by simpa using h2)
        · exact Double.le_of_not_lt 1 r (by decide) hn (by simpa using h1)

/-- On doubles the tail of `pearson` returns a NaN or a number of `[-1.0, 1.0]`. -/
theorem finish_double_range (n : Nat) (s : Sums Double) :
    finish Double.sqrt n s = Double.nan ∨
      ((-1 : Double) ≤ finish Double.sqrt n s ∧ finish Double.sqrt n s ≤ 1) := by
  unfold finish
  simp only []
  split
  · exact Or.inr (by decide)
  · exact Double.clamp_range _

end DoubleOrder

section Forall

variable {α : Type} [Zero α] [One α] [Add α] [Sub α] [Mul α] [Div α] [Neg α] [NatCast α]
  [LE α] [DecidableRel (fun a b : α => a ≤ b)] [Min α] [Max α]

/-- A property that `0.0` and every result of the tail of `pearson` have is a property of
everything `pearson` returns. -/
theorem pearson_forall (sqrt : α → α) (P : α → Prop) (h0 : P 0)
    (hP : ∀ n s, P (finish sqrt n s)) (x y : List α) (r : α)
    (h : pearson sqrt x y = some r) : P r := by
  unfold pearson at h
  by_cases hn : x.length = 0
  · simp only [hn, if_true, Option.some.injEq] at h
    subst h
    exact h0
  · simp only [hn, if_false, Option.bind_eq_bind] at h
    cases hs : accumulateSums x y x.length with
    | none => rw [hs] at h; simp at h
    | some s =>
      rw [hs] at h
      simp only [Option.some_bind, Option.some.injEq] at h
      subst h
      exact hP _ s

/-- Every coefficient a worker computes is a result of `pearson`. -/
theorem pairCoefficient_forall (sqrt : α → α) (P : α → Prop)
    (hP : ∀ x y r, pearson sqrt x y = some r → P r) (datasets : List (Vector α)) (k : Int)
    (c : α) (h : pairCoefficient sqrt datasets k = some c) : P c := by
  simp only [pairCoefficient, Option.bind_eq_bind] at h
  cases hd : decode (toInt32 datasets.length) k with
  | none => rw [hd] at h; simp at h
  | some p =>
    rw [hd] at h
    simp only [Option.some_bind] at h
    cases h1 : readAt datasets p.1 with
    | none => rw [h1] at h; simp at h
    | some vi =>
      rw [h1] at h
      simp only [Option.some_bind] at h
      cases h2 : readAt datasets p.2 with
      | none => rw [h2] at h; simp at h
      | some vj =>
        rw [h2] at h
        simp only [Option.some_bind] at h
        exact hP vi vj c h

/-- A property that `0.0` and every result of `pearson` have is a property of every element of
a buffer `correlation_coefficients` returns. -/
theorem correlation_coefficients_forall (sqrt : α → α) (P : α → Prop) (h0 : P 0)
    (hP : ∀ x y r, pearson sqrt x y = some r → P r) (datasets : List (Vector α))
    (num_threads : Int) (res : List α)
    (h : correlation_coefficients sqrt datasets num_threads = some res) :
    ∀ c ∈ res, P c := by
  intro c hc
  simp only [correlation_coefficients, correlation_coefficients_run] at h
  split at h
  · simp only [Option.map_some', Option.some.injEq] at h
    subst h
    simp at hc
  · split at h
    · simp at h
    · split at h
      · simp at h
      · simp only [Option.map_map, Option.map_eq_some', Function.comp_apply] at h
        obtain ⟨r, hr, hres⟩ := h
        subst hres
        refine runWorkers_forall sqrt P _ _ _ ?_ hr ?_ c hc
        · intro d _ k e he
          exact pairCoefficient_forall sqrt P hP d.datasets k e he
        · intro e he
          rw [(List.mem_replicate.mp he).2]
          exact h0

/-- On two vectors of equal length `correlation_coefficients` returns the one coefficient of the
pair, for every thread count `≥ 1`. -/
theorem correlation_coefficients_pair (sqrt : α → α) (x y : Vector α) (h : x.length = y.length)
    (r : α) (hr : pearson sqrt x y = some r) (num_threads : Int) (hT : 1 ≤ num_threads) :
    correlation_coefficients sqrt [x, y] num_threads = some [r] := by
  obtain ⟨res, hres, hlen, hslot⟩ := correlation_coefficients_spec sqrt [x, y] num_threads hT
    (by simp) (by simp) x.length (by
      intro v hv
      simp only [List.mem_cons, List.mem_singleton, List.not_mem_nil, or_false] at hv
      rcases hv with rfl | rfl
      · rfl
      · exact h.symm)
  rw [hres]
  have hl : res.length = 1 := by
    rw [hlen]
    simp
  have h0 : res[0]? = some r := by
    obtain ⟨i, j, hi, hj, hcp, _, hp⟩ := hslot 0 (by simp)
    have hc : (canonicalPairs 2)[0]? = some (0, 1) := by decide
    have he : (i, j) = (0, 1) := Option.some.inj (hcp.symm.trans hc)
    obtain ⟨rfl, rfl⟩ := Prod.mk.inj he
    rw [← hp]
    exact hr
  cases res with
  | nil => simp at hl
  | cons a t =>
    cases t with
    | nil =>
      simp only [List.getElem?_cons_zero, Option.some.injEq] at h0
      rw [h0]
    | cons b t => simp at hl

/-- On three vectors of equal length `correlation_coefficients` returns the coefficients of the
pairs `(0,1)`, `(0,2)`, `(1,2)`, in this order, for every thread count `≥ 1`. -/
theorem correlation_coefficients_triple (sqrt : α → α) (d0 d1 d2 : Vector α)
    (h1 : d1.length = d0.length) (h2 : d2.length = d0.length) (a b c : α)
    (h01 : pearson sqrt d0 d1 = some a) (h02 : pearson sqrt d0 d2 = some b)
    (h12 : pearson sqrt d1 d2 = some c) (num_threads : Int) (hT : 1 ≤ num_threads) :
    correlation_coefficients sqrt [d0, d1, d2] num_threads = some [a, b, c] := by
  obtain ⟨res, hres, hlen, hslot⟩ := correlation_coefficients_spec sqrt [d0, d1, d2]
    num_threads hT (by simp) (by simp) d0.length (by
      intro v hv
      simp only [List.mem_cons, List.mem_singleton, List.not_mem_nil, or_false] at hv
      rcases hv with rfl | rfl | rfl
      · rfl
      · exact h1
      · exact h2)
  rw [hres]
  have hl : res.length = 3 := by
    rw [hlen]
    simp
  have e0 : res[0]? = some a := by
    obtain ⟨i, j, hi, hj, hcp, _, hp⟩ := hslot 0 (by simp)
    have hc : (canonicalPairs 3)[0]? = some (0, 1) := by decide
    have he : (i, j) = (0, 1) := Option.some.inj (hcp.symm.trans hc)
    obtain ⟨rfl, rfl⟩ := Prod.mk.inj he
    rw [← hp]
    exact h01
  have e1 : res[1]? = some b := by
    obtain ⟨i, j, hi, hj, hcp, _, hp⟩ := hslot 1 (by simp)
    have hc : (canonicalPairs 3)[1]? = some (0, 2) := by decide
    have he : (i, j) = (0, 2) := Option.some.inj (hcp.symm.trans hc)
    obtain ⟨rfl, rfl⟩ := Prod.mk.inj he
    rw [← hp]
    exact h02
  have e2 : res[2]? = some c := by
    obtain ⟨i, j, hi, hj, hcp, _, hp⟩ := hslot 2 (by simp)
    have hc : (canonicalPairs 3)[2]? = some (1, 2) := by decide
    have he : (i, j) = (1, 2) := Option.some.inj (hcp.symm.trans hc)
    obtain ⟨rfl, rfl⟩ := Prod.mk.inj he
    rw [← hp]
    exact h12
  match res, hl, e0, e1, e2 with
  | [x, y, z], _, e0, e1, e2 =>
    simp only [List.getElem?_cons_zero, List.getElem?_cons_succ, Option.some.injEq] at e0 e1 e2
    rw [e0, e1, e2]

end Forall

/-! ## Claims on the kernel -/

section KernelClaims

set_option maxRecDepth 20000
set_option exponentiation.threshold 8192

variable {α : Type} [LinearOrderedField α]

theorem constant_sums (c : List α) (a : α) (hc : ∀ e ∈ c, e = a) :
    c.sum = (c.length : α) * a ∧ (c.map fun e => e * e).sum = (c.length : α) * (a * a) := by
  induction c with
  | nil => simp
  | cons e c ih =>
    obtain ⟨h1, h2⟩ := ih (fun x hx => hc x (List.mem_cons_of_mem _ hx))
    have he : e = a := hc e (List.mem_cons_self _ _)
    subst he
    simp only [List.map_cons, List.sum_cons, List.length_cons, h1, h2]
    push_cast
    constructor <;> ring

theorem zip_self_sum (v : List α) :
    ((v.zip v).map fun p => p.1 * p.2).sum = (v.map fun a => a * a).sum := by
  induction v with
  | nil => simp
  | cons a v ih => simp only [List.zip_cons_cons, List.map_cons, List.sum_cons, ih]

/-- The formula on sums of a vector and a scaled copy of it: with a positive term and an exact
square root the quotient is the sign of the scale. -/
theorem finish_of_scaled (sqrt : α → α) (hsqrt : ∀ t : α, 0 ≤ t → sqrt (t * t) = t) (n : Nat)
    (sm : Sums α) (s : α) (hy : sm.sum_y = s * sm.sum_x) (hy2 : sm.sum_y2 = s * s * sm.sum_x2)
    (hxy : sm.sum_xy = s * sm.sum_x2)
    (ht : 0 < (n : α) * sm.sum_x2 - sm.sum_x * sm.sum_x) :
    (0 < s → finish sqrt n sm = 1) ∧ (s < 0 → finish sqrt n sm = -1) := by
  have key : ∀ u : α, 0 < u → (u = s ∨ u = -s) →
      finish sqrt n sm = s / u := by
    intro u hu hus
    unfold finish
    simp only []
    have hty : (n : α) * sm.sum_y2 - sm.sum_y * sm.sum_y
        = u * u * ((n : α) * sm.sum_x2 - sm.sum_x * sm.sum_x) := by
      rw [hy, hy2]
      rcases hus with h | h <;> rw [h] <;> ring
    have htypos : 0 < (n : α) * sm.sum_y2 - sm.sum_y * sm.sum_y := by
      rw [hty]; exact mul_pos (mul_pos hu hu) ht
    rw [if_neg (by rw [not_or]; exact ⟨not_le.mpr ht, not_le.mpr htypos⟩)]
    have hprod : ((n : α) * sm.sum_x2 - sm.sum_x * sm.sum_x)
        * ((n : α) * sm.sum_y2 - sm.sum_y * sm.sum_y)
        = (u * ((n : α) * sm.sum_x2 - sm.sum_x * sm.sum_x))
          * (u * ((n : α) * sm.sum_x2 - sm.sum_x * sm.sum_x)) := by
      rw [hty]; ring
    have hnum : (n : α) * sm.sum_xy - sm.sum_x * sm.sum_y
        = s * ((n : α) * sm.sum_x2 - sm.sum_x * sm.sum_x) := by
      rw [hxy, hy]; ring
    rw [hprod, hsqrt _ (mul_pos hu ht).le, hnum, mul_div_mul_right _ _ ht.ne']
    have hb : -1 ≤ s / u ∧ s / u ≤ 1 := by
      rcases hus with h | h
      · rw [← h, div_self hu.ne']; constructor <;> norm_num
      · have hs : s = -u := by rw [h]; ring
        rw [hs, neg_div, div_self hu.ne']; constructor <;> norm_num
    rw [min_eq_left hb.2, max_eq_left hb.1]
  constructor
  · intro hs
    rw [key s hs (Or.inl rfl), div_self hs.ne']
  · intro hs
    rw [key (-s) (by linarith) (Or.inr rfl), div_neg, div_self hs.ne]

/-- C5, as stated, fails on doubles.  For `v = [1e200, 2e200, 3e200]` the squares overflow to
`inf`, `term_x` is `inf - inf`, a NaN; a NaN passes both `<=` tests and the clamp, so
`pearson(v, v)` is a NaN, which is not in `[-1.0, 1.0]`, and the buffer that
`correlation_coefficients` returns for `[v, v]` holds it. -/
theorem coefficients_nan_on_overflow :
    pearson Double.sqrt
      [Double.ofNat (10 ^ 200), Double.ofNat (2 * 10 ^ 200), Double.ofNat (3 * 10 ^ 200)]
      [Double.ofNat (10 ^ 200), Double.ofNat (2 * 10 ^ 200), Double.ofNat (3 * 10 ^ 200)]
      = some Double.nan ∧
    ¬ ((-1 : Double) ≤ Double.nan ∧ Double.nan ≤ 1) ∧
    correlation_coefficients Double.sqrt
      [[Double.ofNat (10 ^ 200), Double.ofNat (2 * 10 ^ 200), Double.ofNat (3 * 10 ^ 200)],
       [Double.ofNat (10 ^ 200), Double.ofNat (2 * 10 ^ 200), Double.ofNat (3 * 10 ^ 200)]] 1
      = some [Double.nan] := by
  have h : pearson Double.sqrt
      [Double.ofNat (10 ^ 200), Double.ofNat (2 * 10 ^ 200), Double.ofNat (3 * 10 ^ 200)]
      [Double.ofNat (10 ^ 200), Double.ofNat (2 * 10 ^ 200), Double.ofNat (3 * 10 ^ 200)]
      = some Double.nan := by
    rw [pearson_eq _ _ _ (by rfl)]
    decide
  exact ⟨h, by decide, correlation_coefficients_pair Double.sqrt _ _ rfl _ h 1 (by decide)⟩

/-- C5, amended: on doubles every coefficient `pearson` returns on vectors of equal length is a
NaN or lies in `[-1.0, 1.0]`, and so is every element of a buffer returned by
`correlation_coefficients`; in exact arithmetic every coefficient and every element of the
buffer lies in `[-1, 1]`. -/
theorem coefficients_in_range (sqrt : α → α) :
    (∀ x y : Vector Double, x.length = y.length →
      ∃ r, pearson Double.sqrt x y = some r ∧
        (r = Double.nan ∨ ((-1 : Double) ≤ r ∧ r ≤ 1))) ∧
    (∀ (datasets : List (Vector Double)) (num_threads : Int) (res : List Double),
      correlation_coefficients Double.sqrt datasets num_threads = some res →
      ∀ c ∈ res, c = Double.nan ∨ ((-1 : Double) ≤ c ∧ c ≤ 1)) ∧
    (∀ x y : Vector α, x.length = y.length →
      ∃ r, pearson sqrt x y = some r ∧ -1 ≤ r ∧ r ≤ 1) ∧
    (∀ (datasets : List (Vector α)) (num_threads : Int) (res : List α),
      correlation_coefficients sqrt datasets num_threads = some res →
      ∀ c ∈ res, -1 ≤ c ∧ c ≤ 1) := by
  have hzero : (0 : Double) = Double.nan ∨ ((-1 : Double) ≤ 0 ∧ (0 : Double) ≤ 1) :=
    Or.inr (by decide)
  have hd : ∀ (x y : Vector Double) (r : Double), pearson Double.sqrt x y = some r →
      (r = Double.nan ∨ ((-1 : Double) ≤ r ∧ r ≤ 1)) := fun x y r h =>
    pearson_forall Double.sqrt (fun r => r = Double.nan ∨ ((-1 : Double) ≤ r ∧ r ≤ 1)) hzero
      finish_double_range x y r h
  refine ⟨?_, ?_, ?_, ?_⟩
  · intro x y h
    have he := pearson_eq Double.sqrt x y h
    exact ⟨_, he, hd x y _ he⟩
  · intro datasets num_threads res h
    exact correlation_coefficients_forall Double.sqrt _ hzero hd datasets num_threads res h
  · intro x y h
    have he := pearson_eq sqrt x y h
    exact ⟨_, he, pearson_range sqrt x y _ he⟩
  · intro datasets num_threads res h
    exact correlation_coefficients_forall sqrt (fun e => -1 ≤ e ∧ e ≤ 1)
      (by constructor <;> norm_num) (fun x y r hr => pearson_range sqrt x y r hr)
      datasets num_threads res h

/-- Witness of the amended C5: on doubles the coefficient of `[1, 2, 3]` and `[3, 2, 1]`, and
over the reals the coefficient of the same vectors. -/
theorem coefficients_in_range_witness :
    (∃ r, pearson Double.sqrt [Double.ofNat 1, Double.ofNat 2, Double.ofNat 3]
        [Double.ofNat 3, Double.ofNat 2, Double.ofNat 1] = some r ∧
      (r = Double.nan ∨ ((-1 : Double) ≤ r ∧ r ≤ 1))) ∧
    ∃ r, pearson Real.sqrt ([1, 2, 3] : Vector ℝ) [3, 2, 1] = some r ∧ -1 ≤ r ∧ r ≤ 1 :=
  ⟨(coefficients_in_range Real.sqrt).1 _ _ rfl,
    (coefficients_in_range Real.sqrt).2.2.1 [1, 2, 3] [3, 2, 1] rfl⟩

/-- C6, as stated, fails on doubles.  With `c = [0.1, 0.1, 0.1, 0.1, 0.1, 0.1]` and
`y = [1, 2, 3, 4, 5, 7]` the rounded `term_x` is positive and `pearson(c, y)` is
`1.4248235336952133e-08` (`8612529791393490 * 2^-79`), in both argument orders; with
`c = [1e15, 1e15, 1e15]`, `pearson(c, c)` is `1.0`. -/
theorem pearson_constant_rounding :
    (∀ e ∈ List.replicate 6 (Double.ofNat 1 / Double.ofNat 10),
      e = Double.ofNat 1 / Double.ofNat 10) ∧
    pearson Double.sqrt (List.replicate 6 (Double.ofNat 1 / Double.ofNat 10))
      [Double.ofNat 1, Double.ofNat 2, Double.ofNat 3, Double.ofNat 4, Double.ofNat 5,
        Double.ofNat 7] = some (Double.finite false 8612529791393490 (-79)) ∧
    pearson Double.sqrt
      [Double.ofNat 1, Double.ofNat 2, Double.ofNat 3, Double.ofNat 4, Double.ofNat 5,
        Double.ofNat 7]
      (List.replicate 6 (Double.ofNat 1 / Double.ofNat 10))
      = some (Double.finite false 8612529791393490 (-79)) ∧
    Double.finite false 8612529791393490 (-79) ≠ 0 ∧
    pearson Double.sqrt (List.replicate 3 (Double.ofNat (10 ^ 15)))
      (List.replicate 3 (Double.ofNat (10 ^ 15))) = some 1 ∧
    (1 : Double) ≠ 0 := by
  refine ⟨fun e he => (List.mem_replicate.mp he).2, ?_, ?_, by decide, ?_, by decide⟩
  · rw [pearson_eq _ _ _ (by rfl)]
    decide
  · rw [pearson_eq _ _ _ (by rfl)]
    decide
  · rw [pearson_eq _ _ _ (by rfl)]
    decide

/-- C6, amended: in exact arithmetic, for a vector `c` whose elements are all equal and a vector
`y` of the same length, `pearson(c, y)` and `pearson(y, c)` return `0`; on non-empty vectors
the loops return sums with `term_x = 0`, so the test `term_x <= 0` fires.  On doubles
`pearson([5,5,5], [1,2,3])` and `pearson([1,2,3], [5,5,5])` are `0.0`. -/
theorem pearson_constant (sqrt : α → α) (c y : Vector α) (a : α) (hc : ∀ e ∈ c, e = a)
    (hlen : c.length = y.length) :
    pearson sqrt c y = some 0 ∧ pearson sqrt y c = some 0 ∧
    (∃ s, accumulateSums c y c.length = some s ∧
      (c.length : α) * s.sum_x2 - s.sum_x * s.sum_x ≤ 0) ∧
    pearson Double.sqrt [Double.ofNat 5, Double.ofNat 5, Double.ofNat 5]
      [Double.ofNat 1, Double.ofNat 2, Double.ofNat 3] = some 0 ∧
    pearson Double.sqrt [Double.ofNat 1, Double.ofNat 2, Double.ofNat 3]
      [Double.ofNat 5, Double.ofNat 5, Double.ofNat 5] = some 0 := by
  obtain ⟨h1, h2⟩ := constant_sums c a hc
  have hterm : (c.length : α) * (c.map fun e => e * e).sum - c.sum * c.sum = 0 := by
    rw [h1, h2]; ring
  have hd1 : pearson Double.sqrt [Double.ofNat 5, Double.ofNat 5, Double.ofNat 5]
      [Double.ofNat 1, Double.ofNat 2, Double.ofNat 3] = some 0 := by
    rw [pearson_eq _ _ _ (by rfl)]
    decide
  have hd2 : pearson Double.sqrt [Double.ofNat 1, Double.ofNat 2, Double.ofNat 3]
      [Double.ofNat 5, Double.ofNat 5, Double.ofNat 5] = some 0 := by
    rw [pearson_eq _ _ _ (by rfl)]
    decide
  have hsum : ∃ s, accumulateSums c y c.length = some s ∧
      (c.length : α) * s.sum_x2 - s.sum_x * s.sum_x ≤ 0 := by
    refine ⟨_, accumulateSums_eq c y hlen, ?_⟩
    rw [sumsUpTo_full]
    simp only [zip_sum_fst c y hlen, zip_sum_fst_sq c y hlen]
    exact hterm.le
  by_cases hn : c.length = 0
  · rw [pearson_eq sqrt c y hlen, pearson_eq sqrt y c hlen.symm, if_pos hn,
      if_pos (by omega)]
    exact ⟨rfl, rfl, hsum, hd1, hd2⟩
  · refine ⟨?_, ?_, hsum, hd1, hd2⟩
    · rw [pearson_formula sqrt c y hlen hn]
      unfold finish
      simp only []
      rw [zip_sum_fst c y hlen, zip_sum_fst_sq c y hlen, if_pos (Or.inl hterm.le)]
    · rw [pearson_formula sqrt y c hlen.symm (by omega)]
      unfold finish
      simp only []
      rw [zip_sum_snd y c hlen.symm, zip_sum_snd_sq y c hlen.symm, ← hlen,
        if_pos (Or.inr hterm.le)]

/-- Witness of the amended C6: `c = [5, 5, 5]`, `y = [1, 2, 3]` over the reals. -/
theorem pearson_constant_witness :
    pearson Real.sqrt ([5, 5, 5] : Vector ℝ) [1, 2, 3] = some 0 ∧
    pearson Real.sqrt ([1, 2, 3] : Vector ℝ) [5, 5, 5] = some 0 :=
  ⟨(pearson_constant Real.sqrt [5, 5, 5] [1, 2, 3] 5 (by simp) rfl).1,
    (pearson_constant Real.sqrt [5, 5, 5] [1, 2, 3] 5 (by simp) rfl).2.1⟩

/-- C7, as stated, fails on doubles.  For `v = [1e9, 1e9 + 1]`, a vector of two distinct
elements, `2 * sum_x2` and `sum_x * sum_x` round to the same double, `term_x` is `0`, the
degenerate branch is taken and `pearson(v, v)` is `0.0`, not `1.0`. -/
theorem pearson_self_cancellation :
    Double.ofNat 1000000000 ≠ Double.ofNat 1000000001 ∧
    (∃ s, accumulateSums [Double.ofNat 1000000000, Double.ofNat 1000000001]
        [Double.ofNat 1000000000, Double.ofNat 1000000001] 2 = some s ∧
      ((2 : Nat) : Double) * s.sum_x2 - s.sum_x * s.sum_x = 0 ∧
      ((2 : Nat) : Double) * s.sum_x2 - s.sum_x * s.sum_x ≤ 0) ∧
    pearson Double.sqrt [Double.ofNat 1000000000, Double.ofNat 1000000001]
      [Double.ofNat 1000000000, Double.ofNat 1000000001] = some 0 ∧
    (0 : Double) ≠ 1 := by
  refine ⟨by decide, ⟨_, accumulateSums_eq _ _ (by rfl), ?_, ?_⟩, ?_, by decide⟩
  · decide
  · decide
  · rw [pearson_eq _ _ _ (by rfl)]
    decide

/-- C7, amended: in exact arithmetic, for a vector `v` with two distinct elements the loops
return sums with `term_x > 0`, so the non-degenerate branch is taken, and `pearson(v, v)` is
`1`.  On doubles `pearson([1,2,3], [1,2,3])` is `1.0`. -/
theorem pearson_self (v : Vector ℝ) (a b : ℝ) (ha : a ∈ v) (hb : b ∈ v) (hab : a ≠ b) :
    (∃ s, accumulateSums v v v.length = some s ∧
      0 < (v.length : ℝ) * s.sum_x2 - s.sum_x * s.sum_x ∧
      pearson Real.sqrt v v = some 1) ∧
    pearson Double.sqrt [Double.ofNat 1, Double.ofNat 2, Double.ofNat 3]
      [Double.ofNat 1, Double.ofNat 2, Double.ofNat 3] = some 1 := by
  have hn : v.length ≠ 0 := (List.length_pos_of_mem ha).ne'
  have ht := term_pos_of_nonconstant v a b ha hb hab
  refine ⟨⟨_, accumulateSums_eq v v rfl, ?_, ?_⟩, ?_⟩
  · rw [sumsUpTo_full]
    simp only [zip_sum_fst v v rfl, zip_sum_fst_sq v v rfl]
    exact ht
  · rw [pearson_formula Real.sqrt v v rfl hn]
    congr 1
    refine (finish_of_scaled Real.sqrt (fun t h => Real.sqrt_mul_self h) v.length _ 1 ?_ ?_ ?_
      ?_).1 one_pos
    · simp only [zip_sum_fst v v rfl, zip_sum_snd v v rfl, one_mul]
    · simp only [zip_sum_fst_sq v v rfl, zip_sum_snd_sq v v rfl, one_mul]
    · simp only [zip_self_sum, zip_sum_fst_sq v v rfl, one_mul]
    · simp only [zip_sum_fst v v rfl, zip_sum_fst_sq v v rfl]
      exact ht
  · rw [pearson_eq _ _ _ (by rfl)]
    decide

/-- Witness of the amended C7: `v = [1, 2, 3]` over the reals. -/
theorem pearson_self_witness : pearson Real.sqrt ([1, 2, 3] : Vector ℝ) [1, 2, 3] = some 1 := by
  obtain ⟨⟨_, _, _, h⟩, _⟩ := pearson_self [1, 2, 3] 1 2 (by simp) (by simp) (by norm_num)
  exact h

/-- C8, as stated, fails on doubles.  For `v = [1e9, 1e9 + 1]`, `pearson(v, 2 * v)` and
`pearson(v, -1 * v)` are `0.0` (the rounded `term_x` is `0`); for `v = [0.1, 0.2, 0.3]`,
`pearson(v, 3 * v)` is `0.9999999999999989` (`9007199254740982 * 2^-53`), not `1.0`. -/
theorem pearson_scaled_cancellation :
    Double.ofNat 1000000000 ≠ Double.ofNat 1000000001 ∧
    pearson Double.sqrt [Double.ofNat 1000000000, Double.ofNat 1000000001]
      ([Double.ofNat 1000000000, Double.ofNat 1000000001].map fun e => Double.ofNat 2 * e)
      = some 0 ∧
    pearson Double.sqrt [Double.ofNat 1000000000, Double.ofNat 1000000001]
      ([Double.ofNat 1000000000, Double.ofNat 1000000001].map fun e => -Double.ofNat 1 * e)
      = some 0 ∧
    (0 : Double) ≠ 1 ∧ (0 : Double) ≠ -1 ∧
    Double.ofNat 1 / Double.ofNat 10 ≠ Double.ofNat 2 / Double.ofNat 10 ∧
    pearson Double.sqrt
      [Double.ofNat 1 / Double.ofNat 10, Double.ofNat 2 / Double.ofNat 10,
        Double.ofNat 3 / Double.ofNat 10]
      ([Double.ofNat 1 / Double.ofNat 10, Double.ofNat 2 / Double.ofNat 10,
        Double.ofNat 3 / Double.ofNat 10].map fun e => Double.ofNat 3 * e)
      = some (Double.finite false 9007199254740982 (-53)) ∧
    Double.finite false 9007199254740982 (-53) ≠ 1 := by
  refine ⟨by decide, ?_, ?_, by decide, by decide, by decide, ?_, by decide⟩
  · rw [pearson_eq _ _ _ (by rfl)]
    decide
  · rw [pearson_eq _ _ _ (by rfl)]
    decide
  · rw [pearson_eq _ _ _ (by rfl)]
    decide

/-- C8, amended: in exact arithmetic, for a vector `v` with two distinct elements,
`pearson(v, scale * v)` is `1` for `scale > 0` and `-1` for `scale < 0`.  On doubles
`pearson([1,2,3], 2 * [1,2,3])` is `1.0` and `pearson([1,2,3], -3 * [1,2,3])` is `-1.0`. -/
theorem pearson_scaled (v : Vector ℝ) (scale : ℝ) (a b : ℝ) (ha : a ∈ v) (hb : b ∈ v)
    (hab : a ≠ b) :
    (0 < scale → pearson Real.sqrt v (v.map fun e => scale * e) = some 1) ∧
    (scale < 0 → pearson Real.sqrt v (v.map fun e => scale * e) = some (-1)) ∧
    pearson Double.sqrt [Double.ofNat 1, Double.ofNat 2, Double.ofNat 3]
      ([Double.ofNat 1, Double.ofNat 2, Double.ofNat 3].map fun e => Double.ofNat 2 * e)
      = some 1 ∧
    pearson Double.sqrt [Double.ofNat 1, Double.ofNat 2, Double.ofNat 3]
      ([Double.ofNat 1, Double.ofNat 2, Double.ofNat 3].map fun e => -Double.ofNat 3 * e)
      = some (-1) := by
  have hn : v.length ≠ 0 := (List.length_pos_of_mem ha).ne'
  have ht := term_pos_of_nonconstant v a b ha hb hab
  have hl : v.length = (v.map fun e => scale * e).length := by simp
  have hf := finish_of_scaled Real.sqrt (fun t h => Real.sqrt_mul_self h) v.length
    { sum_x := ((v.zip (v.map fun e => scale * e)).map fun p => p.1).sum
      sum_y := ((v.zip (v.map fun e => scale * e)).map fun p => p.2).sum
      sum_x2 := ((v.zip (v.map fun e => scale * e)).map fun p => p.1 * p.1).sum
      sum_y2 := ((v.zip (v.map fun e => scale * e)).map fun p => p.2 * p.2).sum
      sum_xy := ((v.zip (v.map fun e => scale * e)).map fun p => p.1 * p.2).sum } scale
    (by simp only [zip_sum_fst v _ hl, zip_sum_snd v _ hl, scaled_sum])
    (by simp only [zip_sum_fst_sq v _ hl, zip_sum_snd_sq v _ hl, scaled_sq_sum])
    (by simp only [zip_scaled_sum, zip_sum_fst_sq v _ hl])
    (by simp only [zip_sum_fst v _ hl, zip_sum_fst_sq v _ hl]; exact ht)
  refine ⟨?_, ?_, ?_, ?_⟩
  · intro h
    rw [pearson_formula Real.sqrt v _ hl hn]
    exact congrArg some (hf.1 h)
  · intro h
    rw [pearson_formula Real.sqrt v _ hl hn]
    exact congrArg some (hf.2 h)
  · rw [pearson_eq _ _ _ (by rfl)]
    decide
  · rw [pearson_eq _ _ _ (by rfl)]
    decide

/-- Witness of the amended C8: `v = [1, 2, 3]` with `scale = 2` and with `scale = -3`, over the
reals. -/
theorem pearson_scaled_witness :
    pearson Real.sqrt ([1, 2, 3] : Vector ℝ) (([1, 2, 3] : Vector ℝ).map fun e => 2 * e) = some 1 ∧
    pearson Real.sqrt ([1, 2, 3] : Vector ℝ) (([1, 2, 3] : Vector ℝ).map fun e => -3 * e)
      = some (-1) :=
  ⟨(pearson_scaled [1, 2, 3] 2 1 2 (by simp) (by simp) (by norm_num)).1 (by norm_num),
   (pearson_scaled [1, 2, 3] (-3) 1 2 (by simp) (by simp) (by norm_num)).2.1 (by norm_num)⟩

end KernelClaims

/-! ## The concrete scenario of the specification -/

theorem sqrt_144 : Real.sqrt 144 = 12 := by
  rw [show (144 : ℝ) = 12 * 12 by norm_num]
  exact Real.sqrt_mul_self (by norm_num)

theorem sqrt_36 : Real.sqrt 36 = 6 := by
  rw [show (36 : ℝ) = 6 * 6 by norm_num]
  exact Real.sqrt_mul_self (by norm_num)

theorem pearson_d0_d1 :
    pearson Real.sqrt ([1, 2, 3] : Vector ℝ) [2, 4, 6] = some 1 := by
  rw [pearson_formula Real.sqrt [1, 2, 3] [2, 4, 6] rfl (by decide)]
  simp only [finish, List.zip_cons_cons, List.zip_nil_right, List.map_cons, List.map_nil,
    List.sum_cons, List.sum_nil, List.length_cons, List.length_nil]
  norm_num [sqrt_144]

theorem pearson_d0_d2 :
    pearson Real.sqrt ([1, 2, 3] : Vector ℝ) [3, 2, 1] = some (-1) := by
  rw [pearson_formula Real.sqrt [1, 2, 3] [3, 2, 1] rfl (by decide)]
  simp only [finish, List.zip_cons_cons, List.zip_nil_right, List.map_cons, List.map_nil,
    List.sum_cons, List.sum_nil, List.length_cons, List.length_nil]
  norm_num [sqrt_36]

theorem pearson_d1_d2 :
    pearson Real.sqrt ([2, 4, 6] : Vector ℝ) [3, 2, 1] = some (-1) := by
  rw [pearson_formula Real.sqrt [2, 4, 6] [3, 2, 1] rfl (by decide)]
  simp only [finish, List.zip_cons_cons, List.zip_nil_right, List.map_cons, List.map_nil,
    List.sum_cons, List.sum_nil, List.length_cons, List.length_nil]
  norm_num [sqrt_144]

section Scenario

set_option maxRecDepth 20000
set_option exponentiation.threshold 8192

/-- C10: for `datasets = [[1,2,3], [2,4,6], [3,2,1]]` and every thread count `≥ 1`,
`correlation_coefficients` returns `[1.0, -1.0, -1.0]`: `pearson(d0,d1) = 1.0`,
`pearson(d0,d2) = -1.0`, `pearson(d1,d2) = -1.0`; in exact arithmetic and on doubles. -/
theorem scenario_three_vectors (num_threads : Int) (hT : 1 ≤ num_threads) :
    correlation_coefficients Real.sqrt ([[1, 2, 3], [2, 4, 6], [3, 2, 1]] : List (Vector ℝ))
      num_threads = some [1, -1, -1] ∧
    pearson Real.sqrt ([1, 2, 3] : Vector ℝ) [2, 4, 6] = some 1 ∧
    pearson Real.sqrt ([1, 2, 3] : Vector ℝ) [3, 2, 1] = some (-1) ∧
    pearson Real.sqrt ([2, 4, 6] : Vector ℝ) [3, 2, 1] = some (-1) ∧
    correlation_coefficients Double.sqrt
      [[Double.ofNat 1, Double.ofNat 2, Double.ofNat 3],
       [Double.ofNat 2, Double.ofNat 4, Double.ofNat 6],
       [Double.ofNat 3, Double.ofNat 2, Double.ofNat 1]] num_threads = some [1, -1, -1] := by
  have h01 : pearson Double.sqrt [Double.ofNat 1, Double.ofNat 2, Double.ofNat 3]
      [Double.ofNat 2, Double.ofNat 4, Double.ofNat 6] = some 1 := by
    rw [pearson_eq _ _ _ (by rfl)]
    decide
  have h02 : pearson Double.sqrt [Double.ofNat 1, Double.ofNat 2, Double.ofNat 3]
      [Double.ofNat 3, Double.ofNat 2, Double.ofNat 1] = some (-1) := by
    rw [pearson_eq _ _ _ (by rfl)]
    decide
  have h12 : pearson Double.sqrt [Double.ofNat 2, Double.ofNat 4, Double.ofNat 6]
      [Double.ofNat 3, Double.ofNat 2, Double.ofNat 1] = some (-1) := by
    rw [pearson_eq _ _ _ (by rfl)]
    decide
  exact ⟨correlation_coefficients_triple Real.sqrt [1, 2, 3] [2, 4, 6] [3, 2, 1] (by simp)
      (by simp) 1 (-1) (-1) pearson_d0_d1 pearson_d0_d2 pearson_d1_d2 num_threads hT,
    pearson_d0_d1, pearson_d0_d2, pearson_d1_d2,
    correlation_coefficients_triple Double.sqrt _ _ _ (by simp) (by simp) 1 (-1) (-1)
      h01 h02 h12 num_threads hT⟩

/-- Witness of C10 with four threads (more threads than pairs). -/
theorem scenario_three_vectors_witness :
    correlation_coefficients Real.sqrt ([[1, 2, 3], [2, 4, 6], [3, 2, 1]] : List (Vector ℝ)) 4
      = some [1, -1, -1] :=
  (scenario_three_vectors 4 (by decide)).1

end Scenario

/-! ## The walk of the decode: fuel and bounds -/

/-- More evaluations of the loop condition do not change a walk that has left the loop. -/
theorem decodeWalk_fuel_succ (N : Int) :
    ∀ (fuel : Nat) (i k_temp : Int) (r : Int × Int), decodeWalk N fuel i k_temp = some r →
      decodeWalk N (fuel + 1) i k_temp = some r := by
  intro fuel
  induction fuel with
  | zero => intro i k_temp r h; simp [decodeWalk] at h
  | succ fuel ih =>
    intro i k_temp r h
    rw [decodeWalk] at h ⊢
    split
    · rename_i hc
      rw [if_pos hc] at h
      exact ih _ _ r h
    · rename_i hc
      rw [if_neg hc] at h
      exact h

theorem decodeWalk_fuel_le (N : Int) (i k_temp : Int) (r : Int × Int) (fuel : Nat)
    (h : decodeWalk N fuel i k_temp = some r) :
    ∀ fuel2 : Nat, fuel ≤ fuel2 → decodeWalk N fuel2 i k_temp = some r := by
  intro fuel2 hle
  induction fuel2 with
  | zero =>
    have : fuel = 0 := by omega
    subst this; exact h
  | succ m ih =>
    rcases Nat.lt_or_ge fuel (m + 1) with hlt | hge
    · exact decodeWalk_fuel_succ N m i k_temp r (ih (by omega))
    · have : fuel = m + 1 := by omega
      subst this; exact h

/-- C11: for `N ≥ 2` and `0 ≤ k < N*(N-1)/2` the walk of `pearson_worker` leaves its loop after
at most `N - 2` row subtractions (`N - 1` evaluations of the condition are enough, and the final
`i` counts the rows subtracted: `k = k_temp + Σ_{r<i} (N-1-r)`); the indices satisfy
`0 ≤ i ≤ N - 2` and `i < j = i + 1 + k_temp ≤ N - 1`, so `datasets[i]` and `datasets[j]` are
reads inside a collection of `N` vectors. -/
theorem decode_walk_in_bounds (N k : Int) (hN : 2 ≤ N) (hk0 : 0 ≤ k)
    (hk : k < N * (N - 1) / 2) :
    ∃ i k_temp : Int,
      (∀ fuel : Nat, N - 1 ≤ (fuel : Int) → decodeWalk N fuel 0 k = some (i, k_temp)) ∧
      2 * k = 2 * k_temp + rowStart2 N i ∧
      0 ≤ i ∧ i ≤ N - 2 ∧ 0 ≤ k_temp ∧ i < i + 1 + k_temp ∧ i + 1 + k_temp ≤ N - 1 ∧
      decode N k = some (i, i + 1 + k_temp) ∧
      ∀ (β : Type) (datasets : List β), (datasets.length : Int) = N →
        ∃ vi vj, readAt datasets i = some vi ∧ readAt datasets (i + 1 + k_temp) = some vj := by
  have hev : Even (N * (N - 1)) := by
    have h := Int.even_mul_succ_self (N - 1)
    rw [sub_add_cancel, mul_comm] at h
    exact h
  have h2 : 2 * (N * (N - 1) / 2) = N * (N - 1) := Int.two_mul_ediv_two_of_even hev
  have hlt2 : 2 * k < (N - 1 - 0) * (N - 0) := by
    have : (N - 1 - 0) * (N - 0) = N * (N - 1) := by ring
    omega
  obtain ⟨i, kt, hw, h1, h3, h4, h5, h6⟩ :=
    decodeWalk_spec N (N - 1).toNat 0 k (by omega) (by omega) hk0 hlt2
  have hz : rowStart2 N 0 = 0 := by unfold rowStart2; ring
  rw [hz] at h6
  refine ⟨i, kt, ?_, by omega, h1, h3, h4, by omega, by omega, ?_, ?_⟩
  · intro fuel hf
    exact decodeWalk_fuel_le N 0 k (i, kt) _ hw fuel (by omega)
  · unfold decode
    rw [decodeWalk_fuel_le N 0 k (i, kt) _ hw N.toNat (by omega)]
    rfl
  · intro β datasets hlen
    have hi : i.toNat < datasets.length := by omega
    have hj : (i + 1 + kt).toNat < datasets.length := by omega
    refine ⟨datasets[i.toNat], datasets[(i + 1 + kt).toNat], ?_, ?_⟩
    · have e := readAt_eq datasets i.toNat hi
      rw [show ((i.toNat : Nat) : Int) = i by omega] at e
      exact e
    · have e := readAt_eq datasets (i + 1 + kt).toNat hj
      rw [show (((i + 1 + kt).toNat : Nat) : Int) = i + 1 + kt by omega] at e
      exact e

/-- Witness of C11 at `N = 4`, `k = 5` (the last pair): two subtractions, `i = 2`, `j = 3`. -/
theorem decode_walk_in_bounds_witness :
    decodeWalk 4 3 0 5 = some (2, 0) ∧ decode 4 5 = some (2, 3) ∧
    ∃ i k_temp : Int, decode 4 5 = some (i, i + 1 + k_temp) ∧ i ≤ 4 - 2 ∧
      i + 1 + k_temp ≤ 4 - 1 := by
  obtain ⟨i, kt, _, _, _, h1, _, _, h2, h3, _⟩ :=
    decode_walk_in_bounds 4 5 (by decide) (by decide) (by decide)
  exact ⟨by decide, by decide, i, kt, h3, h1, h2⟩

/-! ## The pair count and the thread count in `int` arithmetic -/

section Counts

variable {α : Type} [Zero α] [One α] [Add α] [Sub α] [Mul α] [Div α] [Neg α] [NatCast α]
  [LE α] [DecidableRel (fun a b : α => a ≤ b)] [Min α] [Max α]

/-- The run of `correlation_coefficients` in terms of `total_tasks` and `actual_threads`. -/
theorem correlation_coefficients_run_eq (sqrt : α → α) (datasets : List (Vector α))
    (num_threads : Int) :
    correlation_coefficients_run sqrt datasets num_threads =
      if toInt32 datasets.length ≤ 1 then some { spawned := [], results := [] }
      else if total_tasks (toInt32 datasets.length) < 0 then none
      else if actual_threads num_threads (total_tasks (toInt32 datasets.length)) ≤ 0 then none
      else
        (runWorkers sqrt
            (threadData datasets (total_tasks (toInt32 datasets.length))
              (actual_threads num_threads (total_tasks (toInt32 datasets.length))))
            (List.replicate (total_tasks (toInt32 datasets.length)).toNat 0)).map
          fun r =>
            { spawned := threadData datasets (total_tasks (toInt32 datasets.length))
                (actual_threads num_threads (total_tasks (toInt32 datasets.length)))
              results := r } := by
  simp only [correlation_coefficients_run, total_tasks, actual_threads]

theorem total_tasks_pos (N : Int) (h0 : 2 ≤ N) (h1 : N ≤ 46341) :
    total_tasks N = N * (N - 1) / 2 ∧ 1 ≤ total_tasks N := by
  have h := total_tasks_small N (by omega) h1
  have hp : (2 : Int) * 1 ≤ N * (N - 1) := by nlinarith
  unfold total_tasks
  rw [h]
  exact ⟨rfl, by omega⟩

/-- C19: the 32-bit computation `total_tasks = N * (N - 1) / 2` gives the mathematical value
for `0 ≤ N ≤ 46341`; at `N = 46342` the product exceeds `2^31 - 1` and the computed value
differs, so `46341` is the largest bound; the computed value is the length of a returned
buffer. -/
theorem total_tasks_int_range :
    (∀ N : Int, 0 ≤ N → N ≤ 46341 → total_tasks N = N * (N - 1) / 2) ∧
    (2147483647 : Int) < 46342 * (46342 - 1) ∧
    total_tasks 46342 = -1073716337 ∧
    total_tasks 46342 ≠ 46342 * (46342 - 1) / 2 ∧
    (∀ B : Int, (∀ N : Int, 0 ≤ N → N ≤ B → total_tasks N = N * (N - 1) / 2) → B ≤ 46341) ∧
    (∀ (sqrt : α → α) (datasets : List (Vector α)) (num_threads : Int) (res : List α),
      correlation_coefficients sqrt datasets num_threads = some res →
      ¬ toInt32 datasets.length ≤ 1 →
      res.length = (total_tasks (toInt32 datasets.length)).toNat) := by
  have h46342 : total_tasks 46342 = -1073716337 := by decide
  refine ⟨fun N h0 h1 => total_tasks_small N h0 h1, by decide, h46342, by rw [h46342]; decide,
    ?_, ?_⟩
  · intro B hB
    by_contra hcon
    have h := hB 46342 (by decide) (by omega)
    rw [h46342] at h
    revert h
    decide
  · intro sqrt datasets num_threads res h hN
    exact correlation_coefficients_length sqrt datasets num_threads res h hN

/-- Witness of C19 at `N = 46341` and at `N = 3`. -/
theorem total_tasks_int_range_witness :
    total_tasks 46341 = 1073720970 ∧ total_tasks 3 = 3 := by
  have h := (@total_tasks_int_range ℚ _ _ _ _ _ _ _ _ _ _ _ _).1
  exact ⟨(h 46341 (by decide) (by decide)).trans (by decide),
    (h 3 (by decide) (by decide)).trans (by decide)⟩

/-- For an `int` value `N ≥ 2` the computed `total_tasks` is never `0`: the product
`N * (N - 1)` is even and is not a multiple of `2^32`, since one factor is odd and the other
lies in `[1, 2^31)`. -/
theorem total_tasks_ne_zero (N : Int) (h2 : 2 ≤ N) (hmax : N ≤ 2147483647) :
    total_tasks N ≠ 0 := by
  intro h0
  unfold total_tasks at h0
  have hpar : (N * (N - 1)) % 2 = 0 := by
    have h := Int.even_mul_succ_self (N - 1)
    rw [sub_add_cancel, mul_comm] at h
    exact Int.even_iff.mp h
  have hsmall : -1 ≤ toInt32 (N * (N - 1)) ∧ toInt32 (N * (N - 1)) ≤ 1 := by
    generalize toInt32 (N * (N - 1)) = t at h0
    by_cases ht : 0 ≤ t
    · rw [Int.tdiv_eq_ediv ht (by decide)] at h0
      omega
    · have hneg : (-t).tdiv 2 = 0 := by rw [Int.neg_tdiv, h0]; rfl
      rw [Int.tdiv_eq_ediv (by omega) (by decide)] at hneg
      omega
  have hmod : (N * (N - 1)) % 4294967296 = 0 := by
    unfold toInt32 at hsmall
    omega
  obtain ⟨n, rfl⟩ := Int.eq_ofNat_of_zero_le (by omega : 0 ≤ N)
  obtain ⟨m, rfl⟩ : ∃ m, n = m + 1 := ⟨n - 1, by omega⟩
  have hdvd : (4294967296 : Nat) ∣ (m + 1) * m := by
    have h1 : (4294967296 : Int) ∣ ((m + 1 : Nat) : Int) * (((m + 1 : Nat) : Int) - 1) :=
      Int.dvd_of_emod_eq_zero hmod
    have h2 : ((m + 1 : Nat) : Int) * (((m + 1 : Nat) : Int) - 1)
        = (((m + 1) * m : Nat) : Int) := by
      push_cast
      ring
    rw [h2] at h1
    exact Int.natCast_dvd_natCast.mp h1
  have hpow : (2 : Nat) ^ 32 = 4294967296 := by norm_num
  rcases Nat.even_or_odd m with he | ho
  · have hodd : Odd (m + 1) := he.add_one
    have hc : Nat.Coprime (2 ^ 32) (m + 1) :=
      Nat.Coprime.pow_left 32 (Nat.coprime_two_left.mpr hodd)
    rw [hpow] at hc
    have hd := hc.dvd_of_dvd_mul_left hdvd
    have := Nat.le_of_dvd (by omega) hd
    omega
  · have hc : Nat.Coprime (2 ^ 32) m := Nat.Coprime.pow_left 32 (Nat.coprime_two_left.mpr ho)
    rw [hpow] at hc
    have hd := hc.dvd_of_dvd_mul_right hdvd
    have := Nat.le_of_dvd (by omega) hd
    omega

/-- The value of an `int` lies in the 32-bit range. -/
theorem toInt32_range (x : Int) : -2147483648 ≤ toInt32 x ∧ toInt32 x ≤ 2147483647 := by
  unfold toInt32
  omega

/-- C12: for every `int` value `N ≥ 2` of `datasets.size()` and every `thread_count ≥ 1`,
whenever line 46 is reached, that is, whenever the allocation `result(total_tasks)` of line 44
has a non-negative size, `actual_threads = min(thread_count, total_tasks)` satisfies
`1 ≤ actual_threads ≤ total_tasks`: the division and the modulo are not by zero, the scheduling
loop creates `actual_threads` workers, no more than there are pair indices, and every chunk
holds at least one index.  A call that returns has reached line 46 with these workers; a
negative `total_tasks` stops the call at line 44; for `N ≤ 46341` the allocation has the size
`N*(N-1)/2 ≥ 1`. -/
theorem actual_threads_bounds (sqrt : α → α) (datasets : List (Vector α)) (num_threads : Int)
    (hN : 2 ≤ toInt32 datasets.length) (hT : 1 ≤ num_threads) :
    (0 ≤ total_tasks (toInt32 datasets.length) →
      1 ≤ actual_threads num_threads (total_tasks (toInt32 datasets.length)) ∧
      actual_threads num_threads (total_tasks (toInt32 datasets.length))
        ≤ total_tasks (toInt32 datasets.length) ∧
      actual_threads num_threads (total_tasks (toInt32 datasets.length)) ≠ 0 ∧
      ((threadData datasets (total_tasks (toInt32 datasets.length))
          (actual_threads num_threads (total_tasks (toInt32 datasets.length)))).length : Int)
        = actual_threads num_threads (total_tasks (toInt32 datasets.length)) ∧
      (∀ d ∈ threadData datasets (total_tasks (toInt32 datasets.length))
          (actual_threads num_threads (total_tasks (toInt32 datasets.length))),
        1 ≤ d.output_end_index - d.output_start_index)) ∧
    (∀ out, correlation_coefficients_run sqrt datasets num_threads = some out →
      0 ≤ total_tasks (toInt32 datasets.length) ∧
      out.spawned = threadData datasets (total_tasks (toInt32 datasets.length))
        (actual_threads num_threads (total_tasks (toInt32 datasets.length)))) ∧
    (total_tasks (toInt32 datasets.length) < 0 →
      correlation_coefficients_run sqrt datasets num_threads = none) ∧
    (datasets.length ≤ 46341 →
      total_tasks (toInt32 datasets.length)
        = (datasets.length : Int) * (datasets.length - 1) / 2 ∧
      1 ≤ total_tasks (toInt32 datasets.length)) := by
  have hne := total_tasks_ne_zero (toInt32 datasets.length) hN (toInt32_range _).2
  refine ⟨?_, ?_, ?_, ?_⟩
  · intro hpos0
    generalize total_tasks (toInt32 (datasets.length : Int)) = total at hne hpos0 ⊢
    have hpos : 1 ≤ total := by omega
    have heff1 : 1 ≤ actual_threads num_threads total := by unfold actual_threads; omega
    have heff2 : actual_threads num_threads total ≤ total := by unfold actual_threads; omega
    obtain ⟨hsum, hr0, hr1, hc0⟩ :=
      tdiv_tmod_facts total (actual_threads num_threads total) (by omega) heff1
    have hc1 : 1 ≤ total.tdiv (actual_threads num_threads total) := by
      by_contra hcon
      have hc : total.tdiv (actual_threads num_threads total) = 0 := by omega
      rw [hc] at hsum
      simp only [mul_zero, zero_add] at hsum
      omega
    refine ⟨heff1, heff2, by omega, ?_, ?_⟩
    · simp only [threadData, scheduleLoop_length]
      omega
    · intro d hd
      obtain ⟨t, ht⟩ := List.getElem?_of_mem hd
      obtain ⟨_, _, e2, e3, _⟩ :=
        threadData_getElem? datasets total (actual_threads num_threads total) (by omega) heff1
          t d ht
      rw [e2, e3, chunkStart_step]
      clear hne hN hpos0 hsum
      split <;> omega
  · intro out hout
    rw [correlation_coefficients_run_eq, if_neg (by omega)] at hout
    by_cases hneg : total_tasks (toInt32 datasets.length) < 0
    · rw [if_pos hneg] at hout
      exact absurd hout (by simp)
    · rw [if_neg hneg] at hout
      refine ⟨by omega, ?_⟩
      split at hout
      · exact absurd hout (by simp)
      · simp only [Option.map_eq_some'] at hout
        obtain ⟨r, _, hr⟩ := hout
        rw [← hr]
  · intro hneg
    rw [correlation_coefficients_run_eq, if_neg (by omega), if_pos hneg]
  · intro hmax
    have hN32 : toInt32 (datasets.length : Int) = datasets.length :=
      toInt32_small _ (by omega) (by omega)
    rw [hN32] at hN ⊢
    exact total_tasks_pos (datasets.length : Int) hN (by omega)

/-- Witness of C12: three vectors and eight threads give three workers; `65537` vectors, whose
pair count does not fit an `int`, and eight threads give eight workers for the `32768`
indices of the computed `total_tasks`. -/
theorem actual_threads_bounds_witness :
    (actual_threads 8
        (total_tasks (toInt32 ([[1, 2], [3, 4], [5, 6]] : List (Vector ℝ)).length)) = 3 ∧
      1 ≤ actual_threads 8
        (total_tasks (toInt32 ([[1, 2], [3, 4], [5, 6]] : List (Vector ℝ)).length))) ∧
    (total_tasks (toInt32 (List.replicate 65537 ([] : Vector ℝ)).length) = 32768 ∧
      1 ≤ actual_threads 8
        (total_tasks (toInt32 (List.replicate 65537 ([] : Vector ℝ)).length))) := by
  have h := (actual_threads_bounds Real.sqrt ([[1, 2], [3, 4], [5, 6]] : List (Vector ℝ)) 8
    (by decide) (by decide)).1 (by decide)
  have hlen : toInt32 (List.replicate 65537 ([] : Vector ℝ)).length = 65537 := by
    rw [List.length_replicate]
    decide
  have htot : total_tasks (toInt32 (List.replicate 65537 ([] : Vector ℝ)).length) = 32768 := by
    rw [hlen]
    decide
  have h2 := (actual_threads_bounds Real.sqrt (List.replicate 65537 ([] : Vector ℝ)) 8
    (by rw [hlen]; decide) (by decide)).1 (by rw [htot]; decide)
  exact ⟨⟨by decide, h.1⟩, htot, h2.1⟩

end Counts

/-! ## The slots a worker writes -/

section Frame

variable {α : Type} [Zero α] [One α] [Add α] [Sub α] [Mul α] [Div α] [Neg α] [NatCast α]
  [LE α] [DecidableRel (fun a b : α => a ≤ b)] [Min α] [Max α]

theorem writeAt_some {β : Type} (v v2 : List β) (k : Int) (c : β)
    (h : writeAt v k c = some v2) :
    0 ≤ k ∧ k < (v.length : Int) ∧ v2.length = v.length ∧
      ∀ m : Nat, v2[m]? = if (m : Int) = k then some c else v[m]? := by
  have hb : 0 ≤ k ∧ k < (v.length : Int) := by
    unfold writeAt at h
    split at h
    · assumption
    · simp at h
  obtain ⟨v3, h3, hl, hg⟩ := writeAt_getElem? v k c hb.1 hb.2
  rw [h] at h3
  simp only [Option.some.injEq] at h3
  subst h3
  exact ⟨hb.1, hb.2, hl, hg⟩

/-- A body of the worker loop that returns has written the coefficient of `k` to slot `k`,
which lies in the buffer, and nothing else. -/
theorem workerBody_some (sqrt : α → α) (data : ThreadData α) (k : Int) (buf buf2 : List α)
    (hview : data.results_out = data.output_start_index)
    (h : workerBody sqrt data k buf = some buf2) :
    ∃ c, pairCoefficient sqrt data.datasets k = some c ∧ 0 ≤ k ∧ k < (buf.length : Int) ∧
      buf2.length = buf.length ∧
      ∀ m : Nat, buf2[m]? = if (m : Int) = k then some c else buf[m]? := by
  rw [workerBody_eq, hview] at h
  cases hc : pairCoefficient sqrt data.datasets k with
  | none => rw [hc] at h; simp at h
  | some c =>
    rw [hc] at h
    simp only [Option.some_bind, add_sub_cancel] at h
    obtain ⟨h0, h1, hl, hg⟩ := writeAt_some buf buf2 k c h
    exact ⟨c, rfl, h0, h1, hl, hg⟩

/-- A loop of a worker that returns has written to the slots `k … k + n - 1`, all inside the
buffer, the coefficients of these indices, and has left the other slots as they were. -/
theorem workerLoop_some (sqrt : α → α) (data : ThreadData α)
    (hview : data.results_out = data.output_start_index) :
    ∀ (n : Nat) (k : Int) (buf buf2 : List α), workerLoop sqrt data n k buf = some buf2 →
      buf2.length = buf.length ∧
      (∀ m : Int, k ≤ m → m < k + n → 0 ≤ m ∧ m < (buf.length : Int) ∧
        (∃ c, pairCoefficient sqrt data.datasets m = some c) ∧
        buf2[m.toNat]? = pairCoefficient sqrt data.datasets m) ∧
      (∀ j : Nat, ¬ (k ≤ (j : Int) ∧ (j : Int) < k + n) → buf2[j]? = buf[j]?) := by
  intro n
  induction n with
  | zero =>
    intro k buf buf2 h
    simp only [workerLoop, Option.some.injEq] at h
    subst h
    exact ⟨rfl, fun m h1 h2 => by omega, fun _ _ => rfl⟩
  | succ n ih =>
    intro k buf buf2 h
    simp only [workerLoop, Option.bind_eq_bind] at h
    cases hw : workerBody sqrt data k buf with
    | none => rw [hw] at h; simp at h
    | some b =>
      rw [hw] at h
      simp only [Option.some_bind] at h
      obtain ⟨c, hc, h0, h1, hbl, hbg⟩ := workerBody_some sqrt data k buf b hview hw
      obtain ⟨hl, hin, hout⟩ := ih (k + 1) b buf2 h
      refine ⟨by omega, ?_, ?_⟩
      · intro m hm1 hm2
        by_cases hmk : m = k
        · subst hmk
          refine ⟨h0, h1, ⟨c, hc⟩, ?_⟩
          rw [hout m.toNat (by omega), hbg m.toNat, if_pos (by omega), hc]
        · obtain ⟨i1, i2, i3, i4⟩ := hin m (by omega) (by push_cast at hm2; omega)
          exact ⟨i1, by omega, i3, i4⟩
      · intro j hj
        rw [hout j (by push_cast at hj; omega), hbg j, if_neg (by push_cast at hj; omega)]

/-- A loop of a worker returns when every index of its range has a coefficient and a slot. -/
theorem workerLoop_returns (sqrt : α → α) (data : ThreadData α)
    (hview : data.results_out = data.output_start_index) (n : Nat) (k : Int) (buf : List α)
    (h : ∀ m : Int, k ≤ m → m < k + n → 0 ≤ m ∧ m < (buf.length : Int) ∧
      ∃ c, pairCoefficient sqrt data.datasets m = some c) :
    ∃ buf2, workerLoop sqrt data n k buf = some buf2 := by
  rw [workerLoop_wholeRange sqrt data 0 hview]
  cases n with
  | zero => exact ⟨buf, rfl⟩
  | succ n =>
    have hk := h k (le_refl _) (by push_cast; omega)
    have hlast := h (k + n) (by omega) (by push_cast; omega)
    obtain ⟨buf2, h2, _⟩ := workerLoop_wholeRange_spec sqrt data.datasets 0 (n + 1) k buf hk.1
      (by push_cast; omega) (fun m h1 h2 => (h m h1 h2).2.2)
    exact ⟨buf2, h2⟩

/-- C13: as a step on the result buffer, a worker with range `[start, end)` whose view begins
at slot `start` writes exactly the slots `start … end - 1` of the buffer: a step that returns
keeps the length of the buffer, has put into every slot `k` of the range (slot `k - start` of
the view) the coefficient of index `k`, and has left every slot outside the range unchanged;
and the step returns whenever every index of the range has a coefficient and a slot.  The
dataset collection is an argument of the step and not part of what it returns. -/
theorem pearson_worker_frame (sqrt : α → α) (data : ThreadData α) (buf : List α)
    (hview : data.results_out = data.output_start_index) :
    (∀ buf2, pearson_worker sqrt data buf = some buf2 →
      buf2.length = buf.length ∧
      (∀ k : Int, data.output_start_index ≤ k → k < data.output_end_index →
        0 ≤ k ∧ k < (buf.length : Int) ∧
        data.results_out + (k - data.output_start_index) = k ∧
        (∃ c, pairCoefficient sqrt data.datasets k = some c) ∧
        buf2[k.toNat]? = pairCoefficient sqrt data.datasets k) ∧
      (∀ j : Nat, ¬ (data.output_start_index ≤ (j : Int) ∧ (j : Int) < data.output_end_index) →
        buf2[j]? = buf[j]?)) ∧
    ((∀ k : Int, data.output_start_index ≤ k → k < data.output_end_index →
        0 ≤ k ∧ k < (buf.length : Int) ∧ ∃ c, pairCoefficient sqrt data.datasets k = some c) →
      ∃ buf2, pearson_worker sqrt data buf = some buf2) := by
  constructor
  · intro buf2 h
    unfold pearson_worker at h
    obtain ⟨hl, hin, hout⟩ := workerLoop_some sqrt data hview _ _ buf buf2 h
    refine ⟨hl, ?_, ?_⟩
    · intro k h1 h2
      obtain ⟨i1, i2, i3, i4⟩ := hin k h1 (by omega)
      exact ⟨i1, i2, by rw [hview]; ring, i3, i4⟩
    · intro j hj
      exact hout j (by omega)
  · intro h
    unfold pearson_worker
    exact workerLoop_returns sqrt data hview _ _ buf (fun m h1 h2 => h m h1 (by omega))

/-- Witness of C13: the worker of the range `[1, 3)` on three vectors and a buffer of three
zeros returns, and leaves slot `0` as it was. -/
theorem pearson_worker_frame_witness :
    ∃ buf2, pearson_worker Real.sqrt
        { datasets := ([[1, 2, 3], [2, 4, 6], [3, 2, 1]] : List (Vector ℝ))
          output_start_index := 1, output_end_index := 3, results_out := 1 } [0, 0, 0]
        = some buf2 ∧ buf2[0]? = some 0 ∧ buf2.length = 3 := by
  have hw := pearson_worker_frame Real.sqrt
    { datasets := ([[1, 2, 3], [2, 4, 6], [3, 2, 1]] : List (Vector ℝ))
      output_start_index := 1, output_end_index := 3, results_out := 1 } [0, 0, 0] rfl
  obtain ⟨buf2, h2⟩ := hw.2 (by
    intro k h1 h2
    simp only at h1 h2
    refine ⟨by omega, by simp only [List.length_cons, List.length_nil]; omega, ?_⟩
    have hk : k = 1 ∨ k = 2 := by omega
    rcases hk with rfl | rfl
    · rw [pairCoefficient_eq Real.sqrt _ 1 0 2 (by decide) (by decide) (by decide)]
      exact ⟨_, pearson_eq Real.sqrt _ _ rfl⟩
    · rw [pairCoefficient_eq Real.sqrt _ 2 1 2 (by decide) (by decide) (by decide)]
      exact ⟨_, pearson_eq Real.sqrt _ _ rfl⟩)
  obtain ⟨hl, _, hout⟩ := hw.1 buf2 h2
  exact ⟨buf2, h2, by rw [hout 0 (by simp)]; rfl, hl⟩

end Frame

/-! ## The order of the workers -/

section Order

variable {α : Type} [Zero α] [One α] [Add α] [Sub α] [Mul α] [Div α] [Neg α] [NatCast α]
  [LE α] [DecidableRel (fun a b : α => a ≤ b)] [Min α] [Max α]

/-- The step of a worker returns exactly when every index of its range has a coefficient and
a slot; this depends on the buffer only through its length. -/
theorem pearson_worker_isSome_iff (sqrt : α → α) (data : ThreadData α) (buf : List α)
    (hview : data.results_out = data.output_start_index) :
    (∃ buf2, pearson_worker sqrt data buf = some buf2) ↔
      ∀ k : Int, data.output_start_index ≤ k → k < data.output_end_index →
        0 ≤ k ∧ k < (buf.length : Int) ∧ ∃ c, pairCoefficient sqrt data.datasets k = some c := by
  constructor
  · rintro ⟨buf2, h⟩ k h1 h2
    unfold pearson_worker at h
    obtain ⟨_, hin, _⟩ := workerLoop_some sqrt data hview _ _ buf buf2 h
    obtain ⟨i1, i2, i3, _⟩ := hin k h1 (by omega)
    exact ⟨i1, i2, i3⟩
  · intro h
    unfold pearson_worker
    exact workerLoop_returns sqrt data hview _ _ buf (fun m h1 h2 => h m h1 (by omega))

theorem pearson_worker_none (sqrt : α → α) (data : ThreadData α) (buf buf3 : List α)
    (hview : data.results_out = data.output_start_index) (hlen : buf3.length = buf.length)
    (h : pearson_worker sqrt data buf = none) : pearson_worker sqrt data buf3 = none := by
  cases h3 : pearson_worker sqrt data buf3 with
  | none => rfl
  | some b =>
    have hs := (pearson_worker_isSome_iff sqrt data buf3 hview).mp ⟨b, h3⟩
    rw [hlen] at hs
    obtain ⟨b2, hb2⟩ := (pearson_worker_isSome_iff sqrt data buf hview).mpr hs
    rw [h] at hb2
    simp at hb2

/-- The slots of the buffer after the step of a worker that returns. -/
theorem pearson_worker_getElem? (sqrt : α → α) (data : ThreadData α) (buf buf2 : List α)
    (hview : data.results_out = data.output_start_index)
    (h : pearson_worker sqrt data buf = some buf2) (j : Nat) :
    buf2[j]? =
      if data.output_start_index ≤ (j : Int) ∧ (j : Int) < data.output_end_index
      then pairCoefficient sqrt data.datasets j else buf[j]? := by
  unfold pearson_worker at h
  obtain ⟨_, hin, hout⟩ := workerLoop_some sqrt data hview _ _ buf buf2 h
  by_cases hj : data.output_start_index ≤ (j : Int) ∧ (j : Int) < data.output_end_index
  · rw [if_pos hj]
    obtain ⟨_, _, _, i4⟩ := hin j hj.1 (by omega)
    simpa using i4
  · rw [if_neg hj]
    exact hout j (by omega)

/-- The steps of two workers with disjoint ranges commute. -/
theorem pearson_worker_comm (sqrt : α → α) (a b : ThreadData α)
    (ha : a.results_out = a.output_start_index) (hb : b.results_out = b.output_start_index)
    (hdisj : ∀ k : Int, ¬ (a.output_start_index ≤ k ∧ k < a.output_end_index ∧
      b.output_start_index ≤ k ∧ k < b.output_end_index)) (buf : List α) :
    (pearson_worker sqrt a buf).bind (pearson_worker sqrt b) =
      (pearson_worker sqrt b buf).bind (pearson_worker sqrt a) := by
  cases hab : pearson_worker sqrt a buf with
  | none =>
    simp only [Option.none_bind]
    cases hbb : pearson_worker sqrt b buf with
    | none => rfl
    | some b2 =>
      simp only [Option.some_bind]
      have hl := (workerLoop_some sqrt b hb _ _ buf b2 hbb).1
      exact (pearson_worker_none sqrt a buf b2 ha hl hab).symm
  | some a1 =>
    simp only [Option.some_bind]
    have hla := (workerLoop_some sqrt a ha _ _ buf a1 hab).1
    cases hbb : pearson_worker sqrt b buf with
    | none =>
      simp only [Option.none_bind]
      exact pearson_worker_none sqrt b buf a1 hb hla hbb
    | some b2 =>
      simp only [Option.some_bind]
      have hlb := (workerLoop_some sqrt b hb _ _ buf b2 hbb).1
      obtain ⟨a12, h12⟩ := (pearson_worker_isSome_iff sqrt b a1 hb).mpr (by
        rw [hla]; exact (pearson_worker_isSome_iff sqrt b buf hb).mp ⟨b2, hbb⟩)
      obtain ⟨b21, h21⟩ := (pearson_worker_isSome_iff sqrt a b2 ha).mpr (by
        rw [hlb]; exact (pearson_worker_isSome_iff sqrt a buf ha).mp ⟨a1, hab⟩)
      rw [h12, h21]
      congr 1
      apply List.ext_getElem?
      intro j
      rw [pearson_worker_getElem? sqrt b a1 a12 hb h12 j,
        pearson_worker_getElem? sqrt a buf a1 ha hab j,
        pearson_worker_getElem? sqrt a b2 b21 ha h21 j,
        pearson_worker_getElem? sqrt b buf b2 hb hbb j]
      have hd := hdisj j
      by_cases hja : a.output_start_index ≤ (j : Int) ∧ (j : Int) < a.output_end_index
      · have hjb : ¬ (b.output_start_index ≤ (j : Int) ∧ (j : Int) < b.output_end_index) := by
          intro hjb
          exact hd ⟨hja.1, hja.2, hjb.1, hjb.2⟩
        simp only [if_pos hja, if_neg hjb]
      · simp only [if_neg hja]

/-- Running workers whose steps commute pairwise in another order gives the same outcome. -/
theorem runWorkers_perm (sqrt : α → α) (ws1 ws2 : List (ThreadData α)) (hperm : ws1.Perm ws2) :
    (∀ a ∈ ws1, ∀ b ∈ ws1, ∀ buf : List α,
      (pearson_worker sqrt a buf).bind (pearson_worker sqrt b) =
        (pearson_worker sqrt b buf).bind (pearson_worker sqrt a)) →
    ∀ buf : List α, runWorkers sqrt ws1 buf = runWorkers sqrt ws2 buf := by
  induction hperm with
  | nil => intro _ buf; rfl
  | cons x _ ih =>
    intro hcomm buf
    simp only [runWorkers, Option.bind_eq_bind]
    cases pearson_worker sqrt x buf with
    | none => rfl
    | some b =>
      simp only [Option.some_bind]
      exact ih (fun a ha c hc => hcomm a (List.mem_cons_of_mem _ ha) c
        (List.mem_cons_of_mem _ hc)) b
  | swap x y l =>
    intro hcomm buf
    have h := hcomm y (List.mem_cons_self _ _) x
      (List.mem_cons_of_mem _ (List.mem_cons_self _ _)) buf
    simp only [runWorkers, Option.bind_eq_bind]
    rw [← Option.bind_assoc, ← Option.bind_assoc, h]
  | trans p1 _ ih1 ih2 =>
    intro hcomm buf
    rw [ih1 hcomm buf]
    exact ih2 (fun a ha c hc => hcomm a (p1.mem_iff.mpr ha) c (p1.mem_iff.mpr hc)) buf

/-- Two records of the scheduling loop are the same record or have disjoint ranges. -/
theorem threadData_eq_or_disjoint {β : Type} (datasets : List (Vector β))
    (total threads : Int) (h0 : 0 ≤ total) (h1 : 1 ≤ threads) (a b : ThreadData β)
    (ha : a ∈ threadData datasets total threads) (hb : b ∈ threadData datasets total threads) :
    a.results_out = a.output_start_index ∧ b.results_out = b.output_start_index ∧
    (a = b ∨ ∀ k : Int, ¬ (a.output_start_index ≤ k ∧ k < a.output_end_index ∧
      b.output_start_index ≤ k ∧ k < b.output_end_index)) := by
  obtain ⟨_, _, _, hc0⟩ := tdiv_tmod_facts total threads h0 h1
  obtain ⟨t, ht⟩ := List.getElem?_of_mem ha
  obtain ⟨t2, ht2⟩ := List.getElem?_of_mem hb
  obtain ⟨_, _, e2, e3, e4⟩ := threadData_getElem? datasets total threads h0 h1 t a ht
  obtain ⟨_, _, f2, f3, f4⟩ := threadData_getElem? datasets total threads h0 h1 t2 b ht2
  refine ⟨e4, f4, ?_⟩
  rcases Nat.lt_trichotomy t t2 with h | h | h
  · right
    intro k hk
    have m := chunkStart_mono (total.tdiv threads) (total.tmod threads) ((t : Int) + 1) t2 hc0
      (by omega)
    rw [e2, e3, f2, f3] at hk
    omega
  · left
    subst h
    rw [ht] at ht2
    exact Option.some.inj ht2
  · right
    intro k hk
    have m := chunkStart_mono (total.tdiv threads) (total.tmod threads) ((t2 : Int) + 1) t hc0
      (by omega)
    rw [e2, e3, f2, f3] at hk
    omega

/-- C14: the final buffer does not depend on the order in which the workers run.  For the
chunks the scheduler produces, the steps of any two workers commute, and applying the steps
in any permutation of the workers to a buffer gives the same outcome as applying them in
creation order. -/
theorem runWorkers_order_independent (sqrt : α → α) (datasets : List (Vector α))
    (total effective_threads : Int) (h0 : 0 ≤ total) (h1 : 1 ≤ effective_threads) :
    (∀ a ∈ threadData datasets total effective_threads,
      ∀ b ∈ threadData datasets total effective_threads, ∀ buf : List α,
        (pearson_worker sqrt a buf).bind (pearson_worker sqrt b) =
          (pearson_worker sqrt b buf).bind (pearson_worker sqrt a)) ∧
    (∀ ws : List (ThreadData α), ws.Perm (threadData datasets total effective_threads) →
      ∀ buf : List α,
        runWorkers sqrt ws buf = runWorkers sqrt (threadData datasets total effective_threads) buf)
    := by
  have hcomm : ∀ a ∈ threadData datasets total effective_threads,
      ∀ b ∈ threadData datasets total effective_threads, ∀ buf : List α,
        (pearson_worker sqrt a buf).bind (pearson_worker sqrt b) =
          (pearson_worker sqrt b buf).bind (pearson_worker sqrt a) := by
    intro a ha b hb buf
    obtain ⟨va, vb, hab⟩ := threadData_eq_or_disjoint datasets total effective_threads h0 h1 a b
      ha hb
    rcases hab with rfl | hd
    · rfl
    · exact pearson_worker_comm sqrt a b va vb hd buf
  refine ⟨hcomm, ?_⟩
  intro ws hperm buf
  exact (runWorkers_perm sqrt _ _ hperm.symm hcomm buf).symm

/-- Witness of C14: three workers on three vectors, run in the order 2, 0, 1. -/
theorem runWorkers_order_independent_witness :
    runWorkers Real.sqrt
        [ { datasets := ([[1, 2, 3], [2, 4, 6], [3, 2, 1]] : List (Vector ℝ))
            output_start_index := 2, output_end_index := 3, results_out := 2 },
          { datasets := ([[1, 2, 3], [2, 4, 6], [3, 2, 1]] : List (Vector ℝ))
            output_start_index := 0, output_end_index := 1, results_out := 0 },
          { datasets := ([[1, 2, 3], [2, 4, 6], [3, 2, 1]] : List (Vector ℝ))
            output_start_index := 1, output_end_index := 2, results_out := 1 } ] [0, 0, 0]
      = runWorkers Real.sqrt
          (threadData ([[1, 2, 3], [2, 4, 6], [3, 2, 1]] : List (Vector ℝ)) 3 3) [0, 0, 0] := by
  refine (runWorkers_order_independent Real.sqrt
    ([[1, 2, 3], [2, 4, 6], [3, 2, 1]] : List (Vector ℝ)) 3 3 (by decide) (by decide)).2 _ ?_ _
  have hd : threadData ([[1, 2, 3], [2, 4, 6], [3, 2, 1]] : List (Vector ℝ)) 3 3 =
      [ { datasets := ([[1, 2, 3], [2, 4, 6], [3, 2, 1]] : List (Vector ℝ))
          output_start_index := 0, output_end_index := 1, results_out := 0 },
        { datasets := ([[1, 2, 3], [2, 4, 6], [3, 2, 1]] : List (Vector ℝ))
          output_start_index := 1, output_end_index := 2, results_out := 1 },
        { datasets := ([[1, 2, 3], [2, 4, 6], [3, 2, 1]] : List (Vector ℝ))
          output_start_index := 2, output_end_index := 3, results_out := 2 } ] := by
    rfl
  rw [hd]
  exact (List.Perm.swap _ _ _).trans (List.Perm.cons _ (List.Perm.swap _ _ _))

end Order

/-! ## The fused kernel and the unrolled kernel -/

section FusedLoops

variable {α : Type} [Zero α] [Add α] [Mul α]

theorem fusedLoop_eq (x y : List α) (n : Nat) (hx : x.length = n) (hy : y.length = n) :
    ∀ (m i : Nat), n - i = m → i ≤ n →
      Op2.fusedLoop x y n i (sumsUpTo x y i) = some (sumsUpTo x y n) := by
  intro m
  induction m with
  | zero =>
    intro i hm hi
    have : i = n := by omega
    subst this
    rw [Op2.fusedLoop]; simp
  | succ m ih =>
    intro i hm hi
    have hlt : i < n := by omega
    rw [Op2.fusedLoop]
    have h1 : x[i]? = some x[i] := List.getElem?_eq_getElem (by omega)
    have h2 : y[i]? = some y[i] := List.getElem?_eq_getElem (by omega)
    simp only [hlt, if_true, h1, h2, Option.bind_eq_bind, Option.some_bind]
    rw [← sumsUpTo_succ x y i _ _ h1 h2]
    exact ih (i + 1) (by omega) (by omega)

/-- The sums over all element pairs, as a left fold in element order. -/
theorem sumsUpTo_length (x y : List α) :
    sumsUpTo x y x.length = (x.zip y).foldl (fun s p => s.accumulate p.1 p.2) Sums.zero := by
  unfold sumsUpTo
  rw [List.take_of_length_le (by simp)]

end FusedLoops

section Fused

variable {α : Type} [Zero α] [One α] [Add α] [Sub α] [Mul α] [Div α] [Neg α] [NatCast α]
  [LE α] [DecidableRel (fun a b : α => a ≤ b)] [Min α] [Max α]

/-- On vectors of equal length the fused kernel returns what the unrolled kernel returns. -/
theorem op2_pearson_eq (sqrt : α → α) (x y : List α) (h : x.length = y.length) :
    Op2.pearson sqrt x y = pearson sqrt x y := by
  rw [pearson_eq sqrt x y h]
  unfold Op2.pearson
  by_cases hn : x.length = 0
  · simp [hn]
  · have hf := fusedLoop_eq x y x.length rfl h.symm _ 0 rfl (Nat.zero_le _)
    rw [sumsUpTo_zero] at hf
    simp only [hn, if_false, hf, Option.bind_eq_bind, Option.some_bind]

/-- C15: the 4-way unrolled kernel (`pearson` of pearson_op3 and of the threaded engine) and the
fused kernel (`pearson` of pearson_op2) agree on vectors of equal length, whatever the length:
their loops return the same five sums, the left fold of the updates over the element pairs in
element order, and the two kernels return the same result. -/
theorem unrolled_eq_fused (sqrt : α → α) (x y : Vector α) (h : x.length = y.length) :
    (∃ s : Sums α, accumulateSums x y x.length = some s ∧
      Op2.fusedLoop x y x.length 0 Sums.zero = some s ∧
      s = (x.zip y).foldl (fun s p => s.accumulate p.1 p.2) Sums.zero) ∧
    pearson sqrt x y = Op2.pearson sqrt x y := by
  refine ⟨⟨sumsUpTo x y x.length, accumulateSums_eq x y h, ?_, sumsUpTo_length x y⟩,
    (op2_pearson_eq sqrt x y h).symm⟩
  have hf := fusedLoop_eq x y x.length rfl h.symm _ 0 rfl (Nat.zero_le _)
  rw [sumsUpTo_zero] at hf
  exact hf

/-- Witness of C15 on vectors of length five (one unrolled iteration and one remainder
iteration). -/
theorem unrolled_eq_fused_witness :
    pearson Real.sqrt ([1, 2, 3, 4, 5] : Vector ℝ) [2, 1, 4, 3, 6]
      = Op2.pearson Real.sqrt ([1, 2, 3, 4, 5] : Vector ℝ) [2, 1, 4, 3, 6] :=
  (unrolled_eq_fused Real.sqrt [1, 2, 3, 4, 5] [2, 1, 4, 3, 6] rfl).2

/-! ## Symmetry of the kernel -/

end Fused

section Symmetry

variable {α : Type} [LinearOrderedField α]

end Symmetry

/-! ## The two-pass kernel and the fused kernel -/

section TwoPass

variable {α : Type} [LinearOrderedField α]

/-- The loop of the two-pass kernel on vectors of equal length: a left fold of its update over
the element pairs from position `i` on. -/
theorem centeredLoop_eq (x y : List α) (mx my : α) (n : Nat) (hx : x.length = n)
    (hy : y.length = n) :
    ∀ (m i : Nat) (c : Op1.Centered α), n - i = m → i ≤ n →
      Op1.centeredLoop x y mx my n i c =
        some (((x.zip y).drop i).foldl
          (fun c p =>
            { numerator := c.numerator + (p.1 - mx) * (p.2 - my)
              x_variance_sum := c.x_variance_sum + (p.1 - mx) * (p.1 - mx)
              y_variance_sum := c.y_variance_sum + (p.2 - my) * (p.2 - my) }) c) := by
  intro m
  induction m with
  | zero =>
    intro i c hm hi
    have : i = n := by omega
    subst this
    rw [Op1.centeredLoop, List.drop_of_length_le (by simp [hx, hy])]
    simp
  | succ m ih =>
    intro i c hm hi
    have hlt : i < n := by omega
    rw [Op1.centeredLoop]
    have h1 : x[i]? = some x[i] := List.getElem?_eq_getElem (by omega)
    have h2 : y[i]? = some y[i] := List.getElem?_eq_getElem (by omega)
    have hz : i < (x.zip y).length := by simp [hx, hy]; omega
    simp only [hlt, if_true, h1, h2, Option.bind_eq_bind, Option.some_bind]
    rw [ih (i + 1) _ (by omega) (by omega), List.drop_eq_getElem_cons hz, List.foldl_cons]
    simp

theorem foldl_centered (mx my : α) (l : List (α × α)) :
    ∀ c : Op1.Centered α,
      l.foldl
          (fun c p =>
            { numerator := c.numerator + (p.1 - mx) * (p.2 - my)
              x_variance_sum := c.x_variance_sum + (p.1 - mx) * (p.1 - mx)
              y_variance_sum := c.y_variance_sum + (p.2 - my) * (p.2 - my) }) c =
        { numerator := c.numerator + (l.map fun p => (p.1 - mx) * (p.2 - my)).sum
          x_variance_sum := c.x_variance_sum + (l.map fun p => (p.1 - mx) * (p.1 - mx)).sum
          y_variance_sum := c.y_variance_sum + (l.map fun p => (p.2 - my) * (p.2 - my)).sum } := by
  induction l with
  | nil => intro c; simp
  | cons p l ih =>
    intro c
    rw [List.foldl_cons, ih]
    simp only [List.map_cons, List.sum_cons, add_assoc]

/-- The centred sums in terms of the plain sums. -/
theorem centered_sums (l : List (α × α)) (a b : α) :
    (l.map fun p => (p.1 - a) * (p.2 - b)).sum =
        (l.map fun p => p.1 * p.2).sum - a * (l.map fun p => p.2).sum
          - b * (l.map fun p => p.1).sum + (l.length : α) * (a * b) ∧
    (l.map fun p => (p.1 - a) * (p.1 - a)).sum =
        (l.map fun p => p.1 * p.1).sum - 2 * a * (l.map fun p => p.1).sum
          + (l.length : α) * (a * a) ∧
    (l.map fun p => (p.2 - b) * (p.2 - b)).sum =
        (l.map fun p => p.2 * p.2).sum - 2 * b * (l.map fun p => p.2).sum
          + (l.length : α) * (b * b) := by
  induction l with
  | nil => simp
  | cons p l ih =>
    obtain ⟨h1, h2, h3⟩ := ih
    simp only [List.map_cons, List.sum_cons, List.length_cons, h1, h2, h3]
    push_cast
    refine ⟨by ring, by ring, by ring⟩

theorem sum_mul_self_nonneg (l : List (α × α)) (f : α × α → α) :
    0 ≤ (l.map fun p => f p * f p).sum := by
  apply List.sum_nonneg
  intro e he
  obtain ⟨p, _, rfl⟩ := List.mem_map.mp he
  exact mul_self_nonneg _

end TwoPass

/-- The formula of the fused kernel and the formula of the two-pass kernel on sums that are
related as the plain and the centred sums of the same vectors are. -/
theorem finish_eq_centered (n : Nat) (hn : 0 < n) (s : Sums ℝ) (N1 xv yv : ℝ)
    (hnum : (n : ℝ) * s.sum_xy - s.sum_x * s.sum_y = (n : ℝ) * N1)
    (hx : (n : ℝ) * s.sum_x2 - s.sum_x * s.sum_x = (n : ℝ) * xv)
    (hy : (n : ℝ) * s.sum_y2 - s.sum_y * s.sum_y = (n : ℝ) * yv)
    (hxv : 0 ≤ xv) (hyv : 0 ≤ yv) :
    (Real.sqrt (xv * yv) = 0 ↔
      ((n : ℝ) * s.sum_x2 - s.sum_x * s.sum_x ≤ 0 ∨
        (n : ℝ) * s.sum_y2 - s.sum_y * s.sum_y ≤ 0)) ∧
    finish Real.sqrt n s =
      if Real.sqrt (xv * yv) = 0 then 0
      else max (min (N1 / Real.sqrt (xv * yv)) 1) (-1) := by
  have hnpos : (0 : ℝ) < (n : ℝ) := by exact_mod_cast hn
  have hiff : Real.sqrt (xv * yv) = 0 ↔
      ((n : ℝ) * s.sum_x2 - s.sum_x * s.sum_x ≤ 0 ∨
        (n : ℝ) * s.sum_y2 - s.sum_y * s.sum_y ≤ 0) := by
    rw [hx, hy, Real.sqrt_eq_zero']
    constructor
    · intro h
      rcases eq_or_lt_of_le hxv with h1 | h1
      · left; rw [← h1]; simp
      · rcases eq_or_lt_of_le hyv with h2 | h2
        · right; rw [← h2]; simp
        · exact absurd h (not_le.mpr (mul_pos h1 h2))
    · rintro (h | h)
      · have : xv ≤ 0 := by
          by_contra hc
          exact absurd h (not_le.mpr (mul_pos hnpos (not_le.mp hc)))
        have hz : xv = 0 := le_antisymm this hxv
        rw [hz]; simp
      · have : yv ≤ 0 := by
          by_contra hc
          exact absurd h (not_le.mpr (mul_pos hnpos (not_le.mp hc)))
        have hz : yv = 0 := le_antisymm this hyv
        rw [hz]; simp
  refine ⟨hiff, ?_⟩
  unfold finish
  simp only []
  by_cases hd : Real.sqrt (xv * yv) = 0
  · rw [if_pos (hiff.mp hd), if_pos hd]
  · rw [if_neg (fun h => hd (hiff.mpr h)), if_neg hd, hnum, hx, hy]
    have hprod : (n : ℝ) * xv * ((n : ℝ) * yv) = ((n : ℝ) * (n : ℝ)) * (xv * yv) := by ring
    rw [hprod, Real.sqrt_mul (mul_self_nonneg _), Real.sqrt_mul_self hnpos.le,
      mul_div_mul_left _ _ hnpos.ne']

/-- The two-pass kernel and the fused kernel on non-empty real vectors of equal length. -/
theorem op1_op2_nonempty (x y : List ℝ) (h : x.length = y.length) (hn : x.length ≠ 0) :
    ∃ (c : Op1.Centered ℝ) (s : Sums ℝ),
      Op1.centeredLoop x y (mean x) (mean y) x.length 0
        { numerator := 0, x_variance_sum := 0, y_variance_sum := 0 } = some c ∧
      Op2.fusedLoop x y x.length 0 Sums.zero = some s ∧
      (Real.sqrt (c.x_variance_sum * c.y_variance_sum) = 0 ↔
        ((x.length : ℝ) * s.sum_x2 - s.sum_x * s.sum_x ≤ 0 ∨
          (x.length : ℝ) * s.sum_y2 - s.sum_y * s.sum_y ≤ 0)) ∧
      Op1.pearson Real.sqrt x y = Op2.pearson Real.sqrt x y := by
  have hnpos : (0 : ℝ) < (x.length : ℝ) := by exact_mod_cast Nat.pos_of_ne_zero hn
  have hloop := centeredLoop_eq x y (mean x) (mean y) x.length rfl h.symm _ 0
    { numerator := 0, x_variance_sum := 0, y_variance_sum := 0 } rfl (Nat.zero_le _)
  rw [List.drop_zero, foldl_centered] at hloop
  simp only [zero_add] at hloop
  have hf := fusedLoop_eq x y x.length rfl h.symm _ 0 rfl (Nat.zero_le _)
  rw [sumsUpTo_zero, sumsUpTo_full] at hf
  obtain ⟨c1, c2, c3⟩ := centered_sums (x.zip y) (mean x) (mean y)
  have hzl : ((x.zip y).length : ℝ) = (x.length : ℝ) := by
    simp [h]
  have hmx : (x.length : ℝ) * mean x = ((x.zip y).map fun p => p.1).sum := by
    rw [zip_sum_fst x y h]; unfold mean; field_simp
  have hmy : (x.length : ℝ) * mean y = ((x.zip y).map fun p => p.2).sum := by
    rw [zip_sum_snd x y h]; unfold mean; rw [← h]; field_simp
  have key := finish_eq_centered x.length (Nat.pos_of_ne_zero hn)
    { sum_x := ((x.zip y).map fun p => p.1).sum
      sum_y := ((x.zip y).map fun p => p.2).sum
      sum_x2 := ((x.zip y).map fun p => p.1 * p.1).sum
      sum_y2 := ((x.zip y).map fun p => p.2 * p.2).sum
      sum_xy := ((x.zip y).map fun p => p.1 * p.2).sum }
    ((x.zip y).map fun p => (p.1 - mean x) * (p.2 - mean y)).sum
    ((x.zip y).map fun p => (p.1 - mean x) * (p.1 - mean x)).sum
    ((x.zip y).map fun p => (p.2 - mean y) * (p.2 - mean y)).sum
    (by
      simp only []
      rw [c1, hzl, ← hmx, ← hmy]; ring)
    (by
      simp only []
      rw [c2, hzl, ← hmx]; ring)
    (by
      simp only []
      rw [c3, hzl, ← hmy]; ring)
    (sum_mul_self_nonneg _ fun p => p.1 - mean x)
    (sum_mul_self_nonneg _ fun p => p.2 - mean y)
  refine ⟨_, _, hloop, hf, key.1, ?_⟩
  unfold Op1.pearson Op2.pearson
  simp only [hn, if_false, hloop, hf, Option.bind_eq_bind, Option.some_bind]
  rw [key.2]
  split <;> rfl

/-- C16: in exact arithmetic the mean-centred two-pass kernel (`pearson` of pearson_op1, with
`mean = sum / size`) and the single-pass kernel (`pearson` of pearson_op2) return the same value
on every pair of vectors of equal length; on non-empty vectors the test `denominator == 0.0` of
the first fires exactly when the test `term_x <= 0 || term_y <= 0` of the second fires; on
empty vectors both return `0`. -/
theorem two_pass_eq_single_pass (x y : Vector ℝ) (h : x.length = y.length) :
    Op1.pearson Real.sqrt x y = Op2.pearson Real.sqrt x y ∧
    (x.length ≠ 0 →
      ∃ (c : Op1.Centered ℝ) (s : Sums ℝ),
        Op1.centeredLoop x y (mean x) (mean y) x.length 0
          { numerator := 0, x_variance_sum := 0, y_variance_sum := 0 } = some c ∧
        Op2.fusedLoop x y x.length 0 Sums.zero = some s ∧
        (Real.sqrt (c.x_variance_sum * c.y_variance_sum) = 0 ↔
          ((x.length : ℝ) * s.sum_x2 - s.sum_x * s.sum_x ≤ 0 ∨
            (x.length : ℝ) * s.sum_y2 - s.sum_y * s.sum_y ≤ 0))) ∧
    (x.length = 0 →
      Op1.pearson Real.sqrt x y = some 0 ∧ Op2.pearson Real.sqrt x y = some 0) := by
  have hempty : x.length = 0 →
      Op1.pearson Real.sqrt x y = some 0 ∧ Op2.pearson Real.sqrt x y = some 0 := by
    intro h0
    unfold Op1.pearson Op2.pearson
    simp [h0]
  refine ⟨?_, ?_, hempty⟩
  · by_cases hn : x.length = 0
    · rw [(hempty hn).1, (hempty hn).2]
    · obtain ⟨_, _, _, _, _, he⟩ := op1_op2_nonempty x y h hn
      exact he
  · intro hn
    obtain ⟨c, s, h1, h2, h3, _⟩ := op1_op2_nonempty x y h hn
    exact ⟨c, s, h1, h2, h3⟩

/-- Witness of C16: a pair with a constant vector (degenerate in both kernels) and a pair of
empty vectors. -/
theorem two_pass_eq_single_pass_witness :
    Op1.pearson Real.sqrt ([5, 5, 5] : Vector ℝ) [1, 2, 3]
      = Op2.pearson Real.sqrt ([5, 5, 5] : Vector ℝ) [1, 2, 3] ∧
    Op1.pearson Real.sqrt ([] : Vector ℝ) [] = some 0 :=
  ⟨(two_pass_eq_single_pass [5, 5, 5] [1, 2, 3] rfl).1,
    ((two_pass_eq_single_pass [] [] rfl).2.2 rfl).1⟩

/-! ## The sequential nested loop -/

section SequentialLemmas

variable {α : Type}

theorem toSize_small (x : Int) (h0 : 0 ≤ x) (h1 : x < 18446744073709551616) : toSize x = x := by
  unfold toSize; omega

/-- The inner loop leaves at once when its condition fails. -/
theorem innerLoop_exit (pearson : Vector α → Vector α → Option α) (datasets : List (Vector α))
    (fuel : Nat) (hf : 0 < fuel) (sample1 sample2 : Int) (st : Sequential.Trace α)
    (h : ¬ toSize sample2 < (datasets.length : Int)) :
    Sequential.innerLoop pearson datasets fuel sample1 sample2 st = some st := by
  obtain ⟨m, rfl⟩ := Nat.exists_eq_succ_of_ne_zero (by omega : fuel ≠ 0)
  simp only [Sequential.innerLoop]
  rw [if_neg h]

/-- The inner loop of row `i`, started at column `s2`, appends the coefficients of the columns
`s2 … N - 1` in this order. -/
theorem innerLoop_row (pearson : Vector α → Vector α → Option α) (datasets : List (Vector α))
    (hN : datasets.length < 2147483648) (i : Nat) (hi : i < datasets.length) (g : Nat → α)
    (hg : ∀ (j : Nat) (hj : j < datasets.length), i < j →
      pearson datasets[i] datasets[j] = some (g j)) :
    ∀ (m s2 fuel : Nat) (st : Sequential.Trace α), datasets.length - s2 = m → i < s2 →
      s2 ≤ datasets.length → m < fuel →
      Sequential.innerLoop pearson datasets fuel (i : Int) (s2 : Int) st =
        some { result := st.result ++ (List.range' s2 m).map g
               outer_iterations := st.outer_iterations
               pearson_calls := st.pearson_calls + m } := by
  intro m
  induction m with
  | zero =>
    intro s2 fuel st hm _ hs2 hf
    have hs : toSize (s2 : Int) = s2 := toSize_small _ (by omega) (by omega)
    rw [innerLoop_exit pearson datasets fuel hf _ _ st (by rw [hs]; omega)]
    simp
  | succ m ih =>
    intro s2 fuel st hm his hs2 hf
    obtain ⟨f, rfl⟩ := Nat.exists_eq_succ_of_ne_zero (by omega : fuel ≠ 0)
    have hs : toSize (s2 : Int) = s2 := toSize_small _ (by omega) (by omega)
    have hsi : toSize (i : Int) = i := toSize_small _ (by omega) (by omega)
    have hlt : s2 < datasets.length := by omega
    have hnext : Sequential.intSucc (s2 : Int) = some ((s2 + 1 : Nat) : Int) := by
      unfold Sequential.intSucc
      rw [if_pos (by omega)]
      push_cast
      rfl
    simp only [Sequential.innerLoop]
    rw [if_pos (by rw [hs]; omega), hs, hsi, hnext]
    simp only [Int.toNat_ofNat, List.getElem?_eq_getElem hi, List.getElem?_eq_getElem hlt,
      Option.bind_eq_bind, Option.some_bind, hg s2 hlt his]
    rw [ih (s2 + 1) f _ (by omega) (by omega) (by omega) (by omega)]
    simp only [List.range'_succ, List.map_cons, List.append_assoc, List.singleton_append,
      Option.some.injEq, Sequential.Trace.mk.injEq]
    refine ⟨trivial, trivial, by omega⟩

/-- The outer loop, started at row `s1`, appends the rows `s1 … N - 2` in this order. -/
theorem outerLoop_rows (pearson : Vector α → Vector α → Option α) (datasets : List (Vector α))
    (hN : datasets.length < 2147483648) (G : Nat → Nat → α)
    (hG : ∀ (i j : Nat) (hi : i < datasets.length) (hj : j < datasets.length), i < j →
      pearson datasets[i] datasets[j] = some (G i j)) :
    ∀ (m s1 fuel : Nat) (st : Sequential.Trace α), datasets.length - 1 - s1 = m →
      s1 + 1 ≤ datasets.length → m < fuel →
      Sequential.outerLoop pearson datasets fuel (s1 : Int) st =
        some { result := st.result ++ (List.range' s1 m).flatMap fun i =>
                 (List.range' (i + 1) (datasets.length - (i + 1))).map (G i)
               outer_iterations := st.outer_iterations + m
               pearson_calls := st.pearson_calls + ((List.range' s1 m).flatMap fun i =>
                 (List.range' (i + 1) (datasets.length - (i + 1))).map (G i)).length } := by
  intro m
  induction m with
  | zero =>
    intro s1 fuel st hm hs1 hf
    obtain ⟨f, rfl⟩ := Nat.exists_eq_succ_of_ne_zero (by omega : fuel ≠ 0)
    have hs : toSize (s1 : Int) = s1 := toSize_small _ (by omega) (by omega)
    have hb : toSize ((datasets.length : Int) - 1) = (datasets.length : Int) - 1 :=
      toSize_small _ (by omega) (by omega)
    simp only [Sequential.outerLoop]
    rw [if_neg (by rw [hs, hb]; omega)]
    simp
  | succ m ih =>
    intro s1 fuel st hm hs1 hf
    obtain ⟨f, rfl⟩ := Nat.exists_eq_succ_of_ne_zero (by omega : fuel ≠ 0)
    have hs : toSize (s1 : Int) = s1 := toSize_small _ (by omega) (by omega)
    have hb : toSize ((datasets.length : Int) - 1) = (datasets.length : Int) - 1 :=
      toSize_small _ (by omega) (by omega)
    have hnext : Sequential.intSucc (s1 : Int) = some ((s1 + 1 : Nat) : Int) := by
      unfold Sequential.intSucc
      rw [if_pos (by omega)]
      push_cast
      rfl
    have hstates : Sequential.intStates = 4294967296 := rfl
    simp only [Sequential.outerLoop]
    rw [if_pos (by rw [hs, hb]; omega), hnext]
    simp only [Option.bind_eq_bind, Option.some_bind]
    rw [innerLoop_row pearson datasets hN s1 (by omega) (G s1)
        (fun j hj hlt => hG s1 j (by omega) hj hlt) (datasets.length - (s1 + 1)) (s1 + 1)
        Sequential.intStates st rfl (by omega) (by omega) (by omega)]
    simp only [Option.bind_eq_bind, Option.some_bind]
    rw [ih (s1 + 1) f _ (by omega) (by omega) (by omega)]
    simp only [List.range'_succ, List.flatMap_cons, List.append_assoc, List.length_append,
      List.length_map, List.length_range', Option.some.injEq, Sequential.Trace.mk.injEq]
    refine ⟨trivial, by omega, by omega⟩

/-- The rows of the nested loop are the canonical pair order. -/
theorem canonicalPairs_map (N : Nat) (G : Nat → Nat → α) :
    (canonicalPairs N).map (fun p => G p.1 p.2) =
      (List.range' 0 (N - 1)).flatMap fun i =>
        (List.range' (i + 1) (N - (i + 1))).map (G i) := by
  unfold canonicalPairs
  rw [List.map_flatMap]
  simp only [List.map_map]
  cases N with
  | zero => simp
  | succ n =>
    rw [List.range_succ, List.flatMap_append, List.flatMap_singleton, Nat.add_sub_cancel,
      Nat.sub_self, List.range'_zero, List.map_nil, List.append_nil, List.range_eq_range']
    rfl

/-- The sequential `correlation_coefficients` on a non-empty collection whose size fits an
`int` and on which the kernel returns: the coefficients of the canonical pairs, in order. -/
theorem sequential_run_eq (pearson : Vector α → Vector α → Option α)
    (datasets : List (Vector α)) (h1 : 1 ≤ datasets.length)
    (hN : datasets.length < 2147483648) (G : Nat → Nat → α)
    (hG : ∀ (i j : Nat) (hi : i < datasets.length) (hj : j < datasets.length), i < j →
      pearson datasets[i] datasets[j] = some (G i j)) :
    Sequential.run pearson datasets =
      some { result := (canonicalPairs datasets.length).map fun p => G p.1 p.2
             outer_iterations := datasets.length - 1
             pearson_calls := (canonicalPairs datasets.length).length } := by
  have hstates : Sequential.intStates = 4294967296 := rfl
  unfold Sequential.run
  have h := outerLoop_rows pearson datasets hN G hG (datasets.length - 1) 0
    Sequential.intStates { result := [], outer_iterations := 0, pearson_calls := 0 } rfl
    (by omega) (by omega)
  simp only [Nat.cast_zero] at h
  rw [h, ← canonicalPairs_map]
  simp

end SequentialLemmas

/-! ## Claims on the sequential variants -/

section SequentialClaims

variable {α : Type} [Zero α] [One α] [Add α] [Sub α] [Mul α] [Div α] [Neg α] [NatCast α]
  [LE α] [DecidableRel (fun a b : α => a ≤ b)] [Min α] [Max α]

/-- On a collection of equal-length vectors the kernel returns `pearsonValue` for every pair
of datasets. -/
theorem pearson_getD (sqrt : α → α) (datasets : List (Vector α)) (D : Nat)
    (hD : ∀ v ∈ datasets, v.length = D) (i j : Nat) (hi : i < datasets.length)
    (hj : j < datasets.length) :
    pearson sqrt datasets[i] datasets[j] =
      some (pearsonValue sqrt (datasets.getD i []) (datasets.getD j [])) := by
  rw [List.getD_eq_getElem _ _ hi, List.getD_eq_getElem _ _ hj,
    pearson_eq sqrt _ _ (by rw [hD _ (List.getElem_mem hi), hD _ (List.getElem_mem hj)])]
  rfl

/-- The sequential engine on a non-empty collection of equal-length vectors whose size fits an
`int`: one coefficient per canonical pair, in canonical order. -/
theorem sequential_correlation_coefficients_eq (sqrt : α → α) (datasets : List (Vector α))
    (h1 : 1 ≤ datasets.length) (hN : datasets.length < 2147483648) (D : Nat)
    (hD : ∀ v ∈ datasets, v.length = D) :
    Sequential.correlation_coefficients (pearson sqrt) datasets =
      some ((canonicalPairs datasets.length).map fun p =>
        pearsonValue sqrt (datasets.getD p.1 []) (datasets.getD p.2 [])) := by
  unfold Sequential.correlation_coefficients
  rw [sequential_run_eq (pearson sqrt) datasets h1 hN
    (fun i j => pearsonValue sqrt (datasets.getD i []) (datasets.getD j []))
    (fun i j hi hj _ => pearson_getD sqrt datasets D hD i j hi hj)]
  rfl

/-- C17, as stated, fails beyond the `int` range of the threaded engine: on `46342` vectors of
equal length the threaded `correlation_coefficients` returns nothing (its 32-bit `total_tasks`
is negative), the sequential one returns all `1073767311` coefficients. -/
theorem threaded_ne_sequential_46342 :
    (∀ v ∈ List.replicate 46342 ([1, 2] : Vector ℚ), v.length = 2) ∧
    correlation_coefficients (fun x => x) (List.replicate 46342 ([1, 2] : Vector ℚ)) 1 = none ∧
    (∃ res, Sequential.correlation_coefficients (pearson fun x => x)
        (List.replicate 46342 ([1, 2] : Vector ℚ)) = some res ∧ res.length = 1073767311) ∧
    correlation_coefficients (fun x => x) (List.replicate 46342 ([1, 2] : Vector ℚ)) 1 ≠
      Sequential.correlation_coefficients (pearson fun x => x)
        (List.replicate 46342 ([1, 2] : Vector ℚ)) := by
  have hD : ∀ v ∈ List.replicate 46342 ([1, 2] : Vector ℚ), v.length = 2 := by
    intro v hv
    rw [(List.mem_replicate.mp hv).2]
    rfl
  have hnone : correlation_coefficients (fun x => x)
      (List.replicate 46342 ([1, 2] : Vector ℚ)) 1 = none := by
    have h1 : toInt32 ((46342 : Nat) : Int) = 46342 := by decide
    have h2 : (toInt32 (46342 * (46342 - 1))).tdiv 2 = -1073716337 := by decide
    simp only [correlation_coefficients, correlation_coefficients_run, List.length_replicate,
      h1, h2]
    simp
  have hseq := sequential_correlation_coefficients_eq (fun x : ℚ => x)
    (List.replicate 46342 ([1, 2] : Vector ℚ)) (by rw [List.length_replicate]; omega)
    (by rw [List.length_replicate]; omega) 2 hD
  refine ⟨hD, hnone, ⟨_, hseq, ?_⟩, ?_⟩
  · rw [List.length_map, List.length_replicate]
    have hl := canonicalPairs_length 46342
    norm_num at hl
    omega
  · rw [hnone, hseq]
    intro h
    cases h

/-- C17, amended: for `2 ≤ N ≤ 46341` equal-length vectors and every thread count `≥ 1` the
threaded `correlation_coefficients` returns the sequence the sequential nested loop returns
with the same kernel. -/
theorem threaded_eq_sequential (sqrt : α → α) (datasets : List (Vector α)) (num_threads : Int)
    (hT : 1 ≤ num_threads) (hN : 2 ≤ datasets.length) (hmax : datasets.length ≤ 46341)
    (D : Nat) (hD : ∀ v ∈ datasets, v.length = D) :
    correlation_coefficients sqrt datasets num_threads =
      Sequential.correlation_coefficients (pearson sqrt) datasets ∧
    ∃ res, Sequential.correlation_coefficients (pearson sqrt) datasets = some res ∧
      res.length = datasets.length * (datasets.length - 1) / 2 := by
  obtain ⟨res, hres, hlen, hslot⟩ :=
    correlation_coefficients_spec sqrt datasets num_threads hT hN hmax D hD
  have hseq := sequential_correlation_coefficients_eq sqrt datasets (by omega) (by omega) D hD
  have hcl := canonicalPairs_length datasets.length
  have hnat : ((datasets.length * (datasets.length - 1) / 2 : Nat) : Int)
      = (datasets.length : Int) * ((datasets.length : Int) - 1) / 2 := by
    have h1 : ((datasets.length - 1 : Nat) : Int) = (datasets.length : Int) - 1 := by omega
    push_cast
    rw [h1]
  have hlen2 : (canonicalPairs datasets.length).length
      = datasets.length * (datasets.length - 1) / 2 := by omega
  have heq : res = (canonicalPairs datasets.length).map fun p =>
      pearsonValue sqrt (datasets.getD p.1 []) (datasets.getD p.2 []) := by
    apply List.ext_getElem?
    intro k
    by_cases hk : k < datasets.length * (datasets.length - 1) / 2
    · obtain ⟨i, j, hi, hj, hcp, _, hp⟩ := hslot k hk
      rw [← hp, pearson_getD sqrt datasets D hD i j hi hj, List.getElem?_map, hcp]
      rfl
    · rw [List.getElem?_eq_none (by omega), List.getElem?_eq_none (by
        rw [List.length_map]; omega)]
  refine ⟨by rw [hres, hseq, heq], _, hseq, ?_⟩
  rw [List.length_map]
  exact hlen2

/-- Witness of the amended C17: three vectors, two threads. -/
theorem threaded_eq_sequential_witness :
    correlation_coefficients Real.sqrt ([[1, 2, 3], [2, 4, 6], [3, 2, 1]] : List (Vector ℝ)) 2 =
      Sequential.correlation_coefficients (pearson Real.sqrt)
        ([[1, 2, 3], [2, 4, 6], [3, 2, 1]] : List (Vector ℝ)) :=
  (threaded_eq_sequential Real.sqrt ([[1, 2, 3], [2, 4, 6], [3, 2, 1]] : List (Vector ℝ)) 2
    (by decide) (by decide) (by decide) 3 (by simp)).1

end SequentialClaims

section SequentialSmall

variable {α : Type}

/-- On an empty collection the bound `datasets.size() - 1` is `2^64 - 1`, the condition of the
outer loop holds for every value `0 … INT_MAX` of its counter and the inner loop never runs;
the counter reaches `INT_MAX`, where `sample1 + 1` overflows.  However many evaluations of the
condition are allowed, the loop returns nothing. -/
theorem outerLoop_empty (pearson : Vector α → Vector α → Option α)
    (datasets : List (Vector α)) (hlen : datasets.length = 0) :
    ∀ (m : Nat) (sample1 : Int) (fuel : Nat) (st : Sequential.Trace α),
      0 ≤ sample1 → (2147483647 - sample1).toNat = m → sample1 ≤ 2147483647 →
      Sequential.outerLoop pearson datasets fuel sample1 st = none := by
  intro m
  induction m with
  | zero =>
    intro sample1 fuel st h0 hm h1
    have hs : sample1 = 2147483647 := by omega
    subst hs
    cases fuel with
    | zero => rfl
    | succ f =>
      simp only [Sequential.outerLoop]
      rw [if_pos (by rw [hlen]; unfold toSize; omega)]
      have hsucc : Sequential.intSucc 2147483647 = none := by decide
      rw [hsucc]
      rfl
  | succ m ih =>
    intro sample1 fuel st h0 hm h1
    cases fuel with
    | zero => rfl
    | succ f =>
      have hstates : 0 < Sequential.intStates := by decide
      have hsucc : Sequential.intSucc sample1 = some (sample1 + 1) := by
        unfold Sequential.intSucc
        rw [if_pos (by omega)]
      simp only [Sequential.outerLoop]
      rw [if_pos (by rw [hlen]; unfold toSize; omega), hsucc]
      simp only [Option.bind_eq_bind, Option.some_bind]
      rw [innerLoop_exit pearson datasets Sequential.intStates hstates _ _ st
        (by rw [hlen]; unfold toSize; omega)]
      simp only [Option.some_bind]
      exact ih (sample1 + 1) f _ (by omega) (by omega) (by omega)

/-- C20 on the code.  For a collection of size `1` the sequential `correlation_coefficients`
of pearson_op1, pearson_op2 and pearson_op3 returns an empty result, whatever the kernel: the
outer loop is not entered, `pearson` is not called and the collection is not indexed.  For
size `0` the bound `datasets.size() - 1` wraps to `2^64 - 1` and the outer loop is entered; the
inner condition is false for every counter value, so the inner body never runs; but the outer
condition holds for every value `0 … INT_MAX` of `sample1`, the increment at `INT_MAX` is a
signed overflow, and the call returns nothing, however many iterations are allowed: the empty
result of the claim is not returned. -/
theorem sequential_small (pearson : Vector α → Vector α → Option α)
    (datasets : List (Vector α)) :
    (datasets.length = 1 →
      Sequential.correlation_coefficients pearson datasets = some [] ∧
      Sequential.run pearson datasets =
        some { result := [], outer_iterations := 0, pearson_calls := 0 }) ∧
    (datasets.length = 0 →
      toSize ((datasets.length : Int) - 1) = 18446744073709551615 ∧
      (∀ sample1 : Int, 0 ≤ sample1 → sample1 ≤ 2147483647 →
        toSize sample1 < toSize ((datasets.length : Int) - 1)) ∧
      (∀ sample2 : Int, ¬ toSize sample2 < (datasets.length : Int)) ∧
      Sequential.intSucc 2147483647 = none ∧
      (∀ (fuel : Nat) (st : Sequential.Trace α),
        Sequential.outerLoop pearson datasets fuel 0 st = none) ∧
      Sequential.run pearson datasets = none ∧
      Sequential.correlation_coefficients pearson datasets = none ∧
      Sequential.correlation_coefficients pearson datasets ≠ some []) := by
  constructor
  · intro h1
    have hrun : Sequential.run pearson datasets =
        some { result := [], outer_iterations := 0, pearson_calls := 0 } := by
      unfold Sequential.run
      obtain ⟨f, hf⟩ : ∃ f, Sequential.intStates = f + 1 := ⟨4294967295, rfl⟩
      rw [hf]
      simp only [Sequential.outerLoop]
      rw [if_neg (by rw [h1]; unfold toSize; omega)]
    refine ⟨?_, hrun⟩
    unfold Sequential.correlation_coefficients
    rw [hrun]
    rfl
  · intro h0
    have hloop : ∀ (fuel : Nat) (st : Sequential.Trace α),
        Sequential.outerLoop pearson datasets fuel 0 st = none := fun fuel st =>
      outerLoop_empty pearson datasets h0 2147483647 0 fuel st (by omega) (by omega) (by omega)
    have hrun : Sequential.run pearson datasets = none := by
      unfold Sequential.run
      exact hloop _ _
    have hcc : Sequential.correlation_coefficients pearson datasets = none := by
      unfold Sequential.correlation_coefficients
      rw [hrun]
      rfl
    refine ⟨?_, ?_, ?_, by decide, hloop, hrun, hcc, ?_⟩
    · rw [h0]
      unfold toSize
      omega
    · intro sample1 hs0 hs1
      rw [h0]
      unfold toSize
      omega
    · intro sample2
      rw [h0]
      unfold toSize
      omega
    · rw [hcc]
      intro h
      cases h

/-- Witness of C20 on the code: a collection of one vector, and the empty collection, with a
kernel that never returns. -/
theorem sequential_small_witness :
    Sequential.correlation_coefficients (fun _ _ => none) ([[1, 2, 3]] : List (Vector ℚ))
      = some [] ∧
    Sequential.correlation_coefficients (fun _ _ => none) ([] : List (Vector ℚ)) = none :=
  ⟨((sequential_small (fun _ _ => none) ([[1, 2, 3]] : List (Vector ℚ))).1 (by decide)).1,
    ((sequential_small (fun _ _ => none) ([] : List (Vector ℚ))).2 (by decide)).2.2.2.2.2.2.1⟩

end SequentialSmall

end Analysis
